import Mathlib

/-!
# Single-pass prefix sum with decoupled look-back (`Src/Base/AMReX_Scan.H`)

A shallow embedding of `amrex::Scan::PrefixSum` (the CUDA build of the
`#else` branch, lines 398-631), of its drivers `InclusiveSum` and
`ExclusiveSum`, and of the host arithmetic that sizes the launch; of the parts
of the HIP and SYCL builds that differ (the scan of warp sums, the emulated
ballot, the launch geometry); of the host versions of `Gpu::inclusive_scan` and
`Gpu::exclusive_scan`; and of the literal parser `detail::atof` of
`Src/Base/AMReX_REAL.H`.

Conventions of the embedding.

* A C++ `int` is an `Int`; every place where the source computes in 32-bit
  arithmetic goes through `int32`, the two's-complement wrap.
* The element type `T` is `Int` (exact integers).
* `Gpu::Device::warp_size` is declared in a header that is not part of the
  sources at hand, so the warp width is the parameter `W` throughout.
* A per-thread register is a function from the thread index `threadIdx.x`
  to its value; the threads of a block run in lock step between barriers.
-/

namespace AMReX
namespace Scan

/-! ## Machine integers -/

/-- Two's-complement wrap of an exact integer to a signed 32-bit `int`. -/
def int32 (x : Int) : Int := (x + 2147483648) % 4294967296 - 2147483648

/-- Conversion `static_cast<Long>(n)` to the signed 64-bit type `Long`. -/
def toLong (x : Int) : Int :=
  (x + 9223372036854775808) % 18446744073709551616 - 9223372036854775808

/-- The value `std::numeric_limits<int>::max()`. -/
def int_max : Int := 2147483647

/-! ## Launch geometry (lines 402-406) -/

/-- The constant `nwarps_per_block = 4` of the CUDA/HIP build. -/
def nwarps_per_block : Nat := 4

/-- The constant `nthreads = nwarps_per_block * warp_size`. -/
def nthreads (W : Nat) : Nat := nwarps_per_block * W

/-- The constant `nchunks = 12`. -/
def nchunks : Nat := 12

/-- The constant `nelms_per_block = nthreads * nchunks`. -/
def nelms_per_block (W : Nat) : Nat := nthreads W * nchunks

/-- The host expression `(n + nelms_per_block - 1) / nelms_per_block` in `int`
arithmetic: the sum wraps to 32 bits and `/` truncates toward zero. -/
def nblocks (W : Nat) (n : Int) : Int :=
  Int.tdiv (int32 (int32 (n + (nelms_per_block W : Int)) - 1)) (nelms_per_block W : Int)

/-- The mathematical ceiling of `n / E` for a positive `E`. -/
def ceilDiv (n : Int) (E : Nat) : Int := (n + (E : Int) - 1) / (E : Int)

/-! ## The driver assertion (lines 639 and 650) -/

/-- The condition of `AMREX_ALWAYS_ASSERT` in `InclusiveSum` and `ExclusiveSum`:
`static_cast<Long>(n) < static_cast<Long>(std::numeric_limits<int>::max())`. -/
def sumAssertion (n : Int) : Bool := decide (toLong n < toLong int_max)

/-! ## The virtual-block-id counter (lines 446-455) -/

/-- Modelled from the spec: `Gpu::Atomic::Inc(p, limit)`, the atomic
increment-with-wrap, which is declared in a header outside the sources at
hand.  It returns the old value and stores `old + 1` unless `old >= limit`, in
which case it stores `0`.  The result is `(returned value, new counter)`. -/
def atomicInc (limit : Nat) (ctr : Nat) : Nat × Nat :=
  (ctr, if limit ≤ ctr then 0 else ctr + 1)

/-- The ids handed to the first `k` blocks whose thread 0 reaches line 450,
together with the counter after each of these operations, starting from the
counter value `ctr`. -/
def claimIds (gridDim : Nat) : Nat → Nat → List (Nat × Nat)
  | 0, _ => []
  | k + 1, ctr => atomicInc gridDim ctr :: claimIds gridDim k (atomicInc gridDim ctr).2

/-! ## Status cells (lines 16-160) -/

/-- The pair `STVA<T>` of a status byte and a value. -/
structure STVA where
  status : Char
  value : Int
deriving DecidableEq, Repr

/-- A block-status cell in one of its two layouts: `BlockStatus<T,true>`, one
64-bit word holding the pair, and `BlockStatus<T,false>`, two value slots and a
status byte. -/
inductive BlockStatus where
  | packed (d : STVA)
  | unpacked (aggregate inclusive : Int) (status : Char)
deriving DecidableEq, Repr

namespace BlockStatus

/-- The member `write(a_status, a_value)` (lines 39-48 and 111-124). -/
def write (c : BlockStatus) (a_status : Char) (a_value : Int) : BlockStatus :=
  match c with
  | packed _ => packed ⟨a_status, a_value⟩
  | unpacked aggregate inclusive _ =>
      if a_status = 'a' then unpacked a_value inclusive a_status
      else unpacked aggregate a_value a_status

/-- The member `get_aggregate()` (lines 61 and 127). -/
def get_aggregate (c : BlockStatus) : Int :=
  match c with
  | packed d => d.value
  | unpacked aggregate _ _ => aggregate

/-- The member `read()` (lines 64-76 and 130-138). -/
def read (c : BlockStatus) : STVA :=
  match c with
  | packed d => ⟨d.status, d.value⟩
  | unpacked aggregate inclusive status =>
      if status = 'x' then ⟨'x', 0⟩
      else if status = 'a' then ⟨'a', aggregate⟩
      else ⟨'p', inclusive⟩

/-- The member `set_status(a_status)` (lines 79 and 141). -/
def set_status (c : BlockStatus) (a_status : Char) : BlockStatus :=
  match c with
  | packed d => packed ⟨a_status, d.value⟩
  | unpacked aggregate inclusive _ => unpacked aggregate inclusive a_status

end BlockStatus

/-! ## Warp primitives -/

/-- Modelled from the spec: the device primitive `shuffle_up`
(`__shfl_up_sync(mask, x, delta, width)`).  Within a warp whose lanes hold `x`,
lane `lane` receives the value of lane `lane - delta` when that lane lies in the
same `width`-sized segment, and its own value otherwise. -/
def shfl_up (x : Nat → Int) (delta width lane : Nat) : Int :=
  if delta ≤ lane % width then x (lane - delta) else x lane

/-- Modelled from the spec: the device primitive `shuffle_down`
(`__shfl_down_sync(mask, x, delta)`).  Lane `lane` receives the value of lane
`lane + delta` when that lane lies in the same `width`-sized segment, and its
own value otherwise. -/
def shfl_down (x : Nat → Int) (delta width lane : Nat) : Int :=
  if lane % width + delta < width then x (lane + delta) else x lane

/-- Modelled from the spec: the native warp ballot (`__ballot_sync`) over the
lanes `0 .. W-1`: bit `l` of the result is set iff lane `l` holds a true
predicate. -/
def ballot (pred : Nat → Bool) : Nat → Nat
  | 0 => 0
  | W + 1 => ballot pred W + (if pred W then 2 ^ W else 0)

/-- The loop `for (i = 1; i <= bound; i *= 2) { s = shfl_up(x, i, width);
if (lane >= i) x += s; }` (lines 484-488 with `bound = width = warp_size`,
lines 506-509 with `bound = width = nwarps`), run by all lanes of a warp in
lock step.  The first argument bounds the number of iterations. -/
def scanLoop (bound width : Nat) : Nat → Nat → (Nat → Int) → (Nat → Int)
  | 0, _, x => x
  | fuel + 1, i, x =>
      if i ≤ bound then
        scanLoop bound width fuel (i * 2)
          (fun lane => if i ≤ lane then x lane + shfl_up x i width lane else x lane)
      else x

/-- The warp-level inclusive scan of lines 484-488. -/
def warpScan (W : Nat) (x : Nat → Int) : Nat → Int :=
  scanLoop W W (W + 1) 1 x

/-- The loop `for (i = warp_size/2; i > 0; i /= 2) x += shfl_down(x, i);`
(lines 590-593).  The first argument bounds the number of iterations. -/
def reduceLoop (W : Nat) : Nat → Nat → (Nat → Int) → (Nat → Int)
  | 0, _, x => x
  | fuel + 1, i, x =>
      if 0 < i then
        reduceLoop W fuel (i / 2) (fun lane => x lane + shfl_down x i W lane)
      else x

/-- The bit-mask walk of lines 580-587 as run by one lane, entered with
`bit_mask`, the loop counter `i` and the register `x`; `y` is the value the lane
read.  The first argument is the number of iterations left, `warp_size - i`.
The result is the lane's `x` and its `stop_lookback`. -/
def bitWalk (status_bf lane : Nat) (y : Int) : Nat → Nat → Nat → Int → Int × Bool
  | 0, _, _, x => (x, false)
  | left + 1, i, bit_mask, x =>
      if status_bf &&& (bit_mask <<< 1) ≠ 0 then
        (if i = lane then y else x, true)
      else bitWalk status_bf lane y left (i + 1) (bit_mask <<< 1) (if i = lane then y else x)

/-! ## Look-back (lines 558-604) -/

/-- What lane `lane` of warp 0 reads in the window that starts at `iblock0`
(lines 563-567): `cells k` is what `pbs[k].wait()` returns. -/
def windowRead (cells : Nat → STVA) (iblock0 : Int) (lane : Nat) : STVA :=
  if 0 ≤ iblock0 - (lane : Int) then cells (iblock0 - (lane : Int)).toNat else ⟨'p', 0⟩

/-- Lines 575-588 as run by one lane that read the value `x`, entered with
`stop_lookback == false`: the lane's `x` and `stop_lookback` afterwards. -/
def maskWalk (W status_bf lane : Nat) (x : Int) : Int × Bool :=
  if status_bf ≠ 0 then
    bitWalk status_bf lane x (W - 1) 1 1 (if 0 < lane then 0 else x)
  else (x, false)

/-- One iteration of the loop over `iblock0` (lines 563-596) as run by warp 0.
The result is the `x` that lane 0 adds to `exclusive_prefix` and lane 0's
`stop_lookback`. -/
def lookbackWindow (W : Nat) (cells : Nat → STVA) (iblock0 : Int) : Int × Bool :=
  let status_bf := ballot (fun lane => decide ((windowRead cells iblock0 lane).status = 'p')) W
  if decide (status_bf &&& 1 ≠ 0) = false then
    (reduceLoop W W (W / 2)
        (fun lane => (maskWalk W status_bf lane (windowRead cells iblock0 lane).value).1) 0,
      (maskWalk W status_bf 0 (windowRead cells iblock0 0).value).2)
  else ((windowRead cells iblock0 0).value, true)

/-- The loop `for (iblock0 = virtual_block_id-1; iblock0 >= 0; iblock0 -=
warp_size)` of lines 561-598, as seen by lane 0, entered with `iblock0` and the
running `exclusive_prefix`.  The first argument bounds the number of
iterations. -/
def lookbackLoop (W : Nat) (cells : Nat → STVA) : Nat → Int → Int → Int
  | 0, _, ep => ep
  | fuel + 1, iblock0, ep =>
      if 0 ≤ iblock0 then
        let r := lookbackWindow W cells iblock0
        if r.2 then ep + r.1
        else lookbackLoop W cells fuel (iblock0 - (W : Int)) (ep + r.1)
      else ep

/-- The value of `exclusive_prefix` that lane 0 of warp 0 holds at line 600 in
the block with virtual id `vb`. -/
def lookback (W : Nat) (cells : Nat → STVA) (vb : Nat) : Int :=
  lookbackLoop W cells vb ((vb : Int) - 1) 0

/-! ## The kernel (lines 432-620) -/

/-- The scan type `enum class Type { inclusive, exclusive }`. -/
inductive ScanType where
  | inclusive
  | exclusive
deriving DecidableEq, Repr

/-- What a launch does not determine: the warp width of the device, the
contents of memory that the code never initialises, and the timing of the
blocks relative to each other.

* `W` is `Gpu::Device::warp_size`.
* `cell0 k` is the memory of status cell `k` before `set_status('x')`; its
  constructor is the layout that `BlockStatusT` selects.
* `shared0 vb` is the dynamic shared memory of block `vb` at kernel entry,
  indexed in elements of `T` from `gsm.dataPtr()`.
* `tmp0 vb t` is the array `tmp_out` of thread `t` of block `vb` at its
  declaration.
* `late vb k` tells whether the `wait()` of block `vb` on cell `k` returns what
  block `k` wrote last (`true`) or what it wrote first (`false`). -/
structure Env where
  W : Nat
  cell0 : Nat → BlockStatus
  shared0 : Nat → Nat → Int
  tmp0 : Nat → Nat → Nat → Int
  late : Nat → Nat → Bool

/-- Registers and shared memory of one block during the chunk loop, with the
log of the calls of `fin` and of the values added to `*totalsum_p`. -/
structure BlockState where
  shared : Nat → Int
  sum_prev_chunk : Nat → Int
  tmp_out : Nat → Nat → Int
  sink_adds : List Int
  fin_calls : List Int

/-- The expression `ibegin = nelms_per_block * virtual_block_id` (line 458). -/
def ibegin (W vb : Nat) : Int := int32 ((nelms_per_block W : Int) * (vb : Int))

/-- The expression `iend = amrex::min(ibegin+nelms_per_block, n)` (line 459). -/
def iend (W : Nat) (n : Int) (vb : Nat) : Int :=
  min (int32 (ibegin W vb + (nelms_per_block W : Int))) n

/-- The expression `ibegin + ichunk*blockDim.x` of line 474. -/
def chunkOffset (W : Nat) (ib : Int) (ichunk : Nat) : Int :=
  int32 (ib + (ichunk : Int) * (nthreads W : Int))

/-- The value of `offset` after `offset += threadIdx.x` (line 477) in thread
`t`. -/
def threadOffset (W : Nat) (ib : Int) (ichunk t : Nat) : Int :=
  int32 (chunkOffset W ib ichunk + (t : Int))

/-- The register `x0 = (offset < iend) ? fin(offset) : 0` of thread `t` (line
478). -/
def readInput (W : Nat) (fin : Int → Int) (ib ie : Int) (ichunk t : Nat) : Int :=
  if threadOffset W ib ichunk t < ie then fin (threadOffset W ib ichunk t) else 0

/-- The register `x` of thread `t` after the scan within its warp (lines
482-488), where `x0` holds the register `x0` of every thread of the block:
lane `lane` of the warp of `t` is thread `t / W * W + lane`. -/
def scanWithinWarp (W : Nat) (x0 : Nat → Int) (t : Nat) : Int :=
  warpScan W (fun lane => x0 (t / W * W + lane)) (t % W)

/-- Shared memory after lines 493-497: lane `W - 1` of warp `a` has stored its
`x` into `shared[a]`. -/
def storeWarpSums (W nwarps : Nat) (x : Nat → Int) (shared : Nat → Int) : Nat → Int :=
  fun a => if a < nwarps then x (a * W + (W - 1)) else shared a

/-- Shared memory after lines 503-511 and the barrier of line 528 (CUDA build):
the lanes `lane < nwarps` of warp 0 load `shared[lane]`, scan with shuffles of
width `nwarps` and store into `shared2[lane] = shared[W + lane]`. -/
def scanWarpSums (W nwarps : Nat) (shared : Nat → Int) : Nat → Int :=
  fun a =>
    if W ≤ a ∧ a - W < W ∧ a - W < nwarps then
      scanLoop nwarps nwarps (nwarps + 1) 1 shared (a - W)
    else shared a

/-- The body of the chunk loop after the `break` test (lines 477-538), run by
all `blockDim.x = nthreads` threads of the block between its barriers.
`shared[a]` is `shared a` and `shared2[a]` is `shared (W + a)` (line 441). -/
def chunkStep (W : Nat) (n : Int) (fin : Int → Int) (ty : ScanType) (ib ie : Int)
    (ichunk : Nat) (s : BlockState) : BlockState :=
  let blockDim := nthreads W
  let nwarps := blockDim / W
  let x0 : Nat → Int := readInput W fin ib ie ichunk
  let x : Nat → Int := scanWithinWarp W x0
  let shared2 : Nat → Int := scanWarpSums W nwarps (storeWarpSums W nwarps x s.shared)
  let sum_prev_warp : Nat → Int := fun t =>
    if t / W = 0 then 0 else shared2 (W + (t / W - 1))
  { shared := shared2
    sum_prev_chunk := fun t => s.sum_prev_chunk t + shared2 (W + (nwarps - 1))
    tmp_out := fun t c =>
      if c = ichunk then
        sum_prev_warp t + s.sum_prev_chunk t
          + (if ty = ScanType.inclusive then x t else x t - x0 t)
      else s.tmp_out t c
    sink_adds := s.sink_adds ++ (List.range blockDim).filterMap (fun t =>
      if ty = ScanType.exclusive ∧ threadOffset W ib ichunk t = n - 1 then some (x0 t)
      else none)
    fin_calls := s.fin_calls ++ (List.range blockDim).filterMap (fun t =>
      if threadOffset W ib ichunk t < ie then some (threadOffset W ib ichunk t) else none) }

/-- The chunk loop `for (ichunk = 0; ichunk < nchunks; ++ichunk)` of lines
473-539, entered at `ichunk` with `nchunks - ichunk` iterations left. -/
def chunkLoop (W : Nat) (n : Int) (fin : Int → Int) (ty : ScanType) (ib ie : Int) :
    Nat → Nat → BlockState → BlockState
  | 0, _, s => s
  | left + 1, ichunk, s =>
      if ie ≤ chunkOffset W ib ichunk then s
      else chunkLoop W n fin ty ib ie left (ichunk + 1) (chunkStep W n fin ty ib ie ichunk s)

/-- The state of block `vb` after its chunk loop (line 540). -/
def scanPhase (env : Env) (n : Int) (fin : Int → Int) (ty : ScanType) (vb : Nat) :
    BlockState :=
  chunkLoop env.W n fin ty (ibegin env.W vb) (iend env.W n vb) nchunks 0
    { shared := env.shared0 vb
      sum_prev_chunk := fun _ => 0
      tmp_out := env.tmp0 vb
      sink_adds := []
      fin_calls := [] }

/-- The value `sum_prev_chunk` that thread 0 of block `vb` passes to `write` at
line 543. -/
def aggregateOf (env : Env) (n : Int) (fin : Int → Int) (ty : ScanType) (vb : Nat) : Int :=
  (scanPhase env n fin ty vb).sum_prev_chunk 0

/-- The states that the status cell of block `vb` takes after each `write` the
block performs, in program order: the write of thread 0 at lines 542-545 when
`gridDim.x > 1`, then for `vb > 0` the write of lane 0 at line 601.  `agg` is
the block's `sum_prev_chunk` and `ep` its `exclusive_prefix`. -/
def cellHistory (env : Env) (gridDim vb : Nat) (agg ep : Int) : List BlockStatus :=
  let c0 := (env.cell0 vb).set_status 'x'
  let c1 := if 1 < gridDim then c0.write (if vb = 0 then 'p' else 'a') agg else c0
  (if 1 < gridDim then [c1] else [])
    ++ (if 0 < vb then [c1.write 'p' (c1.get_aggregate + ep)] else [])

/-- What `wait()` returns on a cell with the given history of writes: the
`read()` of the state it finds once the status is no longer `'x'`, which is the
state after the first write or, if the reader comes late, after the last. -/
def waitResult (c0 : BlockStatus) (history : List BlockStatus) ( late : Bool) : STVA :=
  ((if late then history.getLast? else history.head?).getD c0).read

/-- The exclusive prefixes of the blocks `0 .. m-1` once their look-backs have
finished: `exclusivePrefixes env gridDim agg m k` is the `exclusive_prefix` of
block `k < m`.  The look-back of block `m` reads the cells of the blocks before
it, whose second write carries their own exclusive prefix. -/
def exclusivePrefixes (env : Env) (gridDim : Nat) (agg : Nat → Int) : Nat → Nat → Int
  | 0 => fun _ => 0
  | m + 1 => fun k =>
      if k = m then
        lookback env.W (fun j =>
          waitResult ((env.cell0 j).set_status 'x')
            (cellHistory env gridDim j (agg j) (exclusivePrefixes env gridDim agg m j))
            (env.late m j)) m
      else exclusivePrefixes env gridDim agg m k

/-- The output loop of one thread (lines 548-555 and 610-618), entered at
`ichunk` with `nchunks - ichunk` iterations left; `val ichunk` is the value
handed to `fout`.  The state is the log of the calls of `fout` and of the values
added to `*totalsum_p`. -/
def outLoop (W : Nat) (n ib ie : Int) (val : Nat → Int) (t : Nat) :
    Nat → Nat → List (Int × Int) × List Int → List (Int × Int) × List Int
  | 0, _, acc => acc
  | left + 1, ichunk, acc =>
      let offset := int32 (ib + (ichunk : Int) * (nthreads W : Int) + (t : Int))
      if ie ≤ offset then acc
      else outLoop W n ib ie val t left (ichunk + 1)
        (acc.1 ++ [(offset, val ichunk)],
         if offset = n - 1 then acc.2 ++ [val ichunk] else acc.2)

/-- What one block leaves behind. -/
structure BlockResult where
  fout_calls : List (Int × Int)
  fin_calls : List Int
  sink_adds : List Int

/-- The kernel body for the block that holds the virtual id `vb`. -/
def runBlock (env : Env) (n : Int) (fin : Int → Int) (ty : ScanType) (gridDim vb : Nat) :
    BlockResult :=
  let s := scanPhase env n fin ty vb
  let ep := exclusivePrefixes env gridDim (aggregateOf env n fin ty) (vb + 1) vb
  let val : Nat → Nat → Int := fun t ichunk =>
    if vb = 0 then s.tmp_out t ichunk else s.tmp_out t ichunk + ep
  let out := (List.range (nthreads env.W)).foldl
    (fun acc t => outLoop env.W n (ibegin env.W vb) (iend env.W n vb) (val t) t nchunks 0 acc)
    ([], s.sink_adds)
  { fout_calls := out.1, fin_calls := s.fin_calls, sink_adds := out.2 }

/-- The result of a call: the returned total and the logs of the calls of the
two functors. -/
structure Result where
  totalsum : Int
  fout_calls : List (Int × Int)
  fin_calls : List Int
deriving DecidableEq, Repr

/-- The function `PrefixSum` (lines 398-631).  The kernel never reads
`blockIdx`, so a block is known by the virtual id that its `atomicInc` returns;
the blocks are listed in the order in which they claim their ids.  The sink
`*totalsum_p` starts at `0` (line 428) and receives the logged additions. -/
def PrefixSum (env : Env) (n : Int) (fin : Int → Int) (ty : ScanType) : Result :=
  if n ≤ 0 then ⟨0, [], []⟩
  else
    let gridDim := (nblocks env.W n).toNat
    let ids :=
      if 1 < gridDim then (claimIds gridDim gridDim 0).map Prod.fst
      else List.replicate gridDim 0
    let rs := ids.map (runBlock env n fin ty gridDim)
    { totalsum := 0 + ((rs.map BlockResult.sink_adds).flatten).sum
      fout_calls := (rs.map BlockResult.fout_calls).flatten
      fin_calls := (rs.map BlockResult.fin_calls).flatten }

/-- The driver `InclusiveSum` (lines 636-644) on an input array `v`: `none` when
the assertion aborts the program. -/
def InclusiveSum (env : Env) (n : Int) (v : Int → Int) : Option Result :=
  if sumAssertion n then some (PrefixSum env (int32 n) v ScanType.inclusive) else none

/-- The driver `ExclusiveSum` (lines 647-655) on an input array `v`: `none` when
the assertion aborts the program. -/
def ExclusiveSum (env : Env) (n : Int) (v : Int → Int) : Option Result :=
  if sumAssertion n then some (PrefixSum env (int32 n) v ScanType.exclusive) else none

/-! ## The other builds of the scan of warp sums -/

/-- Shared memory after lines 513-525 and the barrier of line 528 (HIP build):
every lane of warp 0 takes part, a lane `lane >= nwarps` starts from `0`, the
shuffles have width `nwarps`, and the lanes `lane < nwarps` store into
`shared2[lane]`. -/
def scanWarpSumsHIP (W nwarps : Nat) (shared : Nat → Int) : Nat → Int :=
  fun a =>
    if W ≤ a ∧ a - W < W ∧ a - W < nwarps then
      scanLoop nwarps nwarps (nwarps + 1) 1
        (fun lane => if lane < nwarps then shared lane else 0) (a - W)
    else shared a

/-- Shared memory after lines 278-286 and the barrier of line 288 (SYCL build):
every lane of sub-group 0 takes part, a lane `lane >= nwarps` starts from `0`,
the loop runs `i = 1, 2, 4, ...` while `i <= warp_size` with full-width
shuffles, and the lanes `lane < nwarps` store into `shared2[lane]`. -/
def scanWarpSumsSYCL (W nwarps : Nat) (shared : Nat → Int) : Nat → Int :=
  fun a =>
    if W ≤ a ∧ a - W < W ∧ a - W < nwarps then
      scanLoop W W (W + 1) 1 (fun lane => if lane < nwarps then shared lane else 0) (a - W)
    else shared a

/-- The warp scan as the specification words it: the same loop with the strides
`1, 2, ..., W/2` only. -/
def specWarpScan (W : Nat) (x : Nat → Int) : Nat → Int :=
  scanLoop (W / 2) W (W + 1) 1 x

/-! ## How the look-back loop ends -/

/-- The way a run of the look-back loop ends: through `if (stop_lookback)
break`, through its condition `iblock0 >= 0` turning false, or, in the
embedding only, because the bound on the iterations is used up. -/
inductive LoopExit where
  | byStop
  | byCondition
  | outOfFuel
deriving DecidableEq, Repr

/-- The loop of lines 561-598 once more, this time counting its iterations and
recording how it ends: the same control flow as `lookbackLoop`, entered with
`iblock0` and the number of iterations done so far. -/
def lookbackSteps (W : Nat) (cells : Nat → STVA) : Nat → Int → Nat → Nat × LoopExit
  | 0, iblock0, done => (done, if 0 ≤ iblock0 then LoopExit.outOfFuel else LoopExit.byCondition)
  | fuel + 1, iblock0, done =>
      if 0 ≤ iblock0 then
        if (lookbackWindow W cells iblock0).2 then (done + 1, LoopExit.byStop)
        else lookbackSteps W cells fuel (iblock0 - (W : Int)) (done + 1)
      else (done, LoopExit.byCondition)

/-! ## Scratch layout (lines 413-421) -/

/-- The scratch allocation: the number of bytes passed to `alloc` and the
offsets from `dp` of the three pointers. -/
structure Scratch where
  nbytes : Nat
  block_status_p : Nat
  virtual_block_id_p : Nat
  totalsum_p : Nat
deriving DecidableEq, Repr

/-- Lines 413-421.  `Arena::align` is declared in a header outside the sources
at hand, so it is the parameter `align`; `sizeofBlockStatusT` and `sizeofT` are
`sizeof(BlockStatusT)` and `sizeof(T)`, and `sizeof(unsigned int)` is `4`. -/
def scratchLayout (align : Nat → Nat) (sizeofBlockStatusT sizeofT nblocks : Nat) : Scratch :=
  let nbytes_blockstatus := align (sizeofBlockStatusT * nblocks)
  let nbytes_blockid := align 4
  let nbytes_totalsum := align sizeofT
  { nbytes := nbytes_blockstatus + nbytes_blockid + nbytes_totalsum
    block_status_p := 0
    virtual_block_id_p := nbytes_blockstatus
    totalsum_p := nbytes_blockstatus + nbytes_blockid }

/-! ## One writer and one reader on an unpacked cell (lines 107-138) -/

/-- The three fields of `BlockStatus<T,false>` in device memory. -/
structure Slots where
  aggregate : Int
  inclusive : Int
  status : Char
deriving DecidableEq, Repr

/-- The stores of `write(a_status, a_value)` (lines 113-123) in program order:
the store into the value slot, then, after the fence, the store of the status. -/
def writeStores (a_status : Char) (a_value : Int) : List (Slots → Slots) :=
  [fun m => if a_status = 'a' then { m with aggregate := a_value }
            else { m with inclusive := a_value },
   fun m => { m with status := a_status }]

/-- Where a thread stands inside `read()` (lines 131-137): before the load of
`status` for the test against `'x'`, before the load of `status` for the test
against `'a'`, before the load of one of the two value slots, or returned. -/
inductive ReadPc where
  | load1
  | load2
  | loadAggregate
  | loadInclusive
  | ret (r : STVA)
deriving DecidableEq, Repr

/-- One load of `read()` against the memory `m`. -/
def readStep (m : Slots) : ReadPc → ReadPc
  | ReadPc.load1 => if m.status = 'x' then ReadPc.ret ⟨'x', 0⟩ else ReadPc.load2
  | ReadPc.load2 => if m.status = 'a' then ReadPc.loadAggregate else ReadPc.loadInclusive
  | ReadPc.loadAggregate => ReadPc.ret ⟨'a', m.aggregate⟩
  | ReadPc.loadInclusive => ReadPc.ret ⟨'p', m.inclusive⟩
  | ReadPc.ret r => ReadPc.ret r

/-- A writer inside `write` and a reader inside `read` on one cell: the memory,
the stores the writer still has to perform, and the reader's position. -/
structure Race where
  mem : Slots
  writer : List (Slots → Slots)
  reader : ReadPc

/-- One step of the interleaving: the writer performs its next store, or the
reader its next load. -/
def Race.step (s : Race) (writerMoves : Bool) : Race :=
  if writerMoves then
    match s.writer with
    | [] => s
    | f :: fs => { s with mem := f s.mem, writer := fs }
  else { s with reader := readStep s.mem s.reader }

/-- The run of an interleaving, given as the list of who moves at each step. -/
def Race.run (s : Race) (sched : List Bool) : Race :=
  sched.foldl Race.step s

/-- What is known of a reader at a given position while a writer runs
`write(a_status, a_value)` on a cell that held `m0`: `stored` says whether the
writer has performed its store of the status. -/
def readerOK (m0 : Slots) (a_status : Char) (a_value : Int) (stored : Bool) : ReadPc → Prop
  | ReadPc.load1 => True
  | ReadPc.load2 => stored = true ∨ m0.status ≠ 'x'
  | ReadPc.loadAggregate => (stored = true ∧ a_status = 'a') ∨ m0.status = 'a'
  | ReadPc.loadInclusive =>
      (stored = true ∧ a_status ≠ 'a') ∨ (m0.status ≠ 'x' ∧ m0.status ≠ 'a')
  | ReadPc.ret r =>
      r = (BlockStatus.unpacked m0.aggregate m0.inclusive m0.status).read
        ∨ r = ⟨a_status, a_value⟩

/-- The invariant of the interleavings of `write(a_status, a_value)` with
`read()` on a cell that held `m0`: the writer has performed none, one or both of
its stores, the memory is what these stores left, and the reader's position
agrees with what it has seen. -/
def RaceInv (m0 : Slots) (a_status : Char) (a_value : Int) (s : Race) : Prop :=
  (s.writer = writeStores a_status a_value ∧ s.mem = m0
      ∧ readerOK m0 a_status a_value false s.reader)
  ∨ (s.writer = (writeStores a_status a_value).tail
      ∧ s.mem = (if a_status = 'a' then { m0 with aggregate := a_value }
                 else { m0 with inclusive := a_value })
      ∧ readerOK m0 a_status a_value false s.reader)
  ∨ (s.writer = []
      ∧ s.mem = (if a_status = 'a' then { m0 with aggregate := a_value, status := a_status }
                 else { m0 with inclusive := a_value, status := a_status })
      ∧ readerOK m0 a_status a_value true s.reader)

/-! ## Quantities of the specification and sample inputs -/

/-- The sum `f 0 + ... + f (m-1)`. -/
def sumTo (f : Nat → Int) : Nat → Int
  | 0 => 0
  | m + 1 => sumTo f m + f m

/-- The sum `v[0] + ... + v[m-1]` of the first `m` input elements. -/
def prefixOf (v : Int → Int) (m : Nat) : Int := sumTo (fun j => v (j : Int)) m

/-- The input of a block as its threads see it: element `ibN + j`, or `0` from
`iend` on. -/
def padded (fin : Int → Int) (ie : Int) (ibN j : Nat) : Int :=
  if ((ibN + j : Nat) : Int) < ie then fin ((ibN + j : Nat) : Int) else 0

/-- The loop invariant of the chunk loop at the entry of iteration `c`, for a
block that starts at element `ibN`. -/
def ChunkInv (W : Nat) (n : Int) (fin : Int → Int) (ty : ScanType) (ie : Int) (ibN c : Nat)
    (s : BlockState) : Prop :=
  (∀ t, s.sum_prev_chunk t = sumTo (padded fin ie ibN) (c * nthreads W)) ∧
  (∀ t, t < nthreads W → ∀ c', c' < c → ((ibN + c' * nthreads W : Nat) : Int) < ie →
    s.tmp_out t c' = sumTo (padded fin ie ibN)
      (c' * nthreads W + (if ty = ScanType.inclusive then t + 1 else t))) ∧
  s.sink_adds.sum = sumTo (fun j =>
    if ty = ScanType.exclusive ∧ ((ibN + j : Nat) : Int) = n - 1
    then padded fin ie ibN j else 0) (c * nthreads W)

/-- A device of warp width 32 with packed cells, some contents of the memory
that the code does not initialise, and some timing of the blocks. -/
def sampleEnv : Env :=
  { W := 32
    cell0 := fun _ => BlockStatus.packed ⟨'z', 99⟩
    shared0 := fun _ _ => 77
    tmp0 := fun _ _ _ => 55
    late := fun vb k => decide ((vb + k) % 2 = 0) }

/-- A device of warp width 4 with unpacked cells. -/
def smallEnv : Env :=
  { W := 4
    cell0 := fun _ => BlockStatus.unpacked 3 4 'z'
    shared0 := fun _ _ => 77
    tmp0 := fun _ _ _ => 55
    late := fun vb k => decide ((vb + k) % 3 = 0) }

/-- A device of warp width 1, narrower than the `nwarps_per_block = 4` warps of
a block. -/
def narrowEnv : Env :=
  { W := 1
    cell0 := fun _ => BlockStatus.packed ⟨'x', 0⟩
    shared0 := fun _ _ => 0
    tmp0 := fun _ _ _ => 0
    late := fun _ _ => false }

/-! ## The lowest set bit, as the specification words it -/

/-- The count of trailing zeros of `m`, found by halving while the lowest bit
is clear; the first argument bounds the number of halvings. -/
def ctzLoop : Nat → Nat → Nat
  | 0, _ => 0
  | fuel + 1, m => if m % 2 = 1 then 0 else 1 + ctzLoop fuel (m / 2)

/-- The count of trailing zeros of a mask `status_bf`, the position of its
lowest set bit (`0` for the mask `0`). -/
def countTrailingZeros (status_bf : Nat) : Nat := ctzLoop status_bf status_bf

/-! ## The emulated ballot of the SYCL build (lines 330-334) -/

/-- Modelled from the spec: the sub-group primitive `sg.shuffle_xor(x, mask)`.
Lane `lane` receives the value of lane `lane XOR mask`; a lane whose partner
lies outside the sub-group keeps its own value. -/
def shfl_xor (x : Nat → Nat) (mask width lane : Nat) : Nat :=
  if lane ^^^ mask < width then x (lane ^^^ mask) else x lane

/-- Reduction of a natural number to the 32-bit type `unsigned`. -/
def uint32 (x : Nat) : Nat := x % 4294967296

/-- Line 331: `unsigned status_bf = (stva.status == 'p') ? (0x1u << lane) : 0`,
where `pred lane` says whether lane `lane` read the status `'p'`.  The shift is
a shift of the 32-bit `0x1u`: of the bit `lane` only what fits the word is kept,
which is nothing for `lane >= 32` (where C++ leaves the shift undefined). -/
def laneBit (pred : Nat → Bool) (lane : Nat) : Nat :=
  if pred lane then uint32 (1 <<< lane) else 0

/-- The loop `for (i = 1; i < warp_size; i *= 2) status_bf |=
sg.shuffle_xor(status_bf, i);` (lines 332-334), run by all lanes of the
sub-group in lock step.  The first argument bounds the number of iterations. -/
def xorLoop (W : Nat) : Nat → Nat → (Nat → Nat) → (Nat → Nat)
  | 0, _, x => x
  | fuel + 1, i, x =>
      if i < W then
        xorLoop W fuel (i * 2) (fun lane => uint32 (x lane ||| shfl_xor x i W lane))
      else x

/-- The word `status_bf` of every lane after lines 330-334. -/
def ballotSYCL (pred : Nat → Bool) (W : Nat) : Nat → Nat :=
  xorLoop W W 1 (laneBit pred)

/-! ## Selection of the cell layout (lines 16-21 and 410-411) -/

/-- The least multiple of `a` that is not below `x`. -/
def alignUp (x a : Nat) : Nat := (x + a - 1) / a * a

/-- The size `sizeof(detail::STVA<T>)` of the struct `{ char status; T value; }`
for an element type of size `s` and alignment `a`: `status` takes the byte at
offset `0`, `value` starts at the next multiple of `a`, and the size of the
struct is rounded up to its alignment `a`. -/
def sizeofSTVA (s a : Nat) : Nat := alignUp (alignUp 1 a + s) a

/-- The test `sizeof(detail::STVA<T>) <= 8` of line 410, which selects
`BlockStatus<T,true>`, the packed layout. -/
def packedSelected (s a : Nat) : Bool := decide (sizeofSTVA s a ≤ 8)

/-! ## Launch geometry of the SYCL build (lines 172-176) -/

/-- `constexpr int nwarps_per_block = 8;` -/
def nwarps_per_block_sycl : Nat := 8

/-- `constexpr int nelms_per_block = nthreads * nchunks;` with
`nthreads = nwarps_per_block * warp_size` and `nchunks = 12`. -/
def nelms_per_block_sycl (W : Nat) : Nat := nwarps_per_block_sycl * W * 12

/-- `int nblocks = (n + nelms_per_block - 1) / nelms_per_block;` (line 176). -/
def nblocks_sycl (W : Nat) (n : Int) : Int :=
  Int.tdiv (int32 (int32 (n + (nelms_per_block_sycl W : Int)) - 1))
    (nelms_per_block_sycl W : Int)

/-! ## The additions to the sink -/

/-- The values added to `*totalsum_p` during a call of `PrefixSum`, block by
block in the order of `PrefixSum`, and within a block the additions of the
chunk loop (line 479, exclusive scans only) before those of the output pass
(lines 551 and 614): the list whose sum `PrefixSum` returns. -/
def sinkLog (env : Env) (n : Int) (fin : Int → Int) (ty : ScanType) : List Int :=
  if n ≤ 0 then []
  else
    let gridDim := (nblocks env.W n).toNat
    let ids :=
      if 1 < gridDim then (claimIds gridDim gridDim 0).map Prod.fst
      else List.replicate gridDim 0
    ((ids.map (runBlock env n fin ty gridDim)).map BlockResult.sink_adds).flatten

/-! ## The host versions of the scans (lines 663-698) -/

/-- The loop `while (++begin != end) { sum = std::move(sum) + *begin;
*result++ = sum - *begin; }` followed by `return ++result;` (lines 693-697),
entered with the running `sum`, the values written so far, the number of
positions `result` has advanced, and the elements from `begin + 1` on. -/
def exclusiveScanLoop (sum : Int) (written : List Int) (pos : Nat) :
    List Int → List Int × Nat
  | [] => (written, pos + 1)
  | x :: rest => exclusiveScanLoop (sum + x) (written ++ [sum + x - x]) (pos + 1) rest

/-- The host branch of `Gpu::exclusive_scan` (lines 688-697) on the input range
`input`: the values written through `result`, in order, and the number of
positions by which the returned iterator is ahead of `result`. -/
def exclusive_scan_host : List Int → List Int × Nat
  | [] => ([], 0)
  | x :: rest => exclusiveScanLoop x [x - x] 1 rest

/-- The device branch of `Gpu::exclusive_scan` and of `Gpu::inclusive_scan`
(lines 666-670 and 680-684) as far as the returned iterator goes:
`N = std::distance(begin, end)` and `std::advance(result_end, N)`. -/
def scan_device_end (input : List Int) : Nat := input.length

/-- The host branch of `Gpu::inclusive_scan` (line 672), the standard
`std::partial_sum`: it writes the running sums `input[0] + ... + input[i]` and
returns the iterator past the last value written. -/
def inclusive_scan_host (input : List Int) : List Int × Nat :=
  ((List.range input.length).map (fun i => (input.take (i + 1)).sum), input.length)

/-! ## The literal parser `detail::atof` (`AMReX_REAL.H`, lines 73-124)

The C string `p` is the list of its characters before the terminating `'\0'`,
and a `double` is an exact rational number. -/

/-- The test `*p >= '0' && *p <= '9'`. -/
def isDigit (c : Char) : Bool := decide (48 ≤ c.toNat ∧ c.toNat ≤ 57)

/-- The value `*p - '0'` of a digit character. -/
def digitValue (c : Char) : Nat := c.toNat - 48

/-- Line 75: `while (*p == ' ' || *p == '\t') ++p;`. -/
def skipBlanks : List Char → List Char
  | [] => []
  | c :: p => if c = ' ' ∨ c = '\t' then skipBlanks p else c :: p

/-- Lines 77-78 and 97-98: whether `*p == '-'`, and `p` after
`if (*p == '-' || *p == '+') ++p;`. -/
def readSign : List Char → Bool × List Char
  | [] => (false, [])
  | c :: p => if c = '-' then (true, p) else if c = '+' then (false, p) else (false, c :: p)

/-- Lines 81-83: `while (*p >= '0' && *p <= '9') r = r*10. + double(*(p++) - '0');`,
entered with `r`; the result is `r` and `p` after the loop. -/
def intLoop (r : ℚ) : List Char → ℚ × List Char
  | [] => (r, [])
  | c :: p => if isDigit c then intLoop (r * 10 + (digitValue c : ℚ)) p else (r, c :: p)

/-- Lines 89-92: the loop over the digits of the fraction, entered with `r2`
and `d`; the result is `r2`, `d` and `p` after the loop. -/
def fracLoop (r2 d : ℚ) : List Char → ℚ × ℚ × List Char
  | [] => (r2, d, [])
  | c :: p =>
      if isDigit c then fracLoop (r2 * 10 + (digitValue c : ℚ)) (d * 10) p
      else (r2, d, c :: p)

/-- Lines 85-94: the fraction, if `*p == '.'`; the result is `r` and `p`. -/
def readFraction (r : ℚ) : List Char → ℚ × List Char
  | [] => (r, [])
  | c :: p =>
      if c = '.' then
        (r + (fracLoop 0 1 p).1 / (fracLoop 0 1 p).2.1, (fracLoop 0 1 p).2.2)
      else (r, c :: p)

/-- Lines 100-102: `while (*p >= '0' && *p <= '9') iexp = iexp*10 + (*(p++) - '0');`
in `int` arithmetic, entered with `iexp`. -/
def expLoop (iexp : Int) : List Char → Int × List Char
  | [] => (iexp, [])
  | c :: p =>
      if isDigit c then expLoop (int32 (int32 (iexp * 10) + (digitValue c : Int))) p
      else (iexp, c :: p)

/-- Line 106: `while (tmp >>= 1) ++nmax;`, entered with `tmp` and `nmax`.  The
first argument bounds the number of iterations. -/
def nmaxLoop : Nat → Nat → Nat → Nat
  | 0, _, nmax => nmax
  | fuel + 1, tmp, nmax =>
      if tmp >>> 1 ≠ 0 then nmaxLoop fuel (tmp >>> 1) (nmax + 1) else nmax

/-- Lines 104-106: `int nmax = 0; unsigned short int tmp = iexp;
while (tmp >>= 1) ++nmax;`.  A 16-bit `tmp` is `0` after 16 shifts. -/
def nmaxOf (iexp : Int) : Nat := nmaxLoop 16 (iexp % 65536).toNat 0

/-- Line 108: the table `powers`. -/
def powers : List ℚ :=
  [10, 100, 10 ^ 4, 10 ^ 8, 10 ^ 16, 10 ^ 32, 10 ^ 64, 10 ^ 128, 10 ^ 256]

/-- Lines 109-114: `for (int n = 0; n <= nmax; ++n) { if (iexp & 0x1) d *=
powers[n]; iexp >>= 1; }`, entered at `n` with `left = nmax + 1 - n`
iterations to go.  The result is `d`, or `none` when the loop reads `powers`
outside its 9 entries. -/
def powLoop : Nat → Nat → Int → ℚ → Option ℚ
  | 0, _, _, d => some d
  | left + 1, n, iexp, d =>
      if iexp % 2 = 1 then
        match powers[n]? with
        | some q => powLoop left (n + 1) (iexp / 2) (d * q)
        | none => none
      else powLoop left (n + 1) (iexp / 2) d

/-- Lines 96-120: the exponent, if `*p == 'e'`, applied to `r`. -/
def readExponent (r : ℚ) : List Char → Option ℚ
  | [] => some r
  | c :: p =>
      if c = 'e' then
        match powLoop (nmaxOf (expLoop 0 (readSign p).2).1 + 1) 0
            (expLoop 0 (readSign p).2).1 1 with
        | some d => some (if (readSign p).1 then r / d else r * d)
        | none => none
      else some r

/-- The function `detail::atof` (lines 73-124). -/
def atof (p : List Char) : Option ℚ :=
  let s := readSign (skipBlanks p)
  let r := intLoop 0 s.2
  let f := readFraction r.1 r.2
  match readExponent f.1 f.2 with
  | some x => some ((if s.1 then -1 else 1) * x)
  | none => none

/-! ## Literals, as the specification words them -/

/-- The characters of a sequence of decimal digits. -/
def digitChars (ds : List Nat) : List Char := ds.map (fun d => Char.ofNat (48 + d))

/-- The number that a sequence of decimal digits writes. -/
def digitsValue (ds : List Nat) : Nat := ds.foldl (fun a d => a * 10 + d) 0

/-- An optional sign: none, `+` (`some false`) or `-` (`some true`). -/
def signChars : Option Bool → List Char
  | none => []
  | some false => ['+']
  | some true => ['-']

/-- The text `. digits` of an optional fraction. -/
def fractionChars : Option (List Nat) → List Char
  | none => []
  | some f => '.' :: digitChars f

/-- The value `fraction / 10^(number of fraction digits)` of an optional
fraction. -/
def fractionValue : Option (List Nat) → ℚ
  | none => 0
  | some f => (digitsValue f : ℚ) / 10 ^ f.length

/-- The text `e [sign] digits` of an optional exponent. -/
def exponentChars : Option (Option Bool × List Nat) → List Char
  | none => []
  | some e => 'e' :: (signChars e.1 ++ digitChars e.2)

/-- The factor `10^(signed exponent)` of an optional exponent. -/
def exponentValue : Option (Option Bool × List Nat) → ℚ
  | none => 1
  | some e => (10 : ℚ) ^ ((if e.1 = some true then -1 else 1) * (digitsValue e.2 : Int))

/-- A literal `[sign] digits [. digits] [e [sign] digits]`. -/
structure Literal where
  sign : Option Bool
  intDigits : List Nat
  fraction : Option (List Nat)
  exponent : Option (Option Bool × List Nat)

/-- The text of a literal. -/
def Literal.chars (l : Literal) : List Char :=
  signChars l.sign ++ (digitChars l.intDigits ++
    (fractionChars l.fraction ++ exponentChars l.exponent))

/-- The number a literal denotes: `sign * (integer part + fraction /
10^(number of fraction digits)) * 10^(signed exponent)`. -/
def Literal.value (l : Literal) : ℚ :=
  (if l.sign = some true then -1 else 1)
    * ((digitsValue l.intDigits : ℚ) + fractionValue l.fraction)
    * exponentValue l.exponent

/-- A literal is well formed when all its digits are below 10. -/
def Literal.wellFormed (l : Literal) : Prop :=
  (∀ d ∈ l.intDigits, d < 10)
    ∧ (∀ f, l.fraction = some f → ∀ d ∈ f, d < 10)
    ∧ (∀ e, l.exponent = some e → ∀ d ∈ e.2, d < 10)

/-- The first character of `p`, if there is one, satisfies `P`. -/
def headSatisfies (P : Char → Prop) (p : List Char) : Prop :=
  ∀ c q, p = c :: q → P c

/-! ## Machine integers -/

theorem int32_of_range {x : Int} (h1 : -2147483648 ≤ x) (h2 : x ≤ 2147483647) :
    int32 x = x := by
  unfold int32; omega

theorem toLong_of_range {x : Int} (h1 : -9223372036854775808 ≤ x)
    (h2 : x ≤ 9223372036854775807) : toLong x = x := by
  unfold toLong; omega

/-! ## Sums, the warp scan and the ballot -/

theorem sumTo_congr {f g : Nat → Int} : ∀ {m : Nat}, (∀ j, j < m → f j = g j) →
    sumTo f m = sumTo g m
  | 0, _ => rfl
  | m + 1, h => by
      simp only [sumTo]
      rw [sumTo_congr (fun j hj => h j (Nat.lt_succ_of_lt hj)), h m (Nat.lt_succ_self m)]

theorem sumTo_add (f : Nat → Int) (a : Nat) : ∀ b : Nat,
    sumTo f (a + b) = sumTo f a + sumTo (fun j => f (a + j)) b
  | 0 => by simp [sumTo]
  | b + 1 => by
      rw [← Nat.add_assoc]
      simp only [sumTo]
      rw [sumTo_add f a b]; ring

theorem sumTo_eq_zero {f : Nat → Int} : ∀ {m : Nat}, (∀ j, j < m → f j = 0) → sumTo f m = 0
  | 0, _ => rfl
  | m + 1, h => by
      simp only [sumTo]
      rw [sumTo_eq_zero (fun j hj => h j (Nat.lt_succ_of_lt hj)), h m (Nat.lt_succ_self m)]
      rfl

theorem sumTo_add_fn (f g : Nat → Int) : ∀ m : Nat,
    sumTo (fun j => f j + g j) m = sumTo f m + sumTo g m
  | 0 => by simp [sumTo]
  | m + 1 => by
      simp only [sumTo]
      rw [sumTo_add_fn f g m]; ring

theorem scanLoop_spec (bound width : Nat) (x0 : Nat → Int) :
    ∀ (fuel i : Nat) (x : Nat → Int), 0 < i → bound + 1 ≤ i + fuel →
      (∀ lane, lane < width → x lane = sumTo x0 (lane + 1) - sumTo x0 (lane + 1 - i)) →
      ∀ lane, lane < width → lane ≤ bound →
        scanLoop bound width fuel i x lane = sumTo x0 (lane + 1) := by
  intro fuel
  induction fuel with
  | zero =>
      intro i x _ hf hx lane hl hb
      have h0 : lane + 1 - i = 0 := by omega
      simp only [scanLoop]
      rw [hx lane hl, h0]; simp [sumTo]
  | succ fuel ih =>
      intro i x hi hf hx lane hl hb
      simp only [scanLoop]
      by_cases hib : i ≤ bound
      · rw [if_pos hib]
        apply ih (i * 2) _ (by omega) (by omega) _ lane hl hb
        intro l hlw
        by_cases hil : i ≤ l
        · have hmod : l % width = l := Nat.mod_eq_of_lt hlw
          have e1 : l - i + 1 = l + 1 - i := by omega
          have e2 : l + 1 - i - i = l + 1 - i * 2 := by omega
          simp only [if_pos hil, shfl_up, hmod]
          rw [hx l hlw, hx (l - i) (by omega), e1, e2]; ring
        · have e1 : l + 1 - i = 0 := by omega
          have e2 : l + 1 - i * 2 = 0 := by omega
          simp only [if_neg hil]
          rw [hx l hlw, e1, e2]
      · rw [if_neg hib]
        have h0 : lane + 1 - i = 0 := by omega
        rw [hx lane hl, h0]; simp [sumTo]

theorem warpScan_spec (W : Nat) (x : Nat → Int) (lane : Nat) (h : lane < W) :
    warpScan W x lane = sumTo x (lane + 1) := by
  unfold warpScan
  apply scanLoop_spec W W x (W + 1) 1 x (by omega) (by omega) _ lane h (by omega)
  intro l _
  simp [sumTo]

theorem reduceLoop_spec (W : Nat) : ∀ (j fuel : Nat) (x : Nat → Int), j ≤ fuel → 2 ^ j ≤ W →
    reduceLoop W fuel (2 ^ j / 2) x 0 = sumTo x (2 ^ j) := by
  intro j
  induction j with
  | zero =>
      intro fuel x _ _
      cases fuel <;> simp [reduceLoop, sumTo]
  | succ j ih =>
      intro fuel x hf hW
      obtain ⟨fuel, rfl⟩ : ∃ f, fuel = f + 1 := ⟨fuel - 1, by omega⟩
      have hpos : 0 < 2 ^ j := Nat.pos_pow_of_pos _ (by decide)
      have hhalf : 2 ^ (j + 1) / 2 = 2 ^ j := by rw [pow_succ]; omega
      have hdbl : 2 ^ (j + 1) = 2 ^ j + 2 ^ j := by rw [pow_succ]; omega
      simp only [reduceLoop, hhalf, if_pos hpos]
      rw [ih fuel _ (by omega) (by omega), hdbl, sumTo_add, ← sumTo_add_fn]
      apply sumTo_congr
      intro l hl
      have hmod : l % W = l := Nat.mod_eq_of_lt (by omega)
      have hlt : l % W + 2 ^ j < W := by omega
      simp only [shfl_down, if_pos hlt]
      rw [Nat.add_comm l]

theorem and_two_pow_ne_zero (n i : Nat) : n &&& 2 ^ i ≠ 0 ↔ n.testBit i = true := by
  constructor
  · intro h
    by_contra hb
    apply h
    apply Nat.eq_of_testBit_eq
    intro j
    simp only [Nat.testBit_and, Nat.testBit_two_pow, Nat.zero_testBit]
    by_cases hij : i = j
    · subst hij; simp [hb]
    · simp [hij]
  · intro hb h0
    have h1 : (n &&& 2 ^ i).testBit i = true := by
      simp [Nat.testBit_and, Nat.testBit_two_pow_self, hb]
    rw [h0] at h1
    simp at h1

theorem ballot_lt (pred : Nat → Bool) : ∀ W : Nat, ballot pred W < 2 ^ W
  | 0 => by simp [ballot]
  | W + 1 => by
      have ih := ballot_lt pred W
      simp only [ballot, pow_succ]
      split <;> omega

theorem testBit_ballot (pred : Nat → Bool) : ∀ (W i : Nat),
    (ballot pred W).testBit i = true ↔ i < W ∧ pred i = true
  | 0, i => by simp [ballot]
  | W + 1, i => by
      have ih := testBit_ballot pred W i
      have hlt := ballot_lt pred W
      simp only [ballot]
      by_cases hp : pred W = true
      · rw [if_pos hp, Nat.add_comm]
        rcases Nat.lt_trichotomy i W with h | h | h
        · rw [Nat.testBit_two_pow_add_gt h, ih]
          constructor
          · rintro ⟨_, h2⟩; exact ⟨by omega, h2⟩
          · rintro ⟨_, h2⟩; exact ⟨h, h2⟩
        · subst h
          rw [Nat.testBit_two_pow_add_eq, Nat.testBit_lt_two_pow hlt]
          simp [hp]
        · have hbig : 2 ^ W + ballot pred W < 2 ^ i := by
            have h1 : 2 ^ (W + 1) ≤ 2 ^ i := Nat.pow_le_pow_right (by decide) h
            rw [pow_succ] at h1
            omega
          rw [Nat.testBit_lt_two_pow hbig]
          constructor
          · intro h2; cases h2
          · rintro ⟨h2, _⟩; omega
      · rw [if_neg hp, Nat.add_zero, ih]
        constructor
        · rintro ⟨h1, h2⟩; exact ⟨by omega, h2⟩
        · rintro ⟨h1, h2⟩
          refine ⟨?_, h2⟩
          rcases Nat.lt_or_ge i W with h | h
          · exact h
          · have : i = W := by omega
            subst this
            exact absurd h2 hp

theorem bitWalk_spec (status_bf lane k W : Nat) (y : Int) (hkW : k < W)
    (hk : status_bf.testBit k = true)
    (hlow : ∀ i, 1 ≤ i → i < k → status_bf.testBit i = false) :
    ∀ (left i : Nat) (x : Int), 1 ≤ i → i ≤ k → i + left = W →
      bitWalk status_bf lane y left i (2 ^ (i - 1)) x
        = (if i ≤ lane ∧ lane ≤ k then y else x, true) := by
  intro left
  induction left with
  | zero => intro i x _ h2 h3; omega
  | succ left ih =>
      intro i x h1 h2 h3
      have hmask : (2 : Nat) ^ (i - 1) <<< 1 = 2 ^ i := by
        rw [Nat.shiftLeft_eq, ← pow_succ]
        congr 1; omega
      simp only [bitWalk, hmask]
      by_cases hik : i = k
      · subst hik
        have hne : status_bf &&& 2 ^ i ≠ 0 := (and_two_pow_ne_zero _ _).2 hk
        rw [if_pos hne]
        by_cases hl : i = lane
        · subst hl; simp
        · have : ¬ (i ≤ lane ∧ lane ≤ i) := by omega
          simp [hl, this]
      · have hb : status_bf.testBit i = false := hlow i h1 (by omega)
        have hne : ¬ (status_bf &&& 2 ^ i ≠ 0) := by
          rw [and_two_pow_ne_zero, hb]; simp
        rw [if_neg hne]
        have e : (2 : Nat) ^ i = 2 ^ (i + 1 - 1) := by simp
        rw [e, ih (i + 1) _ (by omega) (by omega) (by omega)]
        by_cases hl : i = lane
        · subst hl
          have : ¬ (i + 1 ≤ i ∧ i ≤ k) := by omega
          have h' : i ≤ i ∧ i ≤ k := ⟨le_refl _, h2⟩
          simp [this, h']
        · by_cases hc : i ≤ lane ∧ lane ≤ k
          · have hc' : i + 1 ≤ lane ∧ lane ≤ k := ⟨by omega, hc.2⟩
            simp [hc, hc']
          · have hc' : ¬ (i + 1 ≤ lane ∧ lane ≤ k) := by omega
            simp [hc, hc', hl]

theorem sumTo_back (agg : Nat → Int) (b : Nat) : ∀ k : Nat, k ≤ b + 1 →
    sumTo (fun l => agg (b - l)) k = sumTo agg (b + 1) - sumTo agg (b + 1 - k)
  | 0, _ => by simp [sumTo]
  | k + 1, h => by
      have ih := sumTo_back agg b k (by omega)
      have e1 : b + 1 - k = (b - k) + 1 := by omega
      have e2 : b + 1 - (k + 1) = b - k := by omega
      simp only [sumTo] at ih ⊢
      rw [ih, e1, e2]
      simp only [sumTo]; ring

theorem sumTo_mask (x : Nat → Int) (k : Nat) : ∀ W : Nat, k < W →
    sumTo (fun lane => if lane ≤ k then x lane else 0) W = sumTo x (k + 1)
  | 0, h => by omega
  | W + 1, h => by
      simp only [sumTo]
      rcases Nat.lt_or_ge k W with h1 | h1
      · rw [sumTo_mask x k W h1]
        have : ¬ (W ≤ k) := by omega
        simp [this, sumTo]
      · have hk : k = W := by omega
        subst hk
        rw [sumTo_congr (g := x) (fun j hj => by simp [Nat.le_of_lt hj])]
        simp

/-! ## The look-back -/

theorem sumTo_succ (f : Nat → Int) (m : Nat) : sumTo f (m + 1) = sumTo f m + f m := rfl

theorem windowRead_spec (agg : Nat → Int) (cells : Nat → STVA) (b : Nat)
    (hv : ∀ j, j ≤ b →
      cells j = ⟨'p', sumTo agg (j + 1)⟩ ∨ (0 < j ∧ cells j = ⟨'a', agg j⟩)) (l : Nat) :
    ((windowRead cells (b : Int) l).status = 'p'
        ∧ (windowRead cells (b : Int) l).value = sumTo agg (b + 1 - l))
      ∨ ((windowRead cells (b : Int) l).status ≠ 'p' ∧ l < b
        ∧ (windowRead cells (b : Int) l).value = agg (b - l)) := by
  unfold windowRead
  by_cases hl : l ≤ b
  · have h1 : (0 : Int) ≤ (b : Int) - (l : Int) := by omega
    have h2 : ((b : Int) - (l : Int)).toNat = b - l := by omega
    rw [if_pos h1, h2]
    rcases hv (b - l) (by omega) with h | ⟨hpos, h⟩
    · left
      rw [h]
      refine ⟨rfl, ?_⟩
      show sumTo agg (b - l + 1) = _
      congr 1; omega
    · right
      rw [h]
      exact ⟨by simp, by omega, rfl⟩
  · have h1 : ¬ ((0 : Int) ≤ (b : Int) - (l : Int)) := by omega
    rw [if_neg h1]
    left
    refine ⟨rfl, ?_⟩
    have : b + 1 - l = 0 := by omega
    rw [this]; rfl

theorem maskWalk_spec (W status_bf k : Nat) (x : Int) (h0 : status_bf.testBit 0 = false)
    (hkW : k < W) (hk : status_bf.testBit k = true)
    (hlow : ∀ i, i < k → status_bf.testBit i = false) (lane : Nat) :
    maskWalk W status_bf lane x = (if lane ≤ k then x else 0, true) := by
  have hk1 : 1 ≤ k := by
    rcases Nat.eq_zero_or_pos k with h | h
    · subst h; rw [h0] at hk; cases hk
    · exact h
  have hne : status_bf ≠ 0 := by
    intro h; subst h; simp at hk
  unfold maskWalk
  rw [if_pos hne]
  have e : (1 : Nat) = 2 ^ (1 - 1) := by simp
  rw [show bitWalk status_bf lane x (W - 1) 1 1 (if 0 < lane then 0 else x)
        = bitWalk status_bf lane x (W - 1) 1 (2 ^ (1 - 1)) (if 0 < lane then 0 else x) from rfl,
    bitWalk_spec status_bf lane k W x hkW hk (fun i _ h => hlow i h) (W - 1) 1 _
      (le_refl _) hk1 (by omega)]
  by_cases hl : lane ≤ k
  · by_cases hl0 : 0 < lane
    · have : 1 ≤ lane ∧ lane ≤ k := ⟨hl0, hl⟩
      simp [this, hl]
    · have : ¬ (1 ≤ lane ∧ lane ≤ k) := by omega
      simp [this, hl, hl0]
  · have : ¬ (1 ≤ lane ∧ lane ≤ k) := by omega
    have hl0 : 0 < lane := by omega
    simp [this, hl, hl0]

theorem lookbackWindow_spec (k : Nat) (agg : Nat → Int) (cells : Nat → STVA) (b : Nat)
    (hv : ∀ j, j ≤ b →
      cells j = ⟨'p', sumTo agg (j + 1)⟩ ∨ (0 < j ∧ cells j = ⟨'a', agg j⟩)) :
    ((lookbackWindow (2 ^ k) cells (b : Int)).2 = true →
        (lookbackWindow (2 ^ k) cells (b : Int)).1 = sumTo agg (b + 1)) ∧
    ((lookbackWindow (2 ^ k) cells (b : Int)).2 = false →
        2 ^ k ≤ b ∧ (lookbackWindow (2 ^ k) cells (b : Int)).1
          = sumTo agg (b + 1) - sumTo agg (b + 1 - 2 ^ k)) := by
  have hU := windowRead_spec agg cells b hv
  have hWpos : 0 < 2 ^ k := Nat.two_pow_pos k
  have hred : ∀ f : Nat → Int, reduceLoop (2 ^ k) (2 ^ k) (2 ^ k / 2) f 0 = sumTo f (2 ^ k) :=
    fun f => reduceLoop_spec (2 ^ k) k (2 ^ k) f (Nat.le_of_lt (Nat.lt_two_pow k)) (le_refl _)
  unfold lookbackWindow
  simp only []
  generalize hsbf : ballot (fun lane =>
    decide ((windowRead cells (b : Int) lane).status = 'p')) (2 ^ k) = sbf
  have hbit : ∀ i, sbf.testBit i = true ↔
      i < 2 ^ k ∧ (windowRead cells (b : Int) i).status = 'p' := by
    intro i
    rw [← hsbf, testBit_ballot]
    simp
  have hbit0 : sbf &&& 1 ≠ 0 ↔ (windowRead cells (b : Int) 0).status = 'p' := by
    have := and_two_pow_ne_zero sbf 0
    rw [pow_zero] at this
    rw [this, hbit 0]
    exact ⟨fun h => h.2, fun h => ⟨hWpos, h⟩⟩
  by_cases hp0 : (windowRead cells (b : Int) 0).status = 'p'
  · have hd : ¬ (decide (sbf &&& 1 ≠ 0) = false) := by
      simp only [decide_eq_false_iff_not, not_not]; exact hbit0.2 hp0
    rw [if_neg hd]
    refine ⟨fun _ => ?_, fun h => by cases h⟩
    rcases hU 0 with ⟨_, h⟩ | ⟨h, _⟩
    · simpa using h
    · exact absurd hp0 h
  · have hd : decide (sbf &&& 1 ≠ 0) = false := by
      simp only [decide_eq_false_iff_not]; exact fun h => hp0 (hbit0.1 h)
    rw [if_pos hd]
    simp only [hred]
    have hb0 : sbf.testBit 0 = false := by
      cases h : sbf.testBit 0
      · rfl
      · exact absurd ((hbit 0).1 h).2 hp0
    by_cases hz : sbf = 0
    · -- no lane saw an inclusive prefix
      have hnone : ∀ l, l < 2 ^ k → (windowRead cells (b : Int) l).status ≠ 'p' := by
        intro l hl hp
        have := (hbit l).2 ⟨hl, hp⟩
        rw [hz] at this; simp at this
      have hall : ∀ l, l < 2 ^ k →
          l < b ∧ (windowRead cells (b : Int) l).value = agg (b - l) := by
        intro l hl
        rcases hU l with ⟨h, _⟩ | ⟨_, h⟩
        · exact absurd h (hnone l hl)
        · exact h
      have hWb : 2 ^ k ≤ b := by
        have := (hall (2 ^ k - 1) (by omega)).1
        omega
      have hwalk : ∀ lane x, maskWalk (2 ^ k) sbf lane x = (x, false) := by
        intro lane x; unfold maskWalk; rw [hz]; simp
      simp only [hwalk]
      refine ⟨fun h => (by cases h), fun _ => ?_⟩
      refine ⟨hWb, ?_⟩
      rw [sumTo_congr (g := fun l => agg (b - l)) (fun l hl => (hall l hl).2)]
      exact sumTo_back agg b (2 ^ k) (by omega)
    · -- the lowest lane that saw an inclusive prefix
      obtain ⟨i, hi⟩ := Nat.ne_zero_implies_bit_true hz
      have hex : ∃ i, sbf.testBit i = true := ⟨i, hi⟩
      classical
      let m := Nat.find hex
      have hm : sbf.testBit m = true := Nat.find_spec hex
      have hmin : ∀ i, i < m → sbf.testBit i = false := by
        intro i him
        have := Nat.find_min hex him
        simpa using this
      have hmW : m < 2 ^ k := ((hbit m).1 hm).1
      have hwalk : ∀ lane x, maskWalk (2 ^ k) sbf lane x = (if lane ≤ m then x else 0, true) :=
        fun lane x => maskWalk_spec (2 ^ k) sbf m x hb0 hmW hm hmin lane
      simp only [hwalk]
      refine ⟨fun _ => ?_, fun h => by cases h⟩
      rw [sumTo_mask _ m (2 ^ k) hmW]
      have hlowlanes : ∀ l, l < m →
          l < b ∧ (windowRead cells (b : Int) l).value = agg (b - l) := by
        intro l hl
        rcases hU l with ⟨h, _⟩ | ⟨_, h⟩
        · have := (hbit l).2 ⟨by omega, h⟩
          rw [hmin l hl] at this; cases this
        · exact h
      have hm_le : m ≤ b + 1 := by
        rcases Nat.eq_zero_or_pos m with h | h
        · omega
        · have := (hlowlanes (m - 1) (by omega)).1
          omega
      have hmval : (windowRead cells (b : Int) m).value = sumTo agg (b + 1 - m) := by
        rcases hU m with ⟨_, h⟩ | ⟨h, _⟩
        · exact h
        · exact absurd ((hbit m).1 hm).2 h
      rw [sumTo_succ, sumTo_congr (g := fun l => agg (b - l)) (fun l hl => (hlowlanes l hl).2),
        sumTo_back agg b m hm_le, hmval]
      ring

theorem lookbackLoop_spec (k : Nat) (agg : Nat → Int) (cells : Nat → STVA) (vb : Nat)
    (hv : ∀ j, j < vb →
      cells j = ⟨'p', sumTo agg (j + 1)⟩ ∨ (0 < j ∧ cells j = ⟨'a', agg j⟩)) :
    ∀ (fuel b : Nat) (ep : Int), b < vb → b < fuel →
      ep = sumTo agg vb - sumTo agg (b + 1) →
      lookbackLoop (2 ^ k) cells fuel (b : Int) ep = sumTo agg vb := by
  intro fuel
  induction fuel with
  | zero => intro b ep _ h; omega
  | succ fuel ih =>
      intro b ep hb hf hep
      have hw := lookbackWindow_spec k agg cells b (fun j hj => hv j (by omega))
      have hpos : (0 : Int) ≤ (b : Int) := by omega
      simp only [lookbackLoop, if_pos hpos]
      cases hstop : (lookbackWindow (2 ^ k) cells (b : Int)).2
      · obtain ⟨hWb, hval⟩ := hw.2 hstop
        have hWpos : 0 < 2 ^ k := Nat.two_pow_pos k
        have hcast : (b : Int) - ((2 ^ k : Nat) : Int) = ((b - 2 ^ k : Nat) : Int) := by
          rw [Nat.cast_sub hWb]
        simp only [Bool.false_eq_true, if_false]
        rw [hcast]
        apply ih (b - 2 ^ k) _ (by omega) (by omega)
        rw [hep, hval]
        have e : b - 2 ^ k + 1 = b + 1 - 2 ^ k := by omega
        rw [e]; ring
      · have hval := hw.1 hstop
        simp only [if_true]
        rw [hep, hval]; ring

theorem lookback_spec (k vb : Nat) (agg : Nat → Int) (cells : Nat → STVA)
    (hv : ∀ j, j < vb →
      cells j = ⟨'p', sumTo agg (j + 1)⟩ ∨ (0 < j ∧ cells j = ⟨'a', agg j⟩)) :
    lookback (2 ^ k) cells vb = sumTo agg vb := by
  unfold lookback
  rcases Nat.eq_zero_or_pos vb with h | h
  · subst h; rfl
  · have hcast : (vb : Int) - 1 = ((vb - 1 : Nat) : Int) := by omega
    rw [hcast]
    apply lookbackLoop_spec k agg cells vb hv vb (vb - 1) 0 (by omega) (by omega)
    have e : vb - 1 + 1 = vb := by omega
    rw [e]; ring

theorem read_write_a (c : BlockStatus) (v : Int) : (c.write 'a' v).read = ⟨'a', v⟩ := by
  cases c <;> simp [BlockStatus.write, BlockStatus.read]

theorem read_write_p (c : BlockStatus) (v : Int) : (c.write 'p' v).read = ⟨'p', v⟩ := by
  cases c <;> simp [BlockStatus.write, BlockStatus.read]

theorem get_aggregate_write_a (c : BlockStatus) (v : Int) :
    (c.write 'a' v).get_aggregate = v := by
  cases c <;> simp [BlockStatus.write, BlockStatus.get_aggregate]

theorem waitResult_zero (env : Env) (gridDim : Nat) (hg : 1 < gridDim) (a ep : Int)
    ( late : Bool) :
    waitResult ((env.cell0 0).set_status 'x') (cellHistory env gridDim 0 a ep) late
      = ⟨'p', a⟩ := by
  unfold waitResult cellHistory
  cases late <;> simp [hg, read_write_p]

theorem waitResult_pos (env : Env) (gridDim j : Nat) (hg : 1 < gridDim) (hj : 0 < j)
    (a ep : Int) ( late : Bool) :
    waitResult ((env.cell0 j).set_status 'x') (cellHistory env gridDim j a ep) late
      = if late then ⟨'p', a + ep⟩ else ⟨'a', a⟩ := by
  have hj0 : j ≠ 0 := by omega
  unfold waitResult cellHistory
  cases late <;>
    simp [hg, hj, hj0, read_write_p, read_write_a, get_aggregate_write_a]

theorem exclusivePrefixes_spec (env : Env) (k : Nat) (hW : env.W = 2 ^ k) (gridDim : Nat)
    (hg : 1 < gridDim) (agg : Nat → Int) :
    ∀ m j : Nat, j < m → exclusivePrefixes env gridDim agg m j = sumTo agg j := by
  intro m
  induction m with
  | zero => intro j h; omega
  | succ m ih =>
      intro j hj
      simp only [exclusivePrefixes]
      by_cases hjm : j = m
      · subst hjm
        rw [if_pos rfl, hW]
        apply lookback_spec
        intro i hi
        rw [ih i hi]
        rcases Nat.eq_zero_or_pos i with h0 | hpos
        · subst h0
          left
          rw [waitResult_zero env gridDim hg]
          simp [sumTo]
        · rw [waitResult_pos env gridDim i hg hpos]
          cases env.late j i
          · right; exact ⟨hpos, by simp⟩
          · left
            simp only [if_true, sumTo]
            congr 1; ring
      · rw [if_neg hjm]
        exact ih j (by omega)

/-! ## The scan of one chunk -/

theorem sumTo_blocks (f : Nat → Int) (W : Nat) : ∀ w : Nat,
    sumTo (fun a => sumTo (fun lane => f (a * W + lane)) W) w = sumTo f (w * W)
  | 0 => by simp [sumTo]
  | w + 1 => by
      rw [sumTo_succ, sumTo_blocks f W w, Nat.succ_mul, sumTo_add]

theorem nthreads_div (W : Nat) (hW : 0 < W) : nthreads W / W = 4 := by
  unfold nthreads nwarps_per_block
  exact Nat.mul_div_cancel 4 hW

theorem scanWithinWarp_spec (W : Nat) (hW : 0 < W) (x0 : Nat → Int) (t : Nat) :
    scanWithinWarp W x0 t = sumTo (fun lane => x0 (t / W * W + lane)) (t % W + 1) := by
  unfold scanWithinWarp
  exact warpScan_spec W _ (t % W) (Nat.mod_lt t hW)

theorem storeWarpSums_spec (W : Nat) (hW : 0 < W) (x0 : Nat → Int) (shared : Nat → Int)
    (a : Nat) (ha : a < 4) :
    storeWarpSums W 4 (scanWithinWarp W x0) shared a
      = sumTo (fun lane => x0 (a * W + lane)) W := by
  have hdiv : (a * W + (W - 1)) / W = a := by
    rw [Nat.add_comm, Nat.add_mul_div_right _ _ hW, Nat.div_eq_of_lt (by omega)]
    simp
  have hmod : (a * W + (W - 1)) % W = W - 1 := by
    rw [Nat.add_comm, Nat.add_mul_mod_self_right, Nat.mod_eq_of_lt (by omega)]
  unfold storeWarpSums
  rw [if_pos ha, scanWithinWarp_spec W hW, hdiv, hmod]
  have e : W - 1 + 1 = W := by omega
  rw [e]

theorem scanWarpSums_spec (W : Nat) (hW : 4 ≤ W) (x0 : Nat → Int) (shared : Nat → Int)
    (l : Nat) (hl : l < 4) :
    scanWarpSums W 4 (storeWarpSums W 4 (scanWithinWarp W x0) shared) (W + l)
      = sumTo x0 ((l + 1) * W) := by
  have hcond : W ≤ W + l ∧ W + l - W < W ∧ W + l - W < 4 := by omega
  have e : W + l - W = l := by omega
  unfold scanWarpSums
  rw [if_pos hcond, e,
    scanLoop_spec 4 4 (storeWarpSums W 4 (scanWithinWarp W x0) shared) 5 1 _ (by omega)
      (by omega) (fun lane _ => by simp [sumTo]) l hl (by omega),
    ← sumTo_blocks x0 W (l + 1)]
  apply sumTo_congr
  intro a ha
  exact storeWarpSums_spec W (by omega) x0 shared a (by omega)

theorem chunk_inclusive (W : Nat) (hW : 4 ≤ W) (x0 : Nat → Int) (shared : Nat → Int)
    (t : Nat) (ht : t < nthreads W) :
    (if t / W = 0 then 0
      else scanWarpSums W 4 (storeWarpSums W 4 (scanWithinWarp W x0) shared)
        (W + (t / W - 1))) + scanWithinWarp W x0 t = sumTo x0 (t + 1) := by
  have hWpos : 0 < W := by omega
  have hw : t / W < 4 := by
    rw [Nat.div_lt_iff_lt_mul hWpos]
    unfold nthreads nwarps_per_block at ht
    exact ht
  have hsplit : t / W * W + (t % W + 1) = t + 1 := by
    have := Nat.div_add_mod' t W
    omega
  have key : sumTo x0 (t + 1) = sumTo x0 (t / W * W)
      + sumTo (fun lane => x0 (t / W * W + lane)) (t % W + 1) := by
    rw [← sumTo_add, hsplit]
  rw [scanWithinWarp_spec W hWpos, key]
  congr 1
  generalize t / W = w at hw
  by_cases h0 : w = 0
  · rw [if_pos h0, h0]; simp [sumTo]
  · rw [if_neg h0, scanWarpSums_spec W hW x0 shared (w - 1) (by omega)]
    have e : w - 1 + 1 = w := by omega
    rw [e]

theorem chunk_total (W : Nat) (hW : 4 ≤ W) (x0 : Nat → Int) (shared : Nat → Int) :
    scanWarpSums W 4 (storeWarpSums W 4 (scanWithinWarp W x0) shared) (W + (4 - 1))
      = sumTo x0 (nthreads W) := by
  rw [scanWarpSums_spec W hW x0 shared (4 - 1) (by omega)]
  rfl

theorem chunkStep_spc (W : Nat) (hW : 4 ≤ W) (n : Int) (fin : Int → Int) (ty : ScanType)
    (ib ie : Int) (c : Nat) (s : BlockState) (t : Nat) :
    (chunkStep W n fin ty ib ie c s).sum_prev_chunk t
      = s.sum_prev_chunk t + sumTo (readInput W fin ib ie c) (nthreads W) := by
  simp only [chunkStep, nthreads_div W (by omega : 0 < W)]
  rw [chunk_total W hW]

theorem chunkStep_tmp (W : Nat) (hW : 4 ≤ W) (n : Int) (fin : Int → Int) (ty : ScanType)
    (ib ie : Int) (c : Nat) (s : BlockState) (t : Nat) (ht : t < nthreads W) :
    (chunkStep W n fin ty ib ie c s).tmp_out t c
      = s.sum_prev_chunk t + (if ty = ScanType.inclusive
          then sumTo (readInput W fin ib ie c) (t + 1)
          else sumTo (readInput W fin ib ie c) t) := by
  simp only [chunkStep, nthreads_div W (by omega : 0 < W), if_true]
  have h := chunk_inclusive W hW (readInput W fin ib ie c) s.shared t ht
  by_cases hty : ty = ScanType.inclusive
  · simp only [if_pos hty]
    rw [← h]; ring
  · simp only [if_neg hty]
    have h2 : sumTo (readInput W fin ib ie c) t
        = sumTo (readInput W fin ib ie c) (t + 1) - readInput W fin ib ie c t := by
      rw [sumTo_succ]; ring
    rw [h2, ← h]; ring

theorem chunkStep_tmp_other (W : Nat) (n : Int) (fin : Int → Int) (ty : ScanType)
    (ib ie : Int) (c : Nat) (s : BlockState) (t c' : Nat) (hc : c' ≠ c) :
    (chunkStep W n fin ty ib ie c s).tmp_out t c' = s.tmp_out t c' := by
  simp only [chunkStep, if_neg hc]

theorem sum_filterMap_range (cnd : Nat → Prop) [DecidablePred cnd] (f : Nat → Int) :
    ∀ m : Nat, ((List.range m).filterMap (fun t => if cnd t then some (f t) else none)).sum
      = sumTo (fun t => if cnd t then f t else 0) m
  | 0 => by simp [sumTo]
  | m + 1 => by
      rw [List.range_succ, List.filterMap_append, List.sum_append, sum_filterMap_range cnd f m,
        sumTo_succ]
      congr 1
      by_cases h : cnd m <;> simp [h]

theorem chunkStep_sink (W : Nat) (n : Int) (fin : Int → Int) (ty : ScanType)
    (ib ie : Int) (c : Nat) (s : BlockState) :
    (chunkStep W n fin ty ib ie c s).sink_adds.sum
      = s.sink_adds.sum + sumTo (fun t =>
          if ty = ScanType.exclusive ∧ threadOffset W ib c t = n - 1
          then readInput W fin ib ie c t else 0) (nthreads W) := by
  simp only [chunkStep, List.sum_append]
  rw [sum_filterMap_range]

/-! ## The chunk loop -/

theorem chunkOffset_eq (W ibN c : Nat) (h : ibN + c * nthreads W ≤ 2147483647) :
    chunkOffset W (ibN : Int) c = ((ibN + c * nthreads W : Nat) : Int) := by
  unfold chunkOffset
  rw [int32_of_range] <;> push_cast <;> omega

theorem threadOffset_eq (W ibN c t : Nat) (h : ibN + c * nthreads W + t ≤ 2147483647) :
    threadOffset W (ibN : Int) c t = ((ibN + (c * nthreads W + t) : Nat) : Int) := by
  unfold threadOffset
  rw [chunkOffset_eq W ibN c (by omega), int32_of_range] <;> push_cast <;> omega

theorem readInput_eq (W : Nat) (fin : Int → Int) (ie : Int) (ibN c t : Nat)
    (h : ibN + c * nthreads W + t ≤ 2147483647) :
    readInput W fin (ibN : Int) ie c t = padded fin ie ibN (c * nthreads W + t) := by
  unfold readInput padded
  rw [threadOffset_eq W ibN c t h]

theorem chunk_bound {W ibN c t : Nat} (hov : ibN + 12 * nthreads W ≤ 2147483647)
    (hc : c < 12) (ht : t ≤ nthreads W) : ibN + c * nthreads W + t ≤ 2147483647 := by
  have : c * nthreads W ≤ 11 * nthreads W := Nat.mul_le_mul_right _ (by omega)
  omega

theorem padded_eq_zero (fin : Int → Int) (ie : Int) (ibN j0 j : Nat)
    (h : ie ≤ ((ibN + j0 : Nat) : Int)) (hj : j0 ≤ j) : padded fin ie ibN j = 0 := by
  unfold padded
  have : ¬ (((ibN + j : Nat) : Int) < ie) := by push_cast at h ⊢; omega
  rw [if_neg this]

theorem sumTo_extend (f : Nat → Int) {m m' : Nat} (h : m ≤ m')
    (hz : ∀ j, m ≤ j → f j = 0) : sumTo f m' = sumTo f m := by
  obtain ⟨d, rfl⟩ : ∃ d, m' = m + d := ⟨m' - m, by omega⟩
  rw [sumTo_add, sumTo_eq_zero (fun j _ => hz (m + j) (Nat.le_add_right _ _)), add_zero]

theorem chunkStep_inv (W : Nat) (hW : 4 ≤ W) (n : Int) (fin : Int → Int) (ty : ScanType)
    (ie : Int) (ibN c : Nat) (hov : ibN + 12 * nthreads W ≤ 2147483647) (hc : c < 12)
    (s : BlockState) (hs : ChunkInv W n fin ty ie ibN c s) :
    ChunkInv W n fin ty ie ibN (c + 1) (chunkStep W n fin ty (ibN : Int) ie c s) := by
  obtain ⟨h1, h2, h3⟩ := hs
  have hrd : ∀ t, t < nthreads W →
      readInput W fin (ibN : Int) ie c t = padded fin ie ibN (c * nthreads W + t) :=
    fun t ht => readInput_eq W fin ie ibN c t (chunk_bound hov hc (Nat.le_of_lt ht))
  have hsum : ∀ m, m ≤ nthreads W →
      sumTo (readInput W fin (ibN : Int) ie c) m
        = sumTo (fun t => padded fin ie ibN (c * nthreads W + t)) m :=
    fun m hm => sumTo_congr (fun t ht => hrd t (by omega))
  have hsucc : (c + 1) * nthreads W = c * nthreads W + nthreads W := Nat.succ_mul c _
  refine ⟨fun t => ?_, fun t ht c' hc' hex => ?_, ?_⟩
  · rw [chunkStep_spc W hW, h1 t, hsum _ (le_refl _), hsucc, sumTo_add]
  · by_cases hcc : c' = c
    · subst hcc
      rw [chunkStep_tmp W hW _ _ _ _ _ _ _ t ht, h1 t]
      by_cases hty : ty = ScanType.inclusive
      · rw [if_pos hty, if_pos hty, sumTo_add (padded fin ie ibN) (c' * nthreads W),
          hsum (t + 1) (by omega)]
      · rw [if_neg hty, if_neg hty, sumTo_add (padded fin ie ibN) (c' * nthreads W),
          hsum t (by omega)]
    · rw [chunkStep_tmp_other W _ _ _ _ _ _ _ t c' hcc]
      exact h2 t ht c' (by omega) hex
  · rw [chunkStep_sink]
    rw [h3]
    rw [hsucc]
    rw [sumTo_add]
    refine congrArg _ (sumTo_congr ?_)
    intro t ht
    rw [threadOffset_eq W ibN c t (chunk_bound hov hc (Nat.le_of_lt ht)), hrd t ht]

theorem chunkLoop_spec (W : Nat) (hW : 4 ≤ W) (n : Int) (fin : Int → Int) (ty : ScanType)
    (ie : Int) (ibN : Nat) (hov : ibN + 12 * nthreads W ≤ 2147483647) :
    ∀ (left c : Nat) (s : BlockState), c + left = 12 → ChunkInv W n fin ty ie ibN c s →
      ChunkInv W n fin ty ie ibN 12 (chunkLoop W n fin ty (ibN : Int) ie left c s) := by
  intro left
  induction left with
  | zero =>
      intro c s hc hs
      have : c = 12 := by omega
      subst this
      exact hs
  | succ left ih =>
      intro c s hc hs
      have hc12 : c < 12 := by omega
      simp only [chunkLoop]
      rw [chunkOffset_eq W ibN c (chunk_bound hov hc12 (Nat.zero_le _))]
      by_cases hbr : ie ≤ ((ibN + c * nthreads W : Nat) : Int)
      · rw [if_pos hbr]
        obtain ⟨h1, h2, h3⟩ := hs
        have hle : c * nthreads W ≤ 12 * nthreads W := Nat.mul_le_mul_right _ (by omega)
        refine ⟨fun t => ?_, fun t ht c' hc' hex => ?_, ?_⟩
        · rw [h1 t]
          refine (sumTo_extend _ hle ?_).symm
          intro j hj
          exact padded_eq_zero fin ie ibN _ _ hbr hj
        · apply h2 t ht c' _ hex
          by_contra hge
          have : c * nthreads W ≤ c' * nthreads W := Nat.mul_le_mul_right _ (by omega)
          push_cast at hex hbr
          omega
        · rw [h3]
          refine (sumTo_extend _ hle ?_).symm
          intro j hj
          rw [padded_eq_zero fin ie ibN _ _ hbr hj]
          simp
      · rw [if_neg hbr]
        exact ih (c + 1) _ (by omega) (chunkStep_inv W hW n fin ty ie ibN c hov hc12 s hs)

/-! ## Block ranges and block aggregates -/

theorem nelms_eq (W : Nat) : nelms_per_block W = 12 * nthreads W := by
  unfold nelms_per_block nchunks; omega

theorem int32_pred (a : Int) : int32 (int32 a - 1) = int32 (a - 1) := by
  unfold int32; omega

theorem nblocks_eq (W N : Nat) (hov : N + nelms_per_block W - 1 ≤ 2147483647) (hN : 1 ≤ N) :
    nblocks W (N : Int) = (((N + nelms_per_block W - 1) / nelms_per_block W : Nat) : Int) := by
  unfold nblocks
  have h2 : int32 ((N : Int) + (nelms_per_block W : Int) - 1)
      = ((N + nelms_per_block W - 1 : Nat) : Int) := by
    rw [int32_of_range] <;> omega
  rw [int32_pred, h2, ← Int.ofNat_tdiv]

theorem block_bounds {W N vb : Nat} (hE : 0 < nelms_per_block W)
    (hvb : vb < (N + nelms_per_block W - 1) / nelms_per_block W) :
    nelms_per_block W * vb + nelms_per_block W ≤ N + nelms_per_block W - 1 := by
  have h1 : (vb + 1) * nelms_per_block W
      ≤ (N + nelms_per_block W - 1) / nelms_per_block W * nelms_per_block W :=
    Nat.mul_le_mul_right _ hvb
  have h2 := Nat.div_mul_le_self (N + nelms_per_block W - 1) (nelms_per_block W)
  have h3 : (vb + 1) * nelms_per_block W = nelms_per_block W * vb + nelms_per_block W := by
    rw [Nat.succ_mul, Nat.mul_comm]
  omega

theorem ibegin_eq (W vb : Nat) (h : nelms_per_block W * vb ≤ 2147483647) :
    ibegin W vb = ((nelms_per_block W * vb : Nat) : Int) := by
  unfold ibegin
  rw [int32_of_range] <;> push_cast <;> omega

theorem iend_eq (W N vb : Nat) (h : nelms_per_block W * vb + nelms_per_block W ≤ 2147483647) :
    iend W (N : Int) vb = ((min (nelms_per_block W * vb + nelms_per_block W) N : Nat) : Int) := by
  unfold iend
  rw [ibegin_eq W vb (by omega), int32_of_range] <;> push_cast <;> omega

theorem scanPhase_inv (env : Env) (hW : 4 ≤ env.W) (N : Nat) (fin : Int → Int) (ty : ScanType)
    (vb : Nat) (h : nelms_per_block env.W * vb + nelms_per_block env.W ≤ 2147483647) :
    ChunkInv env.W (N : Int) fin ty (iend env.W (N : Int) vb) (nelms_per_block env.W * vb) 12
      (scanPhase env (N : Int) fin ty vb) := by
  unfold scanPhase
  rw [ibegin_eq env.W vb (by omega)]
  apply chunkLoop_spec env.W hW _ _ _ _ _ (by rw [← nelms_eq]; exact h) nchunks 0 _ rfl
  refine ⟨fun t => ?_, fun t _ c' hc' _ => by omega, ?_⟩
  · simp [sumTo]
  · simp [sumTo]

theorem sumTo_padded (fin : Int → Int) (ibN ieN : Nat) (h : ibN ≤ ieN) : ∀ m : Nat,
    sumTo (padded fin (ieN : Int) ibN) m = prefixOf fin (min (ibN + m) ieN) - prefixOf fin ibN
  | 0 => by
      have : min (ibN + 0) ieN = ibN := by omega
      rw [this]; simp [sumTo]
  | m + 1 => by
      rw [sumTo_succ, sumTo_padded fin ibN ieN h m]
      unfold padded
      by_cases hc : ibN + m < ieN
      · have h1 : min (ibN + m) ieN = ibN + m := by omega
        have h2 : min (ibN + (m + 1)) ieN = ibN + m + 1 := by omega
        have h3 : ((ibN + m : Nat) : Int) < (ieN : Int) := by omega
        rw [if_pos h3, h1, h2]
        unfold prefixOf
        rw [sumTo_succ]; ring
      · have h1 : min (ibN + m) ieN = ieN := by omega
        have h2 : min (ibN + (m + 1)) ieN = ieN := by omega
        have h3 : ¬ (((ibN + m : Nat) : Int) < (ieN : Int)) := by omega
        rw [if_neg h3, h1, h2]; ring

theorem aggregateOf_fun : aggregateOf = fun env n fin ty vb =>
    (scanPhase env n fin ty vb).sum_prev_chunk 0 := rfl

theorem aggregateOf_def (env : Env) (n : Int) (fin : Int → Int) (ty : ScanType) (vb : Nat) :
    aggregateOf env n fin ty vb = (scanPhase env n fin ty vb).sum_prev_chunk 0 := by
  rw [aggregateOf_fun]

theorem nelms_pos (W : Nat) (hW : 0 < W) : 0 < nelms_per_block W := by
  unfold nelms_per_block nthreads nwarps_per_block nchunks; omega

theorem aggregateOf_eq (env : Env) (hW : 4 ≤ env.W) (N : Nat) (fin : Int → Int) (ty : ScanType)
    (hov : N + nelms_per_block env.W - 1 ≤ 2147483647) (vb : Nat)
    (hvb : vb < (N + nelms_per_block env.W - 1) / nelms_per_block env.W) :
    aggregateOf env (N : Int) fin ty vb
      = prefixOf fin (min (nelms_per_block env.W * (vb + 1)) N)
        - prefixOf fin (min (nelms_per_block env.W * vb) N) := by
  have hE : 0 < nelms_per_block env.W := nelms_pos env.W (by omega)
  have hb := block_bounds hE hvb
  have hinv := scanPhase_inv env hW N fin ty vb (by omega)
  have h1 := hinv.1 0
  rw [iend_eq env.W N vb (by omega), ← nelms_eq,
    sumTo_padded fin (nelms_per_block env.W * vb)
      (min (nelms_per_block env.W * vb + nelms_per_block env.W) N) (by omega)
      (nelms_per_block env.W)] at h1
  rw [aggregateOf_def, h1]
  have e1 : min (nelms_per_block env.W * vb + nelms_per_block env.W)
      (min (nelms_per_block env.W * vb + nelms_per_block env.W) N)
      = min (nelms_per_block env.W * (vb + 1)) N := by
    rw [Nat.mul_succ]; omega
  have e2 : min (nelms_per_block env.W * vb) N = nelms_per_block env.W * vb := by omega
  rw [e1, e2]

theorem sumTo_telescope (q : Nat → Int) : ∀ m : Nat,
    sumTo (fun j => q (j + 1) - q j) m = q m - q 0
  | 0 => by simp [sumTo]
  | m + 1 => by rw [sumTo_succ, sumTo_telescope q m]; ring

theorem sumTo_aggregateOf (env : Env) (hW : 4 ≤ env.W) (N : Nat) (fin : Int → Int)
    (ty : ScanType) (hov : N + nelms_per_block env.W - 1 ≤ 2147483647) (vb : Nat)
    (hvb : vb < (N + nelms_per_block env.W - 1) / nelms_per_block env.W) :
    sumTo (aggregateOf env (N : Int) fin ty) vb = prefixOf fin (nelms_per_block env.W * vb) := by
  have hE : 0 < nelms_per_block env.W := nelms_pos env.W (by omega)
  have hb := block_bounds hE hvb
  rw [sumTo_congr (g := fun j => prefixOf fin (min (nelms_per_block env.W * (j + 1)) N)
        - prefixOf fin (min (nelms_per_block env.W * j) N))
      (fun j hj => aggregateOf_eq env hW N fin ty hov j (by omega)),
    sumTo_telescope (fun j => prefixOf fin (min (nelms_per_block env.W * j) N)) vb]
  have e2 : min (nelms_per_block env.W * vb) N = nelms_per_block env.W * vb := by omega
  simp only [Nat.mul_zero, Nat.zero_min, e2]
  simp [prefixOf, sumTo]

theorem four_le_two_pow (k : Nat) (hk : 2 ≤ k) : 4 ≤ 2 ^ k :=
  calc 4 = 2 ^ 2 := by norm_num
    _ ≤ 2 ^ k := Nat.pow_le_pow_right (by norm_num) hk

theorem exclusivePrefix_eq (env : Env) (k : Nat) (hk : 2 ≤ k) (hWk : env.W = 2 ^ k) (N : Nat)
    (fin : Int → Int) (ty : ScanType) (hov : N + nelms_per_block env.W - 1 ≤ 2147483647) (vb : Nat)
    (hvb : vb < (N + nelms_per_block env.W - 1) / nelms_per_block env.W) (hpos : 0 < vb) :
    exclusivePrefixes env ((N + nelms_per_block env.W - 1) / nelms_per_block env.W)
        (aggregateOf env (N : Int) fin ty) (vb + 1) vb
      = prefixOf fin (nelms_per_block env.W * vb) := by
  have hW : 4 ≤ env.W := by rw [hWk]; exact four_le_two_pow k hk
  rw [exclusivePrefixes_spec env k hWk _ (by omega) _ (vb + 1) vb (by omega),
    sumTo_aggregateOf env hW N fin ty hov vb hvb]

/-! ## The output pass -/

theorem outOffset_eq (W ibN c t : Nat) (h : ibN + c * nthreads W + t ≤ 2147483647) :
    int32 ((ibN : Int) + (c : Int) * (nthreads W : Int) + (t : Int))
      = ((ibN + c * nthreads W + t : Nat) : Int) := by
  rw [int32_of_range] <;> push_cast <;> omega

theorem outLoop_mem (W : Nat) (n ie : Int) (ibN : Nat) (val : Nat → Int) (t : Nat)
    (hov : ibN + 12 * nthreads W ≤ 2147483647) (ht : t < nthreads W) :
    ∀ (left c : Nat) (acc : List (Int × Int) × List Int), c + left = 12 → ∀ p : Int × Int,
      p ∈ (outLoop W n (ibN : Int) ie val t left c acc).1 ↔
        p ∈ acc.1 ∨ ∃ c', c ≤ c' ∧ c' < 12 ∧ ((ibN + c' * nthreads W + t : Nat) : Int) < ie
          ∧ p = (((ibN + c' * nthreads W + t : Nat) : Int), val c') := by
  intro left
  induction left with
  | zero =>
      intro c acc hc p
      simp only [outLoop]
      constructor
      · intro h; exact Or.inl h
      · rintro (h | ⟨c', h1, h2, _⟩)
        · exact h
        · omega
  | succ left ih =>
      intro c acc hc p
      have hc12 : c < 12 := by omega
      simp only [outLoop]
      rw [outOffset_eq W ibN c t (chunk_bound hov hc12 (Nat.le_of_lt ht))]
      by_cases hbr : ie ≤ ((ibN + c * nthreads W + t : Nat) : Int)
      · rw [if_pos hbr]
        constructor
        · intro h; exact Or.inl h
        · rintro (h | ⟨c', h1, _, h3, _⟩)
          · exact h
          · exfalso
            have : c * nthreads W ≤ c' * nthreads W := Nat.mul_le_mul_right _ h1
            push_cast at hbr h3
            omega
      · rw [if_neg hbr, ih (c + 1) _ (by omega) p]
        simp only [List.mem_append, List.mem_singleton]
        constructor
        · rintro ((h | h) | ⟨c', h1, h2, h3, h4⟩)
          · exact Or.inl h
          · exact Or.inr ⟨c, le_refl _, hc12, by omega, h⟩
          · exact Or.inr ⟨c', by omega, h2, h3, h4⟩
        · rintro (h | ⟨c', h1, h2, h3, h4⟩)
          · exact Or.inl (Or.inl h)
          · by_cases hcc : c' = c
            · subst hcc; exact Or.inl (Or.inr h4)
            · exact Or.inr ⟨c', by omega, h2, h3, h4⟩

theorem foldl_outLoop_mem (W : Nat) (n ie : Int) (ibN : Nat) (val : Nat → Nat → Int)
    (hov : ibN + 12 * nthreads W ≤ 2147483647) :
    ∀ (l : List Nat) (acc : List (Int × Int) × List Int), (∀ t ∈ l, t < nthreads W) →
      ∀ p : Int × Int,
      p ∈ (l.foldl (fun acc t => outLoop W n (ibN : Int) ie (val t) t nchunks 0 acc) acc).1 ↔
        p ∈ acc.1 ∨ ∃ t ∈ l, ∃ c', c' < 12 ∧ ((ibN + c' * nthreads W + t : Nat) : Int) < ie
          ∧ p = (((ibN + c' * nthreads W + t : Nat) : Int), val t c') := by
  intro l
  induction l with
  | nil => intro acc _ p; simp
  | cons t l ih =>
      intro acc hl p
      rw [List.foldl_cons, ih _ (fun t' ht' => hl t' (List.mem_cons_of_mem _ ht')) p,
        outLoop_mem W n ie ibN (val t) t hov (hl t (List.mem_cons_self _ _)) nchunks 0 acc rfl p]
      constructor
      · rintro ((h | ⟨c', _, h2, h3, h4⟩) | ⟨t', ht', h⟩)
        · exact Or.inl h
        · exact Or.inr ⟨t, List.mem_cons_self _ _, c', h2, h3, h4⟩
        · exact Or.inr ⟨t', List.mem_cons_of_mem _ ht', h⟩
      · rintro (h | ⟨t', ht', c', h2, h3, h4⟩)
        · exact Or.inl (Or.inl h)
        · rcases List.mem_cons.1 ht' with heq | hmem
          · subst heq; exact Or.inl (Or.inr ⟨c', Nat.zero_le _, h2, h3, h4⟩)
          · exact Or.inr ⟨t', hmem, c', h2, h3, h4⟩

theorem runBlock_mem (env : Env) (N : Nat) (fin : Int → Int) (ty : ScanType) (gridDim vb : Nat)
    (h : nelms_per_block env.W * vb + nelms_per_block env.W ≤ 2147483647) (p : Int × Int) :
    p ∈ (runBlock env (N : Int) fin ty gridDim vb).fout_calls ↔
      ∃ t, t < nthreads env.W ∧ ∃ c, c < 12
        ∧ nelms_per_block env.W * vb + c * nthreads env.W + t
            < min (nelms_per_block env.W * vb + nelms_per_block env.W) N
        ∧ p = (((nelms_per_block env.W * vb + c * nthreads env.W + t : Nat) : Int),
            if vb = 0 then (scanPhase env (N : Int) fin ty vb).tmp_out t c
            else (scanPhase env (N : Int) fin ty vb).tmp_out t c
              + exclusivePrefixes env gridDim (aggregateOf env (N : Int) fin ty) (vb + 1) vb) := by
  unfold runBlock
  simp only []
  rw [ibegin_eq env.W vb (by omega), iend_eq env.W N vb h,
    foldl_outLoop_mem env.W (N : Int) _ _ _ (by rw [← nelms_eq]; exact h) _ _
      (fun t ht => List.mem_range.1 ht) p]
  constructor
  · rintro (h | ⟨t, ht, c, h1, h2, h3⟩)
    · cases h
    · exact ⟨t, List.mem_range.1 ht, c, h1, Int.ofNat_lt.1 h2, h3⟩
  · rintro ⟨t, ht, c, h1, h2, h3⟩
    exact Or.inr ⟨t, List.mem_range.2 ht, c, h1, Int.ofNat_lt.2 h2, h3⟩

theorem scanPhase_inv_nat (env : Env) (hW : 4 ≤ env.W) (N : Nat) (fin : Int → Int) (ty : ScanType)
    (vb : Nat) (h : nelms_per_block env.W * vb + nelms_per_block env.W ≤ 2147483647) :
    ChunkInv env.W (N : Int) fin ty
      ((min (nelms_per_block env.W * vb + nelms_per_block env.W) N : Nat) : Int)
      (nelms_per_block env.W * vb) 12 (scanPhase env (N : Int) fin ty vb) := by
  have hinv := scanPhase_inv env hW N fin ty vb h
  rw [iend_eq env.W N vb h] at hinv
  exact hinv

theorem tmp_out_eq (env : Env) (hW : 4 ≤ env.W) (N : Nat) (fin : Int → Int) (ty : ScanType)
    (hov : N + nelms_per_block env.W - 1 ≤ 2147483647) (vb : Nat)
    (hvb : vb < (N + nelms_per_block env.W - 1) / nelms_per_block env.W) (t c : Nat)
    (ht : t < nthreads env.W) (hc : c < 12)
    (hlt : nelms_per_block env.W * vb + c * nthreads env.W + t
      < min (nelms_per_block env.W * vb + nelms_per_block env.W) N) :
    (scanPhase env (N : Int) fin ty vb).tmp_out t c
      = prefixOf fin (nelms_per_block env.W * vb + c * nthreads env.W
          + (if ty = ScanType.inclusive then t + 1 else t))
        - prefixOf fin (nelms_per_block env.W * vb) := by
  have hE : 0 < nelms_per_block env.W := nelms_pos env.W (by omega)
  have hb := block_bounds hE hvb
  have hinv := scanPhase_inv_nat env hW N fin ty vb (by omega)
  have hex : ((nelms_per_block env.W * vb + c * nthreads env.W : Nat) : Int)
      < ((min (nelms_per_block env.W * vb + nelms_per_block env.W) N : Nat) : Int) :=
    Int.ofNat_lt.2 (by omega)
  have h2 := hinv.2.1 t ht c hc hex
  rw [sumTo_padded fin (nelms_per_block env.W * vb)
      (min (nelms_per_block env.W * vb + nelms_per_block env.W) N) (by omega)] at h2
  rw [h2]
  by_cases hty : ty = ScanType.inclusive
  · rw [if_pos hty]
    have e : min (nelms_per_block env.W * vb + (c * nthreads env.W + (t + 1)))
        (min (nelms_per_block env.W * vb + nelms_per_block env.W) N)
        = nelms_per_block env.W * vb + c * nthreads env.W + (t + 1) := by omega
    rw [e]
  · rw [if_neg hty]
    have e : min (nelms_per_block env.W * vb + (c * nthreads env.W + t))
        (min (nelms_per_block env.W * vb + nelms_per_block env.W) N)
        = nelms_per_block env.W * vb + c * nthreads env.W + t := by omega
    rw [e]

theorem claimIds_eq (B : Nat) : ∀ k c : Nat, c + k ≤ B →
    claimIds B k c = (List.range' c k).map (fun j => (j, j + 1))
  | 0, _, _ => rfl
  | k + 1, c, h => by
      have hc : ¬ (B ≤ c) := by omega
      simp only [claimIds, atomicInc, if_neg hc, List.range'_succ, List.map_cons]
      rw [claimIds_eq B k (c + 1) (by omega)]

theorem claimIds_fst (B : Nat) : (claimIds B B 0).map Prod.fst = List.range B := by
  rw [claimIds_eq B B 0 (by omega), List.map_map, List.range_eq_range']
  exact List.map_id _

theorem launch_ids (B : Nat) :
    (if 1 < B then (claimIds B B 0).map Prod.fst else List.replicate B 0) = List.range B := by
  by_cases h : 1 < B
  · rw [if_pos h, claimIds_fst]
  · rw [if_neg h]
    have : B = 0 ∨ B = 1 := by omega
    rcases this with rfl | rfl <;> rfl

theorem PrefixSum_pos (env : Env) (N : Nat) (fin : Int → Int) (ty : ScanType) (hN : 1 ≤ N)
    (hov : N + nelms_per_block env.W - 1 ≤ 2147483647) :
    PrefixSum env (N : Int) fin ty =
      { totalsum := 0 + (((List.range ((N + nelms_per_block env.W - 1) / nelms_per_block env.W)).map
            (runBlock env (N : Int) fin ty
              ((N + nelms_per_block env.W - 1) / nelms_per_block env.W))).map
                BlockResult.sink_adds).flatten.sum
        fout_calls := (((List.range ((N + nelms_per_block env.W - 1) / nelms_per_block env.W)).map
            (runBlock env (N : Int) fin ty
              ((N + nelms_per_block env.W - 1) / nelms_per_block env.W))).map
                BlockResult.fout_calls).flatten
        fin_calls := (((List.range ((N + nelms_per_block env.W - 1) / nelms_per_block env.W)).map
            (runBlock env (N : Int) fin ty
              ((N + nelms_per_block env.W - 1) / nelms_per_block env.W))).map
                BlockResult.fin_calls).flatten } := by
  have hn : ¬ ((N : Int) ≤ 0) := by omega
  unfold PrefixSum
  rw [if_neg hn]
  simp only [nblocks_eq env.W N hov hN, Int.toNat_ofNat, launch_ids]

theorem mem_flatten_map_map {α β γ : Type} (l : List α) (f : α → β) (g : β → List γ) (p : γ) :
    p ∈ ((l.map f).map g).flatten ↔ ∃ a, a ∈ l ∧ p ∈ g (f a) := by
  simp only [List.mem_flatten, List.mem_map]
  constructor
  · rintro ⟨_, ⟨_, ⟨a, ha, rfl⟩, rfl⟩, hp⟩
    exact ⟨a, ha, hp⟩
  · rintro ⟨a, ha, hp⟩
    exact ⟨_, ⟨_, ⟨a, ha, rfl⟩, rfl⟩, hp⟩

theorem prefixOf_zero (fin : Int → Int) : prefixOf fin 0 = 0 := rfl

theorem prefixOf_succ (fin : Int → Int) (m : Nat) :
    prefixOf fin (m + 1) = prefixOf fin m + fin (m : Int) := rfl

theorem block_of_index {E N i : Nat} (hE : 0 < E) (hi : i < N) : i / E < (N + E - 1) / E := by
  have h1 : i / E ≤ (N - 1) / E := Nat.div_le_div_right (by omega)
  have h2 : (N + E - 1) / E = (N - 1) / E + 1 := by
    have : N + E - 1 = N - 1 + E := by omega
    rw [this, Nat.add_div_right _ hE]
  omega

theorem callValue_eq (env : Env) (k : Nat) (hk : 2 ≤ k) (hWk : env.W = 2 ^ k) (N : Nat)
    (fin : Int → Int) (ty : ScanType) (hov : N + nelms_per_block env.W - 1 ≤ 2147483647) (vb : Nat)
    (hvb : vb < (N + nelms_per_block env.W - 1) / nelms_per_block env.W) (t c : Nat)
    (ht : t < nthreads env.W) (hc : c < 12)
    (hlt : nelms_per_block env.W * vb + c * nthreads env.W + t
      < min (nelms_per_block env.W * vb + nelms_per_block env.W) N) :
    (if vb = 0 then (scanPhase env (N : Int) fin ty vb).tmp_out t c
      else (scanPhase env (N : Int) fin ty vb).tmp_out t c
        + exclusivePrefixes env ((N + nelms_per_block env.W - 1) / nelms_per_block env.W)
            (aggregateOf env (N : Int) fin ty) (vb + 1) vb)
      = prefixOf fin (if ty = ScanType.inclusive
          then nelms_per_block env.W * vb + c * nthreads env.W + t + 1
          else nelms_per_block env.W * vb + c * nthreads env.W + t) := by
  have hW : 4 ≤ env.W := by rw [hWk]; exact four_le_two_pow k hk
  have hidx : nelms_per_block env.W * vb + c * nthreads env.W
        + (if ty = ScanType.inclusive then t + 1 else t)
      = if ty = ScanType.inclusive
          then nelms_per_block env.W * vb + c * nthreads env.W + t + 1
          else nelms_per_block env.W * vb + c * nthreads env.W + t := by
    split <;> rfl
  rw [tmp_out_eq env hW N fin ty hov vb hvb t c ht hc hlt, hidx]
  by_cases h0 : vb = 0
  · rw [if_pos h0, h0, Nat.mul_zero, prefixOf_zero, sub_zero]
  · rw [if_neg h0, exclusivePrefix_eq env k hk hWk N fin ty hov vb hvb (by omega)]
    ring

theorem fout_calls_iff (env : Env) (k : Nat) (hk : 2 ≤ k) (hWk : env.W = 2 ^ k) (N : Nat)
    (fin : Int → Int) (ty : ScanType) (hN : 1 ≤ N)
    (hov : N + nelms_per_block env.W - 1 ≤ 2147483647) (p : Int × Int) :
    p ∈ (PrefixSum env (N : Int) fin ty).fout_calls ↔
      ∃ i : Nat, i < N ∧ p = ((i : Int),
        prefixOf fin (if ty = ScanType.inclusive then i + 1 else i)) := by
  have hW : 4 ≤ env.W := by rw [hWk]; exact four_le_two_pow k hk
  have hE : 0 < nelms_per_block env.W := nelms_pos env.W (by omega)
  have hbd : 0 < nthreads env.W := by unfold nthreads nwarps_per_block; omega
  rw [PrefixSum_pos env N fin ty hN hov]
  simp only []
  rw [mem_flatten_map_map]
  constructor
  · rintro ⟨vb, hvb, hp⟩
    have hvb' := List.mem_range.1 hvb
    have hb := block_bounds hE hvb'
    rw [runBlock_mem env N fin ty _ vb (by omega)] at hp
    obtain ⟨t, ht, c, hc, hlt, hp⟩ := hp
    refine ⟨nelms_per_block env.W * vb + c * nthreads env.W + t, by omega, ?_⟩
    rw [hp, callValue_eq env k hk hWk N fin ty hov vb hvb' t c ht hc hlt]
  · rintro ⟨i, hi, hp⟩
    have hvb : i / nelms_per_block env.W
        < (N + nelms_per_block env.W - 1) / nelms_per_block env.W := block_of_index hE hi
    have hb := block_bounds hE hvb
    have hr : i % nelms_per_block env.W < 12 * nthreads env.W := by
      rw [← nelms_eq]; exact Nat.mod_lt _ hE
    have hc : i % nelms_per_block env.W / nthreads env.W < 12 :=
      (Nat.div_lt_iff_lt_mul hbd).2 hr
    have ht : i % nelms_per_block env.W % nthreads env.W < nthreads env.W := Nat.mod_lt _ hbd
    have e1 := Nat.div_add_mod i (nelms_per_block env.W)
    have e2 := Nat.div_add_mod' (i % nelms_per_block env.W) (nthreads env.W)
    have hidx : nelms_per_block env.W * (i / nelms_per_block env.W)
        + i % nelms_per_block env.W / nthreads env.W * nthreads env.W
        + i % nelms_per_block env.W % nthreads env.W = i := by omega
    have hlt : nelms_per_block env.W * (i / nelms_per_block env.W)
        + i % nelms_per_block env.W / nthreads env.W * nthreads env.W
        + i % nelms_per_block env.W % nthreads env.W
        < min (nelms_per_block env.W * (i / nelms_per_block env.W) + nelms_per_block env.W) N := by
      rw [hidx]
      have := Nat.mod_lt i hE
      omega
    refine ⟨i / nelms_per_block env.W, List.mem_range.2 hvb, ?_⟩
    rw [runBlock_mem env N fin ty _ _ (by omega)]
    refine ⟨_, ht, _, hc, hlt, ?_⟩
    rw [callValue_eq env k hk hWk N fin ty hov _ hvb _ _ ht hc hlt, hidx]
    exact hp

/-! ## Launched blocks -/

theorem tdiv_nonpos_of_nonpos {a b : Int} (ha : a ≤ 0) (hb : 0 ≤ b) : a.tdiv b ≤ 0 := by
  have h : a.tdiv b = -((-a).tdiv b) := by rw [Int.neg_tdiv, neg_neg]
  rw [h]
  have := Int.tdiv_nonneg (a := -a) (b := b) (by omega) hb
  omega

theorem int32_wrap_neg {a : Int} (h1 : 2147483648 ≤ a) (h2 : a ≤ 4294967295) :
    int32 a = a - 4294967296 := by
  unfold int32; omega

theorem launched_block (W : Nat) (n : Int) (vb : Nat) (hn1 : -2147483648 ≤ n)
    (hn2 : n ≤ 2147483647) (hE : nelms_per_block W ≤ 2147483647)
    (hvb : vb < (nblocks W n).toNat) :
    ∃ N : Nat, n = (N : Int) ∧ 1 ≤ N ∧ N + nelms_per_block W - 1 ≤ 2147483647
      ∧ vb < (N + nelms_per_block W - 1) / nelms_per_block W := by
  have hnb : nblocks W n
      = Int.tdiv (int32 (n + (nelms_per_block W : Int) - 1)) (nelms_per_block W : Int) := by
    unfold nblocks; rw [int32_pred]
  have hE0 : 0 < nelms_per_block W := by
    rcases Nat.eq_zero_or_pos (nelms_per_block W) with h | h
    · exfalso
      rw [hnb, h] at hvb
      simp at hvb
    · exact h
  by_cases hpos : 1 ≤ n
  · by_cases hov : n + (nelms_per_block W : Int) - 1 ≤ 2147483647
    · refine ⟨n.toNat, by omega, by omega, by omega, ?_⟩
      have hN : n = ((n.toNat : Nat) : Int) := by omega
      rw [hN, nblocks_eq W n.toNat (by omega) (by omega), Int.toNat_ofNat] at hvb
      exact hvb
    · exfalso
      rw [hnb, int32_wrap_neg (by omega) (by omega)] at hvb
      have := tdiv_nonpos_of_nonpos
        (a := n + (nelms_per_block W : Int) - 1 - 4294967296) (b := (nelms_per_block W : Int))
        (by omega) (by omega)
      omega
  · exfalso
    rw [hnb, int32_of_range (by omega) (by omega)] at hvb
    by_cases hneg : n + (nelms_per_block W : Int) - 1 < 0
    · have := tdiv_nonpos_of_nonpos
        (a := n + (nelms_per_block W : Int) - 1) (b := (nelms_per_block W : Int))
        (by omega) (by omega)
      omega
    · rw [Int.tdiv_eq_zero_of_lt (by omega) (by omega)] at hvb
      simp at hvb

/-! ## The warp scan with fewer strides, and how the look-back ends -/

theorem scanLoop_exit (bound width : Nat) (x0 : Nat → Int) :
    ∀ (fuel i : Nat) (x : Nat → Int), 0 < i → bound + 1 ≤ i + fuel →
      (∀ lane, lane < width → x lane = sumTo x0 (lane + 1) - sumTo x0 (lane + 1 - i)) →
      ∃ m : Nat, bound < i * 2 ^ m ∧ ∀ lane, lane < width →
        scanLoop bound width fuel i x lane
          = sumTo x0 (lane + 1) - sumTo x0 (lane + 1 - i * 2 ^ m) := by
  intro fuel
  induction fuel with
  | zero =>
      intro i x _ hf hx
      exact ⟨0, by omega, fun lane hl => by simp only [scanLoop, pow_zero, Nat.mul_one]; exact hx lane hl⟩
  | succ fuel ih =>
      intro i x hi hf hx
      by_cases hib : i ≤ bound
      · obtain ⟨m, hm, h⟩ := ih (i * 2)
          (fun lane => if i ≤ lane then x lane + shfl_up x i width lane else x lane)
          (by omega) (by omega) (by
            intro l hlw
            by_cases hil : i ≤ l
            · have hmod : l % width = l := Nat.mod_eq_of_lt hlw
              have e1 : l - i + 1 = l + 1 - i := by omega
              have e2 : l + 1 - i - i = l + 1 - i * 2 := by omega
              simp only [if_pos hil, shfl_up, hmod]
              rw [hx l hlw, hx (l - i) (by omega), e1, e2]; ring
            · have e1 : l + 1 - i = 0 := by omega
              have e2 : l + 1 - i * 2 = 0 := by omega
              simp only [if_neg hil]
              rw [hx l hlw, e1, e2])
        refine ⟨m + 1, ?_, fun lane hl => ?_⟩
        · rw [pow_succ, Nat.mul_comm (2 ^ m) 2, ← Nat.mul_assoc]; exact hm
        · simp only [scanLoop, if_pos hib]
          rw [h lane hl, pow_succ, Nat.mul_comm (2 ^ m) 2, ← Nat.mul_assoc]
      · exact ⟨0, by omega, fun lane hl => by
          simp only [scanLoop, if_neg hib, pow_zero, Nat.mul_one]; exact hx lane hl⟩

theorem specWarpScan_pow (k : Nat) (x : Nat → Int) (lane : Nat) (h : lane < 2 ^ k) :
    specWarpScan (2 ^ k) x lane = sumTo x (lane + 1) := by
  unfold specWarpScan
  obtain ⟨m, hm, hs⟩ := scanLoop_exit (2 ^ k / 2) (2 ^ k) x (2 ^ k + 1) 1 x (by omega)
    (by omega) (fun l _ => by simp [sumTo])
  rw [hs lane h]
  rw [Nat.one_mul] at hm ⊢
  have hkm : k ≤ m := by
    by_contra hc
    have hlt : m + 1 ≤ k := by omega
    have h1 : 2 ^ (m + 1) ≤ 2 ^ k := Nat.pow_le_pow_right (by omega) hlt
    have h2 : 2 ^ (m + 1) = 2 * 2 ^ m := by rw [pow_succ]; omega
    omega
  have h3 : 2 ^ k ≤ 2 ^ m := Nat.pow_le_pow_right (by omega) hkm
  have e : lane + 1 - 2 ^ m = 0 := by omega
  rw [e]; simp [sumTo]

theorem window_stops (W : Nat) (cells : Nat → STVA) (ib : Int)
    (h : ∃ l, l < W ∧ (windowRead cells ib l).status = 'p') :
    (lookbackWindow W cells ib).2 = true := by
  unfold lookbackWindow
  simp only []
  generalize hsbf : ballot (fun lane =>
    decide ((windowRead cells ib lane).status = 'p')) W = sbf
  have hbit : ∀ i, sbf.testBit i = true ↔ i < W ∧ (windowRead cells ib i).status = 'p' := by
    intro i
    rw [← hsbf, testBit_ballot]
    simp
  have hbit0 : sbf &&& 1 ≠ 0 ↔ sbf.testBit 0 = true := by
    have := and_two_pow_ne_zero sbf 0
    rw [pow_zero] at this
    exact this
  by_cases hp0 : sbf.testBit 0 = true
  · have hd : ¬ (decide (sbf &&& 1 ≠ 0) = false) := by
      simp only [decide_eq_false_iff_not, not_not]; exact hbit0.2 hp0
    rw [if_neg hd]
  · have hd : decide (sbf &&& 1 ≠ 0) = false := by
      simp only [decide_eq_false_iff_not]; exact fun h => hp0 (hbit0.1 h)
    rw [if_pos hd]
    have hb0 : sbf.testBit 0 = false := by
      cases h0 : sbf.testBit 0
      · rfl
      · exact absurd h0 hp0
    have hex : ∃ l, sbf.testBit l = true := by
      obtain ⟨l, hl, hs⟩ := h
      exact ⟨l, (hbit l).2 ⟨hl, hs⟩⟩
    have hk := Nat.find_spec hex
    have hlow : ∀ i, i < Nat.find hex → sbf.testBit i = false := by
      intro i hi
      have := Nat.find_min hex hi
      cases hh : sbf.testBit i
      · rfl
      · exact absurd hh this
    rw [maskWalk_spec W sbf (Nat.find hex) _ hb0 ((hbit _).1 hk).1 hk hlow 0]

theorem lookbackSteps_stops (W : Nat) (hW : 0 < W) (cells : Nat → STVA)
    (h0 : (cells 0).status = 'p') :
    ∀ (fuel b done : Nat), b < fuel →
      ∃ cnt, lookbackSteps W cells fuel (b : Int) done = (cnt, LoopExit.byStop)
        ∧ done + 1 ≤ cnt ∧ cnt ≤ done + b / W + 1 := by
  intro fuel
  induction fuel with
  | zero => intro b done h; omega
  | succ fuel ih =>
      intro b done hf
      have hpos : (0 : Int) ≤ (b : Int) := by omega
      simp only [lookbackSteps, if_pos hpos]
      cases hstop : (lookbackWindow W cells (b : Int)).2
      · have hWb : W ≤ b := by
          by_contra hc
          have hlt : b < W := by omega
          have : (lookbackWindow W cells (b : Int)).2 = true := by
            apply window_stops
            refine ⟨b, hlt, ?_⟩
            unfold windowRead
            simp [h0]
          rw [hstop] at this
          cases this
        have hcast : (b : Int) - (W : Int) = ((b - W : Nat) : Int) := by
          rw [Nat.cast_sub hWb]
        simp only [Bool.false_eq_true, if_false]
        rw [hcast]
        obtain ⟨cnt, h1, h2, h3⟩ := ih (b - W) (done + 1) (by omega)
        refine ⟨cnt, h1, by omega, ?_⟩
        have hdiv : b / W = (b - W) / W + 1 := by
          have e : b = (b - W) + W := by omega
          conv_lhs => rw [e]
          exact Nat.add_div_right _ hW
        rw [hdiv]
        omega
      · simp only [if_true]
        exact ⟨done + 1, rfl, by omega, by generalize b / W = q; omega⟩

theorem lookbackSteps_kernel (W : Nat) (hW : 0 < W) (cells : Nat → STVA)
    (h0 : (cells 0).status = 'p') (vb : Nat) (hvb : 0 < vb) :
    ∃ cnt, lookbackSteps W cells vb ((vb : Int) - 1) 0 = (cnt, LoopExit.byStop)
      ∧ 1 ≤ cnt ∧ cnt ≤ (vb + W - 1) / W := by
  have hcast : (vb : Int) - 1 = ((vb - 1 : Nat) : Int) := by omega
  rw [hcast]
  obtain ⟨cnt, h1, h2, h3⟩ := lookbackSteps_stops W hW cells h0 vb (vb - 1) 0 (by omega)
  refine ⟨cnt, h1, by omega, ?_⟩
  have e : vb + W - 1 = (vb - 1) + W := by omega
  rw [e, Nat.add_div_right _ hW]
  omega

/-! ## The builds of the scan of warp sums, and the race on an unpacked cell -/

theorem scanWarpSums_variants (W nwarps : Nat) (shared : Nat → Int) (w : Nat)
    (hn : nwarps ≤ W) (hw : w < nwarps) :
    scanWarpSums W nwarps shared (W + w) = sumTo shared (w + 1)
      ∧ scanWarpSumsHIP W nwarps shared (W + w) = sumTo shared (w + 1)
      ∧ scanWarpSumsSYCL W nwarps shared (W + w) = sumTo shared (w + 1) := by
  have hcond : W ≤ W + w ∧ W + w - W < W ∧ W + w - W < nwarps := by omega
  have e : W + w - W = w := by omega
  have hpad : sumTo (fun lane => if lane < nwarps then shared lane else 0) (w + 1)
      = sumTo shared (w + 1) :=
    sumTo_congr (fun j hj => if_pos (by omega))
  refine ⟨?_, ?_, ?_⟩
  · unfold scanWarpSums
    rw [if_pos hcond, e]
    exact scanLoop_spec nwarps nwarps shared (nwarps + 1) 1 shared (by omega) (by omega)
      (fun l _ => by simp [sumTo]) w hw (by omega)
  · unfold scanWarpSumsHIP
    rw [if_pos hcond, e, ← hpad]
    exact scanLoop_spec nwarps nwarps _ (nwarps + 1) 1 _ (by omega) (by omega)
      (fun l _ => by simp [sumTo]) w hw (by omega)
  · unfold scanWarpSumsSYCL
    rw [if_pos hcond, e, ← hpad]
    exact scanLoop_spec W W _ (W + 1) 1 _ (by omega) (by omega)
      (fun l _ => by simp [sumTo]) w (by omega) (by omega)

/-- A reader that has returned stays returned. -/
theorem race_reader_returns (s : Race) (r : STVA) (b : Bool) (h : s.reader = ReadPc.ret r) :
    (s.step b).reader = ReadPc.ret r := by
  unfold Race.step
  cases b
  · simp [h, readStep]
  · cases hw : s.writer <;> simp [h]

theorem raceInv_step (m0 : Slots) (a_status : Char) (a_value : Int)
    (hs : a_status = 'a' ∨ a_status = 'p') (s : Race) (b : Bool)
    (h : RaceInv m0 a_status a_value s) : RaceInv m0 a_status a_value (s.step b) := by
  obtain ⟨mem, writer, reader⟩ := s
  obtain ⟨A, I, st⟩ := m0
  rcases hs with rfl | rfl
  · rcases h with ⟨hw, hm, hr⟩ | ⟨hw, hm, hr⟩ | ⟨hw, hm, hr⟩ <;>
      simp only at hw hm hr <;> subst hw <;> subst hm <;> cases b <;> cases reader <;>
      simp_all [RaceInv, Race.step, readStep, readerOK, writeStores, BlockStatus.read] <;>
      (try split_ifs) <;> simp_all [readerOK, BlockStatus.read]
  · rcases h with ⟨hw, hm, hr⟩ | ⟨hw, hm, hr⟩ | ⟨hw, hm, hr⟩ <;>
      simp only at hw hm hr <;> subst hw <;> subst hm <;> cases b <;> cases reader <;>
      simp_all [RaceInv, Race.step, readStep, readerOK, writeStores, BlockStatus.read] <;>
      (try split_ifs) <;> simp_all [readerOK, BlockStatus.read]

theorem raceInv_run (m0 : Slots) (a_status : Char) (a_value : Int)
    (hs : a_status = 'a' ∨ a_status = 'p') (sched : List Bool) :
    ∀ s : Race, RaceInv m0 a_status a_value s → RaceInv m0 a_status a_value (s.run sched) := by
  induction sched with
  | nil => intro s h; exact h
  | cons b bs ih =>
      intro s h
      exact ih (s.step b) (raceInv_step m0 a_status a_value hs s b h)

theorem raceInv_ret (m0 : Slots) (a_status : Char) (a_value : Int) (s : Race) (r : STVA)
    (h : RaceInv m0 a_status a_value s) (hr : s.reader = ReadPc.ret r) :
    r = (BlockStatus.unpacked m0.aggregate m0.inclusive m0.status).read
      ∨ r = ⟨a_status, a_value⟩ := by
  rcases h with ⟨_, _, h⟩ | ⟨_, _, h⟩ | ⟨_, _, h⟩ <;> rw [hr] at h <;> exact h

theorem raceInv_init (m0 : Slots) (a_status : Char) (a_value : Int) :
    RaceInv m0 a_status a_value ⟨m0, writeStores a_status a_value, ReadPc.load1⟩ :=
  Or.inl ⟨rfl, rfl, trivial⟩

theorem run_append (s : Race) (xs ys : List Bool) : s.run (xs ++ ys) = (s.run xs).run ys := by
  unfold Race.run
  rw [List.foldl_append]

theorem reader_returns (s : Race) :
    ∃ r, (s.run [false, false, false]).reader = ReadPc.ret r := by
  obtain ⟨mem, writer, reader⟩ := s
  cases reader <;> simp only [Race.run, List.foldl, Race.step, readStep, Bool.false_eq_true,
    if_false] <;> (try split_ifs) <;> exact ⟨_, rfl⟩

/-! ## Cell histories and the layouts -/

theorem sum_prev_chunk_eq (env : Env) (hW : 4 ≤ env.W) (N : Nat) (fin : Int → Int)
    (ty : ScanType) (hov : N + nelms_per_block env.W - 1 ≤ 2147483647) (vb : Nat)
    (hvb : vb < (N + nelms_per_block env.W - 1) / nelms_per_block env.W) (t : Nat) :
    (scanPhase env (N : Int) fin ty vb).sum_prev_chunk t
      = prefixOf fin (min (nelms_per_block env.W * vb + nelms_per_block env.W) N)
        - prefixOf fin (nelms_per_block env.W * vb) := by
  have hE : 0 < nelms_per_block env.W := nelms_pos env.W (by omega)
  have hb := block_bounds hE hvb
  have hinv := scanPhase_inv_nat env hW N fin ty vb (by omega)
  have h1 := hinv.1 t
  rw [← nelms_eq,
    sumTo_padded fin (nelms_per_block env.W * vb)
      (min (nelms_per_block env.W * vb + nelms_per_block env.W) N) (by omega)
      (nelms_per_block env.W)] at h1
  rw [h1]
  have e1 : min (nelms_per_block env.W * vb + nelms_per_block env.W)
      (min (nelms_per_block env.W * vb + nelms_per_block env.W) N)
      = min (nelms_per_block env.W * vb + nelms_per_block env.W) N := by omega
  rw [e1]

theorem toNat_ibegin (W vb : Nat) (h : nelms_per_block W * vb ≤ 2147483647) :
    (ibegin W vb).toNat = nelms_per_block W * vb := by
  rw [ibegin_eq W vb h, Int.toNat_ofNat]

theorem toNat_iend (W N vb : Nat)
    (h : nelms_per_block W * vb + nelms_per_block W ≤ 2147483647) :
    (iend W (N : Int) vb).toNat = min (nelms_per_block W * vb + nelms_per_block W) N := by
  rw [iend_eq W N vb h, Int.toNat_ofNat]

theorem cellHistory_status (env : Env) (gridDim vb : Nat) (agg ep : Int) (hg : 1 < gridDim) :
    ((env.cell0 vb).set_status 'x' :: cellHistory env gridDim vb agg ep).map
        (fun c => c.read.status)
      = if vb = 0 then ['x', 'p'] else ['x', 'a', 'p'] := by
  have hx : ((env.cell0 vb).set_status 'x').read.status = 'x' := by
    cases env.cell0 vb <;> simp [BlockStatus.set_status, BlockStatus.read]
  unfold cellHistory
  by_cases h0 : vb = 0
  · subst h0
    simp [hg, hx, read_write_p]
  · have hpos : 0 < vb := by omega
    simp [hg, hx, h0, hpos, read_write_p, read_write_a]

theorem cellHistory_inclusive (env : Env) (gridDim vb : Nat) (agg ep : Int) (hg : 1 < gridDim)
    (c : BlockStatus) (hc : c ∈ cellHistory env gridDim vb agg ep)
    (hp : c.read.status = 'p') :
    c.read.value = if vb = 0 then agg else agg + ep := by
  unfold cellHistory at hc
  by_cases h0 : vb = 0
  · subst h0
    simp [hg] at hc
    subst hc
    simp [read_write_p]
  · have hpos : 0 < vb := by omega
    simp [hg, h0, hpos] at hc
    rcases hc with rfl | rfl
    · rw [read_write_a] at hp
      simp at hp
    · rw [read_write_p, get_aggregate_write_a]
      simp [h0]

theorem cellHistory_single (env : Env) (gridDim : Nat) (agg ep : Int) (hg : ¬ 1 < gridDim) :
    cellHistory env gridDim 0 agg ep = [] := by
  unfold cellHistory
  simp [hg]

theorem scanPhase_cell0 (env : Env) (c : Nat → BlockStatus) (n : Int) (fin : Int → Int)
    (ty : ScanType) (vb : Nat) :
    scanPhase { env with cell0 := c } n fin ty vb = scanPhase env n fin ty vb := by
  unfold scanPhase
  rfl

theorem aggregateOf_cell0 (env : Env) (c : Nat → BlockStatus) (n : Int) (fin : Int → Int)
    (ty : ScanType) :
    aggregateOf { env with cell0 := c } n fin ty = aggregateOf env n fin ty := by
  funext vb
  rw [aggregateOf_def, aggregateOf_def, scanPhase_cell0]

theorem waitResult_eq (env : Env) (gridDim j : Nat) (hg : 1 < gridDim) (a ep : Int)
    ( late : Bool) :
    waitResult ((env.cell0 j).set_status 'x') (cellHistory env gridDim j a ep) late
      = if j = 0 then ⟨'p', a⟩ else if late then ⟨'p', a + ep⟩ else ⟨'a', a⟩ := by
  by_cases h0 : j = 0
  · subst h0
    rw [waitResult_zero env gridDim hg, if_pos rfl]
  · rw [waitResult_pos env gridDim j hg (by omega), if_neg h0]

theorem exclusivePrefixes_cell0 (env : Env) (c : Nat → BlockStatus) (gridDim : Nat)
    (hg : 1 < gridDim) (agg : Nat → Int) :
    ∀ m k : Nat, exclusivePrefixes { env with cell0 := c } gridDim agg m k
      = exclusivePrefixes env gridDim agg m k := by
  intro m
  induction m with
  | zero => intro k; rfl
  | succ m ih =>
      intro k
      simp only [exclusivePrefixes]
      by_cases hk : k = m
      · rw [if_pos hk, if_pos hk]
        refine congrArg (fun cells => lookback env.W cells m) ?_
        funext j
        rw [waitResult_eq { env with cell0 := c } gridDim j hg, waitResult_eq env gridDim j hg,
          ih j]
      · rw [if_neg hk, if_neg hk]
        exact ih k

theorem exclusivePrefixes_first (env : Env) (gridDim : Nat) (agg : Nat → Int) :
    exclusivePrefixes env gridDim agg 1 0 = 0 := by
  simp [exclusivePrefixes, lookback, lookbackLoop]

theorem runBlock_cell0 (env : Env) (c : Nat → BlockStatus) (n : Int) (fin : Int → Int)
    (ty : ScanType) (gridDim vb : Nat) (h : 1 < gridDim ∨ vb = 0) :
    runBlock { env with cell0 := c } n fin ty gridDim vb = runBlock env n fin ty gridDim vb := by
  have hep : exclusivePrefixes { env with cell0 := c } gridDim
        (aggregateOf { env with cell0 := c } n fin ty) (vb + 1) vb
      = exclusivePrefixes env gridDim (aggregateOf env n fin ty) (vb + 1) vb := by
    rw [aggregateOf_cell0]
    rcases h with hg | h0
    · exact exclusivePrefixes_cell0 env c gridDim hg _ _ _
    · subst h0
      rw [exclusivePrefixes_first, exclusivePrefixes_first]
  unfold runBlock
  rw [hep, scanPhase_cell0]

theorem PrefixSum_cell0 (env : Env) (c : Nat → BlockStatus) (n : Int) (fin : Int → Int)
    (ty : ScanType) :
    PrefixSum { env with cell0 := c } n fin ty = PrefixSum env n fin ty := by
  have hmap : ∀ (gridDim : Nat) (ids : List Nat), (∀ vb ∈ ids, 1 < gridDim ∨ vb = 0) →
      ids.map (runBlock { env with cell0 := c } n fin ty gridDim)
        = ids.map (runBlock env n fin ty gridDim) := by
    intro gridDim ids h
    exact List.map_congr_left (fun vb hvb => runBlock_cell0 env c n fin ty gridDim vb (h vb hvb))
  unfold PrefixSum
  by_cases hn : n ≤ 0
  · rw [if_pos hn, if_pos hn]
  · rw [if_neg hn, if_neg hn]
    simp only []
    rw [hmap]
    intro vb hvb
    by_cases hg : 1 < (nblocks env.W n).toNat
    · exact Or.inl hg
    · right
      rw [if_neg hg] at hvb
      exact (List.mem_replicate.1 hvb).2

/-! ## The lowest set bit -/

theorem ctzLoop_spec : ∀ (fuel m : Nat), m ≠ 0 → m < 2 ^ fuel →
    m.testBit (ctzLoop fuel m) = true ∧ ∀ i, i < ctzLoop fuel m → m.testBit i = false := by
  intro fuel
  induction fuel with
  | zero => intro m h0 h; simp at h; exact absurd h h0
  | succ fuel ih =>
      intro m h0 h
      by_cases hodd : m % 2 = 1
      · simp only [ctzLoop, if_pos hodd]
        refine ⟨?_, fun i hi => by omega⟩
        rw [Nat.testBit_zero]; simp [hodd]
      · simp only [ctzLoop, if_neg hodd]
        have hm2 : m / 2 ≠ 0 := by omega
        have hlt : m / 2 < 2 ^ fuel := by rw [pow_succ] at h; omega
        obtain ⟨h1, h2⟩ := ih (m / 2) hm2 hlt
        refine ⟨?_, ?_⟩
        · rw [Nat.add_comm, Nat.testBit_succ]; exact h1
        · intro i hi
          cases i with
          | zero => rw [Nat.testBit_zero]; simp [hodd]
          | succ i => rw [Nat.testBit_succ]; exact h2 i (by omega)

theorem countTrailingZeros_spec (m : Nat) (h0 : m ≠ 0) :
    m.testBit (countTrailingZeros m) = true
      ∧ ∀ i, i < countTrailingZeros m → m.testBit i = false :=
  ctzLoop_spec m m h0 (Nat.lt_two_pow m)

theorem bitWalk_nohit (status_bf lane W : Nat) (y : Int)
    (hlow : ∀ i, 1 ≤ i → i < W → status_bf.testBit i = false) :
    ∀ (left i : Nat) (x : Int), 1 ≤ i → i + left = W →
      bitWalk status_bf lane y left i (2 ^ (i - 1)) x
        = (if i ≤ lane ∧ lane < W then y else x, false) := by
  intro left
  induction left with
  | zero =>
      intro i x _ h3
      have : ¬ (i ≤ lane ∧ lane < W) := by omega
      simp [bitWalk, this]
  | succ left ih =>
      intro i x h1 h3
      have hmask : (2 : Nat) ^ (i - 1) <<< 1 = 2 ^ i := by
        rw [Nat.shiftLeft_eq, ← pow_succ]
        congr 1; omega
      simp only [bitWalk, hmask]
      have hb : status_bf.testBit i = false := hlow i h1 (by omega)
      have hne : ¬ (status_bf &&& 2 ^ i ≠ 0) := by
        rw [and_two_pow_ne_zero, hb]; simp
      rw [if_neg hne]
      have e : (2 : Nat) ^ i = 2 ^ (i + 1 - 1) := by simp
      rw [e, ih (i + 1) _ (by omega) (by omega)]
      by_cases hl : i = lane
      · subst hl
        have : ¬ (i + 1 ≤ i ∧ i < W) := by omega
        have h' : i ≤ i ∧ i < W := ⟨le_refl _, by omega⟩
        simp [this, h']
      · by_cases hc : i ≤ lane ∧ lane < W
        · have hc' : i + 1 ≤ lane ∧ lane < W := ⟨by omega, hc.2⟩
          simp [hc, hc']
        · have hc' : ¬ (i + 1 ≤ lane ∧ lane < W) := by omega
          simp [hc, hc', hl]

theorem maskWalk_nohit (W status_bf : Nat) (x : Int) (hne : status_bf ≠ 0)
    (hlow : ∀ i, i < W → status_bf.testBit i = false) (lane : Nat) (hl : lane < W) :
    maskWalk W status_bf lane x = (x, false) := by
  unfold maskWalk
  rw [if_pos hne]
  rw [show bitWalk status_bf lane x (W - 1) 1 1 (if 0 < lane then 0 else x)
        = bitWalk status_bf lane x (W - 1) 1 (2 ^ (1 - 1)) (if 0 < lane then 0 else x) from rfl,
    bitWalk_nohit status_bf lane W x (fun i _ h => hlow i h) (W - 1) 1 _
      (le_refl _) (by omega)]
  by_cases hl0 : 0 < lane
  · have : 1 ≤ lane ∧ lane < W := ⟨hl0, hl⟩
    simp [this]
  · have : ¬ (1 ≤ lane ∧ lane < W) := by omega
    simp [this, hl0]

theorem maskWalk_ctz (W status_bf lane : Nat) (y : Int)
    (h0 : status_bf.testBit 0 = false) (hne : status_bf ≠ 0) (hl : lane < W) :
    maskWalk W status_bf lane y
      = (if lane ≤ countTrailingZeros status_bf then y else 0,
         decide (countTrailingZeros status_bf < W)) := by
  obtain ⟨hk, hlow⟩ := countTrailingZeros_spec status_bf hne
  by_cases hkW : countTrailingZeros status_bf < W
  · rw [maskWalk_spec W status_bf _ y h0 hkW hk hlow lane]
    simp [hkW]
  · rw [maskWalk_nohit W status_bf y hne (fun i hi => hlow i (by omega)) lane hl]
    have : lane ≤ countTrailingZeros status_bf := by omega
    simp [this, hkW]

theorem countTrailingZeros_lt (W status_bf : Nat) (hne : status_bf ≠ 0)
    (hlt : status_bf < 2 ^ W) : countTrailingZeros status_bf < W := by
  obtain ⟨hk, _⟩ := countTrailingZeros_spec status_bf hne
  by_contra hc
  have h1 : 2 ^ W ≤ 2 ^ countTrailingZeros status_bf :=
    Nat.pow_le_pow_right (by omega) (by omega)
  have := Nat.testBit_lt_two_pow (Nat.lt_of_lt_of_le hlt h1)
  rw [this] at hk
  cases hk

/-! ## The emulated ballot -/

theorem uint32_of_lt {x : Nat} (h : x < 4294967296) : uint32 x = x :=
  Nat.mod_eq_of_lt h

theorem testBit_xor_two_pow (l j b : Nat) :
    (l ^^^ 2 ^ j).testBit b = (l.testBit b != decide (j = b)) := by
  rw [Nat.testBit_xor, Nat.testBit_two_pow]

theorem bne_false_eq (a : Bool) : (a != false) = a := by cases a <;> rfl

theorem eq_bne_true_of_ne (a c : Bool) (h : ¬ a = c) : a = (c != true) := by
  cases a <;> cases c <;> simp_all

theorem xor_two_pow_lt (l j k : Nat) (hl : l < 2 ^ k) (hj : j < k) : l ^^^ 2 ^ j < 2 ^ k :=
  Nat.xor_lt_two_pow hl (Nat.pow_lt_pow_right (by omega) hj)

theorem lt_of_testBit_bound (x B : Nat) (h : ∀ m, x.testBit m = true → m < B) : x < 2 ^ B := by
  by_contra hc
  obtain ⟨m, hm, hb⟩ := Nat.ge_two_pow_implies_high_bit_true (Nat.le_of_not_lt hc)
  have := h m hb
  omega

theorem xorLoop_spec (pred : Nat → Bool) (k : Nat) (hk : k ≤ 5) :
    ∀ (fuel j : Nat) (x : Nat → Nat), j ≤ k → k ≤ j + fuel →
      (∀ l, l < 2 ^ k → ∀ m, (x l).testBit m = true ↔
        (m < 2 ^ k ∧ pred m = true ∧ ∀ b, j ≤ b → m.testBit b = l.testBit b)) →
      ∀ l, l < 2 ^ k → ∀ m, (xorLoop (2 ^ k) fuel (2 ^ j) x l).testBit m = true ↔
        (m < 2 ^ k ∧ pred m = true) := by
  have h32 : 2 ^ k ≤ 32 := by
    calc 2 ^ k ≤ 2 ^ 5 := Nat.pow_le_pow_right (by omega) hk
      _ = 32 := by norm_num
  have hfinal : ∀ (j : Nat) (x : Nat → Nat), j = k →
      (∀ l, l < 2 ^ k → ∀ m, (x l).testBit m = true ↔
        (m < 2 ^ k ∧ pred m = true ∧ ∀ b, j ≤ b → m.testBit b = l.testBit b)) →
      ∀ l, l < 2 ^ k → ∀ m, (x l).testBit m = true ↔ (m < 2 ^ k ∧ pred m = true) := by
    intro j x hj hx l hl m
    subst hj
    rw [hx l hl m]
    constructor
    · exact fun h => ⟨h.1, h.2.1⟩
    · intro h
      refine ⟨h.1, h.2, fun b hb => ?_⟩
      have h1 : 2 ^ j ≤ 2 ^ b := Nat.pow_le_pow_right (by omega) hb
      rw [Nat.testBit_lt_two_pow (Nat.lt_of_lt_of_le h.1 h1),
        Nat.testBit_lt_two_pow (Nat.lt_of_lt_of_le hl h1)]
  intro fuel
  induction fuel with
  | zero =>
      intro j x hjk hf hx l hl m
      simp only [xorLoop]
      exact hfinal j x (by omega) hx l hl m
  | succ fuel ih =>
      intro j x hjk hf hx l hl m
      simp only [xorLoop]
      by_cases hlt : 2 ^ j < 2 ^ k
      · have hj : j < k := (Nat.pow_lt_pow_iff_right (by omega)).1 hlt
        rw [if_pos hlt]
        have e : 2 ^ j * 2 = 2 ^ (j + 1) := by rw [pow_succ]
        rw [e]
        apply ih (j + 1) _ (by omega) (by omega) _ l hl m
        intro l' hl' m'
        have hp : l' ^^^ 2 ^ j < 2 ^ k := xor_two_pow_lt l' j k hl' hj
        have hbound : x l' ||| shfl_xor x (2 ^ j) (2 ^ k) l' < 4294967296 := by
          have : x l' ||| shfl_xor x (2 ^ j) (2 ^ k) l' < 2 ^ 32 := by
            apply lt_of_testBit_bound
            intro b hb
            simp only [shfl_xor, if_pos hp, Nat.testBit_or, Bool.or_eq_true] at hb
            rcases hb with hb | hb
            · have := ((hx l' hl' b).1 hb).1; omega
            · have := ((hx _ hp b).1 hb).1; omega
          simpa using this
        rw [uint32_of_lt hbound]
        simp only [shfl_xor, if_pos hp, Nat.testBit_or, Bool.or_eq_true]
        rw [hx l' hl' m', hx _ hp m']
        constructor
        · rintro (⟨h1, h2, h3⟩ | ⟨h1, h2, h3⟩)
          · exact ⟨h1, h2, fun b hb => h3 b (by omega)⟩
          · refine ⟨h1, h2, fun b hb => ?_⟩
            rw [h3 b (by omega), testBit_xor_two_pow,
              decide_eq_false (by omega : ¬ j = b), bne_false_eq]
        · rintro ⟨h1, h2, h3⟩
          by_cases hbit : m'.testBit j = l'.testBit j
          · left
            refine ⟨h1, h2, fun b hb => ?_⟩
            rcases Nat.eq_or_lt_of_le hb with rfl | hb'
            · exact hbit
            · exact h3 b hb'
          · right
            refine ⟨h1, h2, fun b hb => ?_⟩
            rw [testBit_xor_two_pow]
            rcases Nat.eq_or_lt_of_le hb with rfl | hb'
            · rw [decide_eq_true rfl]
              exact eq_bne_true_of_ne _ _ hbit
            · rw [h3 b hb', decide_eq_false (by omega : ¬ j = b), bne_false_eq]
      · rw [if_neg hlt]
        have hj : j = k := by
          rcases Nat.lt_or_ge j k with h | h
          · exact absurd (Nat.pow_lt_pow_right (by omega) h) hlt
          · omega
        exact hfinal j x hj hx l hl m

theorem ballotSYCL_eq (pred : Nat → Bool) (k : Nat) (hk : k ≤ 5) (lane : Nat)
    (hl : lane < 2 ^ k) : ballotSYCL pred (2 ^ k) lane = ballot pred (2 ^ k) := by
  have h32 : 2 ^ k ≤ 32 := by
    calc 2 ^ k ≤ 2 ^ 5 := Nat.pow_le_pow_right (by omega) hk
      _ = 32 := by norm_num
  apply Nat.eq_of_testBit_eq
  intro m
  have h := xorLoop_spec pred k hk (2 ^ k) 0 (laneBit pred) (by omega)
    (by have := Nat.lt_two_pow k; omega) (by
      intro l hl' m'
      unfold laneBit
      have hsh : uint32 (1 <<< l) = 2 ^ l := by
        rw [Nat.shiftLeft_eq, Nat.one_mul]
        apply uint32_of_lt
        calc 2 ^ l < 2 ^ 32 := Nat.pow_lt_pow_right (by omega) (by omega)
          _ = 4294967296 := by norm_num
      constructor
      · intro hb
        cases hp : pred l
        · rw [hp] at hb; simp at hb
        · rw [hp, if_pos rfl, hsh, Nat.testBit_two_pow] at hb
          have e : l = m' := by simpa using hb
          subst e
          exact ⟨hl', hp, fun _ _ => rfl⟩
      · rintro ⟨_, h2, h3⟩
        have e : m' = l := Nat.eq_of_testBit_eq (fun b => h3 b (by omega))
        subst e
        rw [h2, if_pos rfl, hsh, Nat.testBit_two_pow]
        simp) lane hl m
  have h' : (ballotSYCL pred (2 ^ k) lane).testBit m = true ↔ (m < 2 ^ k ∧ pred m = true) := by
    unfold ballotSYCL
    rw [show (1 : Nat) = 2 ^ 0 from rfl]
    exact h
  have hb := testBit_ballot pred (2 ^ k) m
  cases h1 : (ballotSYCL pred (2 ^ k) lane).testBit m <;>
    cases h2 : (ballot pred (2 ^ k)).testBit m <;> simp_all

/-! ## Layout selection, block counts and the host scans -/

theorem alignUp_one (a : Nat) (ha : 0 < a) : alignUp 1 a = a := by
  unfold alignUp
  have e : 1 + a - 1 = a := by omega
  rw [e, Nat.div_self ha, Nat.one_mul]

theorem alignUp_mul (a q : Nat) (ha : 0 < a) : alignUp (a * q) a = a * q := by
  unfold alignUp
  have e : a * q + a - 1 = a - 1 + q * a := by rw [Nat.mul_comm]; omega
  rw [e, Nat.add_mul_div_right _ _ ha, Nat.div_eq_of_lt (by omega), Nat.zero_add, Nat.mul_comm]

theorem sizeofSTVA_eq (s a : Nat) (ha : 0 < a) (hd : a ∣ s) : sizeofSTVA s a = a + s := by
  obtain ⟨q, rfl⟩ := hd
  unfold sizeofSTVA
  rw [alignUp_one a ha]
  have e : a + a * q = a * (q + 1) := by rw [Nat.mul_succ]; omega
  rw [e, alignUp_mul a (q + 1) ha]

theorem block_count_eq (E N : Nat) (hov : N + E - 1 ≤ 2147483647) (hN : 1 ≤ N) :
    Int.tdiv (int32 (int32 ((N : Int) + (E : Int)) - 1)) (E : Int)
      = (((N + E - 1) / E : Nat) : Int) := by
  have h2 : int32 ((N : Int) + (E : Int) - 1) = ((N + E - 1 : Nat) : Int) := by
    rw [int32_of_range] <;> omega
  rw [int32_pred, h2, ← Int.ofNat_tdiv]

theorem div_ne_of_bounds (M E q : Nat) (hpos : 0 < E)
    (h : M < q * E ∨ (q + 1) * E ≤ M) : M / E ≠ q := by
  intro hq
  have h1 := Nat.div_mul_le_self M E
  have h2 := Nat.lt_mul_div_succ M hpos
  rw [hq] at h1 h2
  rw [Nat.mul_comm E (q + 1)] at h2
  rcases h with h | h <;> omega

theorem range_succ_map {β : Type} (f : Nat → β) (m : Nat) :
    (List.range (m + 1)).map f = f 0 :: (List.range m).map (fun i => f (i + 1)) := by
  rw [List.range_succ_eq_map, List.map_cons, List.map_map]
  rfl

theorem exclusiveScanLoop_spec : ∀ (rest : List Int) (sum : Int) (written : List Int)
    (pos : Nat),
    exclusiveScanLoop sum written pos rest
      = (written ++ (List.range rest.length).map (fun i => sum + (rest.take i).sum),
          pos + rest.length + 1) := by
  intro rest
  induction rest with
  | nil => intro sum written pos; simp [exclusiveScanLoop]
  | cons x rest ih =>
      intro sum written pos
      simp only [exclusiveScanLoop]
      rw [ih, List.length_cons, range_succ_map, List.append_assoc]
      refine Prod.ext ?_ (by simp only []; omega)
      simp only [List.take_zero, List.sum_nil, add_zero, List.singleton_append, List.take_succ_cons,
        List.sum_cons]
      congr 2
      · ring
      · apply List.map_congr_left
        intro i _
        ring

theorem exclusive_scan_host_spec (input : List Int) :
    exclusive_scan_host input
      = ((List.range input.length).map (fun i => (input.take i).sum),
          if input = [] then 0 else input.length + 1) := by
  cases input with
  | nil => rfl
  | cons x rest =>
      simp only [exclusive_scan_host]
      rw [exclusiveScanLoop_spec, List.length_cons, range_succ_map]
      refine Prod.ext ?_ (by simp; omega)
      simp

/-! ## The literal parser -/

theorem digitChar_spec (d : Nat) (h : d < 10) :
    isDigit (Char.ofNat (48 + d)) = true ∧ digitValue (Char.ofNat (48 + d)) = d := by
  interval_cases d <;> exact ⟨rfl, rfl⟩

theorem isDigit_ne (c : Char) (h : isDigit c = true) :
    c ≠ ' ' ∧ c ≠ '\t' ∧ c ≠ '+' ∧ c ≠ '-' ∧ c ≠ '.' ∧ c ≠ 'e' := by
  refine ⟨?_, ?_, ?_, ?_, ?_, ?_⟩ <;> intro hc <;> subst hc <;> revert h <;> decide

theorem headSatisfies_nil (P : Char → Prop) : headSatisfies P [] := by
  intro c q h; cases h

theorem headSatisfies_cons (P : Char → Prop) (c : Char) (q : List Char) (h : P c) :
    headSatisfies P (c :: q) := by
  intro c' q' hc
  cases hc
  exact h

theorem headSatisfies_append (P : Char → Prop) (a b : List Char) (ha : headSatisfies P a)
    (hb : headSatisfies P b) : headSatisfies P (a ++ b) := by
  cases a with
  | nil => exact hb
  | cons c a => exact headSatisfies_cons P c _ (ha c a rfl)

theorem headSatisfies_mono {P Q : Char → Prop} (h : ∀ c, P c → Q c) (p : List Char)
    (hp : headSatisfies P p) : headSatisfies Q p :=
  fun c q hc => h c (hp c q hc)

theorem headSatisfies_digitChars (ds : List Nat) (hd : ∀ d ∈ ds, d < 10) :
    headSatisfies (fun c => isDigit c = true) (digitChars ds) := by
  cases ds with
  | nil => exact headSatisfies_nil _
  | cons d ds =>
      exact headSatisfies_cons _ _ _ (digitChar_spec d (hd d (List.mem_cons_self _ _))).1

theorem skipBlanks_id (p : List Char)
    (h : headSatisfies (fun c => c ≠ ' ' ∧ c ≠ '\t') p) : skipBlanks p = p := by
  cases p with
  | nil => rfl
  | cons c q =>
      have hc := h c q rfl
      have : ¬ (c = ' ' ∨ c = '\t') := by
        intro h'; rcases h' with h' | h'
        · exact hc.1 h'
        · exact hc.2 h'
      simp only [skipBlanks, if_neg this]

theorem readSign_spec (s : Option Bool) (q : List Char)
    (h : headSatisfies (fun c => c ≠ '-' ∧ c ≠ '+') q) :
    readSign (signChars s ++ q) = (decide (s = some true), q) := by
  rcases s with _ | _ | _
  · cases q with
    | nil => rfl
    | cons c q =>
        have hc := h c q rfl
        simp [signChars, readSign, hc.1, hc.2]
  · simp [signChars, readSign]
  · simp [signChars, readSign]

theorem intLoop_digits : ∀ (ds : List Nat), (∀ d ∈ ds, d < 10) → ∀ (r : ℚ) (q : List Char),
    headSatisfies (fun c => isDigit c = false) q →
    intLoop r (digitChars ds ++ q) = (ds.foldl (fun a d => a * 10 + (d : ℚ)) r, q) := by
  intro ds
  induction ds with
  | nil =>
      intro _ r q hq
      cases q with
      | nil => rfl
      | cons c q =>
          have hc : isDigit c = false := hq c q rfl
          simp [digitChars, intLoop, hc]
  | cons d ds ih =>
      intro hd r q hq
      obtain ⟨h1, h2⟩ := digitChar_spec d (hd d (List.mem_cons_self _ _))
      have e : digitChars (d :: ds) ++ q = Char.ofNat (48 + d) :: (digitChars ds ++ q) := rfl
      rw [e]
      simp only [intLoop, h1, if_true, h2, List.foldl_cons]
      exact ih (fun x hx => hd x (List.mem_cons_of_mem _ hx)) _ q hq

theorem fracLoop_digits : ∀ (ds : List Nat), (∀ d ∈ ds, d < 10) → ∀ (r2 d0 : ℚ)
    (q : List Char), headSatisfies (fun c => isDigit c = false) q →
    fracLoop r2 d0 (digitChars ds ++ q)
      = (ds.foldl (fun a d => a * 10 + (d : ℚ)) r2, d0 * 10 ^ ds.length, q) := by
  intro ds
  induction ds with
  | nil =>
      intro _ r2 d0 q hq
      cases q with
      | nil => simp [digitChars, fracLoop]
      | cons c q =>
          have hc : isDigit c = false := hq c q rfl
          simp [digitChars, fracLoop, hc]
  | cons d ds ih =>
      intro hd r2 d0 q hq
      obtain ⟨h1, h2⟩ := digitChar_spec d (hd d (List.mem_cons_self _ _))
      have e : digitChars (d :: ds) ++ q = Char.ofNat (48 + d) :: (digitChars ds ++ q) := rfl
      rw [e]
      simp only [fracLoop, h1, if_true, h2, List.foldl_cons, List.length_cons]
      rw [ih (fun x hx => hd x (List.mem_cons_of_mem _ hx)) _ _ q hq, pow_succ]
      refine Prod.ext rfl (Prod.ext ?_ rfl)
      simp only []
      ring

theorem foldl_digits_cast : ∀ (ds : List Nat) (a : Nat),
    ds.foldl (fun a d => a * 10 + (d : ℚ)) (a : ℚ)
      = ((ds.foldl (fun a d => a * 10 + d) a : Nat) : ℚ) := by
  intro ds
  induction ds with
  | nil => intro a; rfl
  | cons d ds ih =>
      intro a
      simp only [List.foldl_cons]
      rw [← ih (a * 10 + d)]
      push_cast
      rfl

theorem foldl_digits_ge : ∀ (ds : List Nat) (a : Nat),
    a ≤ ds.foldl (fun a d => a * 10 + d) a := by
  intro ds
  induction ds with
  | nil => intro a; exact le_refl _
  | cons d ds ih =>
      intro a
      simp only [List.foldl_cons]
      have := ih (a * 10 + d)
      omega

theorem expLoop_digits : ∀ (ds : List Nat), (∀ d ∈ ds, d < 10) → ∀ (a : Nat),
    ds.foldl (fun a d => a * 10 + d) a ≤ 2147483647 →
    expLoop (a : Int) (digitChars ds) = (((ds.foldl (fun a d => a * 10 + d) a : Nat) : Int), []) := by
  intro ds
  induction ds with
  | nil => intro _ a _; rfl
  | cons d ds ih =>
      intro hd a hb
      obtain ⟨h1, h2⟩ := digitChar_spec d (hd d (List.mem_cons_self _ _))
      have e : digitChars (d :: ds) = Char.ofNat (48 + d) :: digitChars ds := rfl
      rw [e]
      simp only [List.foldl_cons] at hb ⊢
      have hge := foldl_digits_ge ds (a * 10 + d)
      simp only [expLoop, h1, if_true, h2]
      have e1 : int32 ((a : Int) * 10) = (a : Int) * 10 := by
        apply int32_of_range <;> omega
      have e2 : int32 ((a : Int) * 10 + (d : Int)) = ((a * 10 + d : Nat) : Int) := by
        rw [int32_of_range] <;> push_cast <;> omega
      rw [e1, e2]
      exact ih (fun x hx => hd x (List.mem_cons_of_mem _ hx)) _ hb

theorem nmaxLoop_spec : ∀ (fuel b tmp nmax : Nat), b ≤ fuel → tmp < 2 ^ (b + 1) →
    nmax ≤ nmaxLoop fuel tmp nmax ∧ nmaxLoop fuel tmp nmax ≤ nmax + b
      ∧ tmp < 2 ^ (nmaxLoop fuel tmp nmax - nmax + 1) := by
  intro fuel
  induction fuel with
  | zero =>
      intro b tmp nmax hb ht
      have : b = 0 := by omega
      subst this
      simp only [nmaxLoop]
      refine ⟨le_refl _, le_refl _, ?_⟩
      simpa using ht
  | succ fuel ih =>
      intro b tmp nmax hb ht
      simp only [nmaxLoop, Nat.shiftRight_succ, Nat.shiftRight_zero]
      by_cases h : tmp / 2 ≠ 0
      · rw [if_pos h]
        have hb1 : 1 ≤ b := by
          rcases Nat.eq_zero_or_pos b with h0 | h0
          · subst h0; simp at ht; omega
          · exact h0
        have ht2 : tmp / 2 < 2 ^ (b - 1 + 1) := by
          have e : b - 1 + 1 = b := by omega
          rw [e]
          rw [pow_succ] at ht
          omega
        obtain ⟨h1, h2, h3⟩ := ih (b - 1) (tmp / 2) (nmax + 1) (by omega) ht2
        refine ⟨by omega, by omega, ?_⟩
        have e : nmaxLoop fuel (tmp / 2) (nmax + 1) - nmax + 1
            = (nmaxLoop fuel (tmp / 2) (nmax + 1) - (nmax + 1) + 1) + 1 := by omega
        rw [e, pow_succ]
        omega
      · rw [if_neg h]
        refine ⟨le_refl _, by omega, ?_⟩
        have : tmp < 2 := by omega
        simpa using this

theorem nmaxOf_spec (m : Nat) (h : m < 512) :
    nmaxOf (m : Int) + 1 ≤ 9 ∧ m < 2 ^ (nmaxOf (m : Int) + 1) := by
  unfold nmaxOf
  have e : ((m : Int) % 65536).toNat = m := by omega
  rw [e]
  obtain ⟨_, h2, h3⟩ := nmaxLoop_spec 16 8 m 0 (by omega) (by norm_num; omega)
  exact ⟨by omega, by simpa using h3⟩

theorem powers_get (n : Nat) (h : n < 9) : powers[n]? = some ((10 : ℚ) ^ (2 ^ n)) := by
  interval_cases n <;> simp [powers] <;> norm_num

theorem powLoop_spec : ∀ (left n m : Nat) (d : ℚ), n + left ≤ 9 →
    powLoop left n (m : Int) d = some (d * 10 ^ (2 ^ n * (m % 2 ^ left))) := by
  intro left
  induction left with
  | zero =>
      intro n m d _
      simp [powLoop, Nat.mod_one]
  | succ left ih =>
      intro n m d hn
      have hdiv : (m : Int) / 2 = ((m / 2 : Nat) : Int) := by omega
      have hmod : m % 2 ^ (left + 1) = 2 * ((m / 2) % 2 ^ left) + m % 2 := by
        rw [pow_succ, Nat.mul_comm (2 ^ left) 2, Nat.mod_mul]
        omega
      simp only [powLoop, hdiv]
      by_cases hodd : (m : Int) % 2 = 1
      · rw [if_pos hodd, powers_get n (by omega)]
        simp only []
        rw [ih (n + 1) (m / 2) _ (by omega), hmod]
        have h1 : m % 2 = 1 := by omega
        rw [h1, mul_assoc, ← pow_add]
        congr 2
        rw [pow_succ]
        ring
      · rw [if_neg hodd, ih (n + 1) (m / 2) _ (by omega), hmod]
        have h0 : m % 2 = 0 := by omega
        rw [h0]
        congr 2
        rw [pow_succ]
        ring

theorem pow_table (m : Nat) (h : m < 512) :
    powLoop (nmaxOf (m : Int) + 1) 0 (m : Int) 1 = some ((10 : ℚ) ^ m) := by
  obtain ⟨h1, h2⟩ := nmaxOf_spec m h
  rw [powLoop_spec _ 0 m 1 (by omega), Nat.mod_eq_of_lt h2]
  simp

theorem readFraction_none (r : ℚ) (q : List Char)
    (h : headSatisfies (fun c => c ≠ '.') q) : readFraction r q = (r, q) := by
  cases q with
  | nil => rfl
  | cons c q =>
      have hc : c ≠ '.' := h c q rfl
      simp only [readFraction, if_neg hc]

theorem readFraction_some (r : ℚ) (f : List Nat) (hf : ∀ d ∈ f, d < 10) (q : List Char)
    (h : headSatisfies (fun c => isDigit c = false) q) :
    readFraction r ('.' :: (digitChars f ++ q))
      = (r + (digitsValue f : ℚ) / 10 ^ f.length, q) := by
  simp only [readFraction, if_true]
  rw [fracLoop_digits f hf 0 1 q h]
  simp only [one_mul]
  have e : List.foldl (fun a d => a * 10 + (d : ℚ)) 0 f = ((digitsValue f : Nat) : ℚ) := by
    have := foldl_digits_cast f 0
    simpa [digitsValue] using this
  rw [e]

theorem readExponent_none (r : ℚ) : readExponent r [] = some r := rfl

theorem readExponent_some (r : ℚ) (s : Option Bool) (e : List Nat) (he : ∀ d ∈ e, d < 10)
    (hb : digitsValue e < 512) :
    readExponent r ('e' :: (signChars s ++ digitChars e))
      = some (r * (10 : ℚ) ^ ((if s = some true then -1 else 1) * (digitsValue e : Int))) := by
  have hsign : readSign (signChars s ++ digitChars e) = (decide (s = some true), digitChars e) :=
    readSign_spec s _ (headSatisfies_mono
      (fun c hc => ⟨(isDigit_ne c hc).2.2.2.1, (isDigit_ne c hc).2.2.1⟩) _
      (headSatisfies_digitChars e he))
  have hexp : expLoop 0 (digitChars e) = (((digitsValue e : Nat) : Int), []) := by
    have := expLoop_digits e he 0 (by unfold digitsValue at hb; omega)
    simpa [digitsValue] using this
  simp only [readExponent, if_true, hsign, hexp, pow_table (digitsValue e) hb]
  by_cases hs : s = some true
  · simp only [hs, decide_True, if_true]
    rw [neg_one_mul, zpow_neg, zpow_natCast, div_eq_mul_inv]
  · simp only [hs, decide_False, if_false, Bool.false_eq_true]
    rw [one_mul, zpow_natCast]

theorem exponent_spec (x : Option (Option Bool × List Nat))
    (he : ∀ e, x = some e → ∀ d ∈ e.2, d < 10)
    (hb : ∀ e, x = some e → digitsValue e.2 < 512) (r : ℚ) :
    headSatisfies (fun c => c = 'e') (exponentChars x)
      ∧ readExponent r (exponentChars x) = some (r * exponentValue x) := by
  cases x with
  | none => exact ⟨headSatisfies_nil _, by simp [exponentChars, exponentValue, readExponent_none]⟩
  | some e =>
      exact ⟨headSatisfies_cons _ _ _ rfl, readExponent_some r e.1 e.2 (he e rfl) (hb e rfl)⟩

theorem fraction_spec (x : Option (List Nat)) (hf : ∀ f, x = some f → ∀ d ∈ f, d < 10)
    (X : List Char) (hX : headSatisfies (fun c => c = 'e') X) (r : ℚ) :
    headSatisfies (fun c => c = '.' ∨ c = 'e') (fractionChars x ++ X)
      ∧ readFraction r (fractionChars x ++ X) = (r + fractionValue x, X) := by
  cases x with
  | none =>
      refine ⟨headSatisfies_mono (fun c hc => Or.inr hc) _ hX, ?_⟩
      simp only [fractionChars, fractionValue, List.nil_append, add_zero]
      exact readFraction_none r X (headSatisfies_mono (fun c hc => by subst hc; decide) _ hX)
  | some f =>
      refine ⟨headSatisfies_cons _ _ _ (Or.inl rfl), ?_⟩
      exact readFraction_some r f (hf f rfl) X
        (headSatisfies_mono (fun c hc => by subst hc; decide) _ hX)

theorem atof_literal (l : Literal) (hw : l.wellFormed)
    (hb : ∀ e, l.exponent = some e → digitsValue e.2 < 512) :
    atof l.chars = some l.value := by
  obtain ⟨sign, ints, fraction, exponent⟩ := l
  obtain ⟨hi, hf, he⟩ := hw
  simp only at hi hf he hb
  simp only [Literal.chars, Literal.value]
  have hX := exponent_spec exponent he hb
  have hXe : headSatisfies (fun c => c = 'e') (exponentChars exponent) := (hX 0).1
  have hF := fraction_spec fraction hf _ hXe
  generalize fractionChars fraction ++ exponentChars exponent = F at hF ⊢
  have hFh : headSatisfies (fun c => c = '.' ∨ c = 'e') F := (hF 0).1
  have hFd : headSatisfies (fun c => isDigit c = false) F :=
    headSatisfies_mono (fun c hc => by rcases hc with rfl | rfl <;> decide) _ hFh
  have hI : intLoop 0 (digitChars ints ++ F) = ((digitsValue ints : ℚ), F) := by
    rw [intLoop_digits ints hi 0 F hFd]
    have := foldl_digits_cast ints 0
    simp only [Nat.cast_zero] at this
    rw [this]
    rfl
  have hIh : headSatisfies (fun c => isDigit c = true ∨ c = '.' ∨ c = 'e')
      (digitChars ints ++ F) :=
    headSatisfies_append _ _ _
      (headSatisfies_mono (fun c hc => Or.inl hc) _ (headSatisfies_digitChars ints hi))
      (headSatisfies_mono (fun c hc => Or.inr hc) _ hFh)
  have hS : readSign (signChars sign ++ (digitChars ints ++ F))
      = (decide (sign = some true), digitChars ints ++ F) :=
    readSign_spec sign _ (headSatisfies_mono (fun c hc => by
      rcases hc with hc | rfl | rfl
      · exact ⟨(isDigit_ne c hc).2.2.2.1, (isDigit_ne c hc).2.2.1⟩
      · decide
      · decide) _ hIh)
  have hB : skipBlanks (signChars sign ++ (digitChars ints ++ F))
      = signChars sign ++ (digitChars ints ++ F) := by
    apply skipBlanks_id
    apply headSatisfies_append
    · rcases sign with _ | _ | _
      · exact headSatisfies_nil _
      · exact headSatisfies_cons _ _ _ (by decide)
      · exact headSatisfies_cons _ _ _ (by decide)
    · exact headSatisfies_mono (fun c hc => by
        rcases hc with hc | rfl | rfl
        · exact ⟨(isDigit_ne c hc).1, (isDigit_ne c hc).2.1⟩
        · decide
        · decide) _ hIh
  simp only [atof, hB, hS, hI, (hF _).2, (hX _).2]
  by_cases hs : sign = some true
  · simp only [hs, decide_True, if_true]
    congr 1
    ring
  · simp only [hs, decide_False, if_false, Bool.false_eq_true]
    congr 1
    ring

/-! ## The claims -/

/-- C1, amended to warp widths `W = 2^k` with `k ≥ 2`: on a device whose warp
width is a power of two not below `nwarps_per_block = 4`, for every count
`N ≥ 1` whose block-count arithmetic `N + E - 1` stays in the signed 32-bit
range, every input `v`, every content of the memory the kernel does not
initialise and every timing of the look-back reads, the calls of `fout` made by
`PrefixSum` with `Type::inclusive` are exactly the pairs
`(i, v[0] + ... + v[i])` with `i < N`. -/
theorem inclusive_scan_correct (env : Env) (k N : Nat) (v : Int → Int)
    (hW : env.W = 2 ^ k) (hk : 2 ≤ k) (hN : 1 ≤ N)
    (hov : N + nelms_per_block env.W - 1 ≤ 2147483647) (p : Int × Int) :
    p ∈ (PrefixSum env (N : Int) v ScanType.inclusive).fout_calls ↔
      ∃ i : Nat, i < N ∧ p = ((i : Int), prefixOf v (i + 1)) := by
  simpa using fout_calls_iff env k hk hW N v ScanType.inclusive hN hov p

/-- Witness of C1: on a device of warp width 4, `n = 5` and `v = [1,2,3,4,5]`
give `out = [1,3,6,10,15]`, and the theorem applies to this run. -/
theorem inclusive_scan_correct_witness :
    (PrefixSum smallEnv 5 (fun i => i + 1) ScanType.inclusive).fout_calls
        = [(0, 1), (1, 3), (2, 6), (3, 10), (4, 15)]
      ∧ (((4 : Int), (15 : Int)) ∈
          (PrefixSum smallEnv ((5 : Nat) : Int) (fun i => i + 1) ScanType.inclusive).fout_calls ↔
        ∃ i : Nat, i < 5 ∧
          ((4 : Int), (15 : Int)) = ((i : Int), prefixOf (fun i => i + 1) (i + 1))) :=
  ⟨by decide,
    inclusive_scan_correct smallEnv 2 5 (fun i => i + 1) rfl (by decide) (by decide)
      (by decide) (4, 15)⟩

/-- Counterexample to C1 as stated: the warp width `W = 1 = 2^0` is a power of
two, `n = 3` overflows nothing, and on the input `v = [1,1,1]` the inclusive
scan hands `fout` the value `2` at index `2`, where `v[0] + v[1] + v[2] = 3`. -/
theorem inclusive_scan_narrow_warp :
    narrowEnv.W = 2 ^ 0
      ∧ (PrefixSum narrowEnv 3 (fun _ => 1) ScanType.inclusive).fout_calls
          = [(0, 1), (1, 2), (2, 2)]
      ∧ prefixOf (fun _ => 1) 3 = 3 := by
  decide

/-- C2, amended to warp widths `W = 2^k` with `k ≥ 2`: under the hypotheses of
the inclusive case the calls of `fout` made by `PrefixSum` with
`Type::exclusive` are exactly the pairs `(i, v[0] + ... + v[i-1])` with `i < N`
(the empty sum `0` for `i = 0`), and the value `x - x0` of a thread is the sum
of the elements of its warp strictly before its own. -/
theorem exclusive_scan_correct (env : Env) (k N : Nat) (v : Int → Int)
    (hW : env.W = 2 ^ k) (hk : 2 ≤ k) (hN : 1 ≤ N)
    (hov : N + nelms_per_block env.W - 1 ≤ 2147483647) (p : Int × Int)
    (x0 : Nat → Int) (t : Nat) :
    (p ∈ (PrefixSum env (N : Int) v ScanType.exclusive).fout_calls ↔
        ∃ i : Nat, i < N ∧ p = ((i : Int), prefixOf v i))
      ∧ scanWithinWarp env.W x0 t - x0 t
          = sumTo (fun lane => x0 (t / env.W * env.W + lane)) (t % env.W) := by
  constructor
  · simpa using fout_calls_iff env k hk hW N v ScanType.exclusive hN hov p
  · have hWpos : 0 < env.W := by rw [hW]; exact Nat.two_pow_pos k
    rw [scanWithinWarp_spec env.W hWpos x0 t, sumTo_succ, Nat.div_add_mod']
    ring

/-- Witness of C2: on a device of warp width 4, `n = 5` and `v = [1,2,3,4,5]`
give `out = [0,1,3,6,10]`, and the theorem applies to this run. -/
theorem exclusive_scan_correct_witness :
    (PrefixSum smallEnv 5 (fun i => i + 1) ScanType.exclusive).fout_calls
        = [(0, 0), (1, 1), (2, 3), (3, 6), (4, 10)]
      ∧ ((((4 : Int), (10 : Int)) ∈
          (PrefixSum smallEnv ((5 : Nat) : Int) (fun i => i + 1) ScanType.exclusive).fout_calls ↔
        ∃ i : Nat, i < 5 ∧ ((4 : Int), (10 : Int)) = ((i : Int), prefixOf (fun i => i + 1) i))
      ∧ scanWithinWarp smallEnv.W (fun j => (j : Int)) 6 - ((6 : Nat) : Int)
          = sumTo (fun lane => ((6 / smallEnv.W * smallEnv.W + lane : Nat) : Int))
              (6 % smallEnv.W)) :=
  ⟨by decide,
    exclusive_scan_correct smallEnv 2 5 (fun i => i + 1) rfl (by decide) (by decide)
      (by decide) (4, 10) (fun j => (j : Int)) 6⟩

/-- Counterexample to C2 as stated: with the warp width `W = 1 = 2^0`, `n = 3`
and `v = [1,1,1]` the exclusive scan hands `fout` the value `1` at index `2`,
where `v[0] + v[1] = 2`. -/
theorem exclusive_scan_narrow_warp :
    narrowEnv.W = 2 ^ 0
      ∧ (PrefixSum narrowEnv 3 (fun _ => 1) ScanType.exclusive).fout_calls
          = [(0, 0), (1, 1), (2, 1)]
      ∧ prefixOf (fun _ => 1) 2 = 2 := by
  decide

/-- C3 at a failing input: `n = 2147483646` passes the assertion of the
drivers, and on a device of warp width 32 both drivers then return the total
`0` for the input of all ones, whose sum is `2147483646`. -/
theorem total_at_overflow :
    InclusiveSum sampleEnv 2147483646 (fun _ => 1) = some ⟨0, [], []⟩
      ∧ ExclusiveSum sampleEnv 2147483646 (fun _ => 1) = some ⟨0, [], []⟩ := by
  decide

/-- C4 at a failing input: for `n = 2147483646` on a device of warp width 32
the block count is negative, no block runs, and `fout` is invoked for no index
at all. -/
theorem fout_never_called_at_overflow :
    nblocks sampleEnv.W 2147483646 < 0
      ∧ (PrefixSum sampleEnv 2147483646 (fun _ => 1) ScanType.inclusive).fout_calls = []
      ∧ (PrefixSum sampleEnv 2147483646 (fun _ => 1) ScanType.exclusive).fout_calls = [] := by
  decide

/-- C5: for every virtual block `vb`, on a warp of width `2^k`, and every
snapshot `cells` of the predecessor cells in which cell `j < vb` is read either
as `('p', agg 0 + ... + agg j)` or, for `j > 0` only, as `('a', agg j)`, the
`exclusive_prefix` that lane 0 accumulates is `agg 0 + ... + agg (vb-1)`. -/
theorem lookback_order_independent (k vb : Nat) (agg : Nat → Int) (cells : Nat → STVA)
    (hv : ∀ j, j < vb →
      cells j = ⟨'p', sumTo agg (j + 1)⟩ ∨ (0 < j ∧ cells j = ⟨'a', agg j⟩)) :
    lookback (2 ^ k) cells vb = sumTo agg vb :=
  lookback_spec k vb agg cells hv

/-- Witness of C5: block 7 on a warp of width 4 with the aggregates
`agg j = j + 1`, reading the cells 0, 3 and 4 as inclusive and the others as
aggregates. -/
theorem lookback_order_independent_witness :
    lookback (2 ^ 2)
        (fun j => if j = 0 ∨ j = 3 ∨ j = 4 then ⟨'p', sumTo (fun i => (i : Int) + 1) (j + 1)⟩
          else ⟨'a', (j : Int) + 1⟩) 7
      = sumTo (fun i => (i : Int) + 1) 7 :=
  lookback_order_independent 2 7 (fun i => (i : Int) + 1) _ (by
    intro j hj
    by_cases h : j = 0 ∨ j = 3 ∨ j = 4
    · left; rw [if_pos h]
    · right
      rw [if_neg h]
      exact ⟨by omega, rfl⟩)

/-- C6: for every `n <= 0` the function `PrefixSum` returns `0` and invokes
neither `fout` nor `fin`. -/
theorem nonpositive_count (env : Env) (n : Int) (fin : Int → Int) (ty : ScanType)
    (h : n ≤ 0) : PrefixSum env n fin ty = ⟨0, [], []⟩ := by
  unfold PrefixSum
  simp [h]

/-- Witness of C6: `n = -3`. -/
theorem nonpositive_count_witness :
    (-3 : Int) ≤ 0 ∧ PrefixSum sampleEnv (-3) (fun i => i) ScanType.exclusive = ⟨0, [], []⟩ :=
  ⟨by decide, nonpositive_count sampleEnv (-3) (fun i => i) ScanType.exclusive (by decide)⟩

/-- C7, amended: for every `n` in the range of `Long`, the assertion of
`InclusiveSum` and `ExclusiveSum` passes if and only if `n < 2^31 - 1`, and the
drivers run `PrefixSum` exactly when it passes. -/
theorem assertion_passes_iff (env : Env) (n : Int) (v : Int → Int)
    (h1 : -9223372036854775808 ≤ n) (h2 : n ≤ 9223372036854775807) :
    (sumAssertion n = true ↔ n < 2 ^ 31 - 1)
      ∧ ((InclusiveSum env n v).isSome = true ↔ n < 2 ^ 31 - 1)
      ∧ ((ExclusiveSum env n v).isSome = true ↔ n < 2 ^ 31 - 1) := by
  have h : sumAssertion n = true ↔ n < 2 ^ 31 - 1 := by
    unfold sumAssertion int_max
    rw [toLong_of_range h1 h2, toLong_of_range (by norm_num) (by norm_num)]
    simp
  refine ⟨h, ?_, ?_⟩
  · rw [← h]; unfold InclusiveSum
    cases sumAssertion n <;> simp
  · rw [← h]; unfold ExclusiveSum
    cases sumAssertion n <;> simp

/-- Witness of C7: `n = 2147483646` is the largest count that passes. -/
theorem assertion_passes_iff_witness :
    (sumAssertion 2147483646 = true ↔ (2147483646 : Int) < 2 ^ 31 - 1)
      ∧ ((InclusiveSum sampleEnv 2147483646 (fun _ => 1)).isSome = true
          ↔ (2147483646 : Int) < 2 ^ 31 - 1)
      ∧ ((ExclusiveSum sampleEnv 2147483646 (fun _ => 1)).isSome = true
          ↔ (2147483646 : Int) < 2 ^ 31 - 1) :=
  assertion_passes_iff sampleEnv 2147483646 (fun _ => 1) (by decide) (by decide)

/-- Counterexample to C7 as stated: `n = 2^31 - 1` is below `2^31` and the
assertion fails on it, so both drivers abort. -/
theorem assertion_rejects_int_max :
    (2147483647 : Int) < 2 ^ 31
      ∧ sumAssertion 2147483647 = false
      ∧ InclusiveSum sampleEnv 2147483647 (fun _ => 1) = none
      ∧ ExclusiveSum sampleEnv 2147483647 (fun _ => 1) = none := by
  decide

/-- C8 at a failing input: `n = 2147483646` passes the assertion of the
drivers, and with `E = 1536` (warp width 32) the host computes the block count
`-1398100`, where the ceiling of `n / E` is `1398102`. -/
theorem block_count_overflow :
    sumAssertion 2147483646 = true
      ∧ nelms_per_block 32 = 1536
      ∧ nblocks 32 2147483646 = -1398100
      ∧ ceilDiv 2147483646 (nelms_per_block 32) = 1398102 := by
  decide

/-- C10: starting from the counter `0`, the `B` operations `atomicInc` with
limit `B` return the ids `0, 1, ..., B-1` in this order, so each id below `B`
exactly once, and leave the counter at `1, 2, ..., B`, strictly increasing and
never `0`. -/
theorem virtual_ids_unique (B : Nat) :
    (claimIds B B 0).map Prod.fst = List.range B
      ∧ ((claimIds B B 0).map Prod.fst).Nodup
      ∧ (∀ id, id ∈ (claimIds B B 0).map Prod.fst ↔ id < B)
      ∧ (claimIds B B 0).map Prod.snd = (List.range B).map (fun j => j + 1)
      ∧ ((claimIds B B 0).map Prod.snd).Pairwise (fun a b => a < b)
      ∧ (∀ c, c ∈ (claimIds B B 0).map Prod.snd → c ≠ 0) := by
  have h1 : (claimIds B B 0).map Prod.fst = List.range B := claimIds_fst B
  have h2 : (claimIds B B 0).map Prod.snd = (List.range B).map (fun j => j + 1) := by
    rw [claimIds_eq B B 0 (by omega), List.map_map, List.range_eq_range']
    rfl
  refine ⟨h1, ?_, ?_, h2, ?_, ?_⟩
  · rw [h1]; exact List.nodup_range B
  · intro id; rw [h1, List.mem_range]
  · rw [h2, List.pairwise_map]
    exact List.Pairwise.imp (fun h => Nat.succ_lt_succ h) (List.pairwise_lt_range B)
  · intro c hc
    rw [h2, List.mem_map] at hc
    obtain ⟨j, _, rfl⟩ := hc
    omega

/-- C11: in a run of `PrefixSum` on a device of warp width `2^k`, `k ≥ 2`, with
a count `n` of type `int`, whenever the status cell of a launched virtual block
`vb` holds the status `'p'` after one of the block's writes, its value is the
sum of `v[i]` over all `i < min((vb+1)*E, n)`. -/
theorem inclusive_cell_value (env : Env) (k : Nat) (n : Int) (v : Int → Int) (ty : ScanType)
    (vb : Nat) (c : BlockStatus) (hW : env.W = 2 ^ k) (hk : 2 ≤ k)
    (hn1 : -2147483648 ≤ n) (hn2 : n ≤ 2147483647)
    (hE : nelms_per_block env.W ≤ 2147483647)
    (hvb : vb < (nblocks env.W n).toNat)
    (hc : c ∈ cellHistory env (nblocks env.W n).toNat vb (aggregateOf env n v ty vb)
      (exclusivePrefixes env (nblocks env.W n).toNat (aggregateOf env n v ty) (vb + 1) vb))
    (hp : c.read.status = 'p') :
    c.read.value = prefixOf v (min (nelms_per_block env.W * (vb + 1)) n.toNat) := by
  obtain ⟨N, rfl, hN, hov, hvb'⟩ := launched_block env.W n vb hn1 hn2 hE hvb
  have hW4 : 4 ≤ env.W := by rw [hW]; exact four_le_two_pow k hk
  have hE0 : 0 < nelms_per_block env.W := nelms_pos env.W (by omega)
  have hb := block_bounds hE0 hvb'
  rw [nblocks_eq env.W N hov hN, Int.toNat_ofNat] at hc
  rw [Int.toNat_ofNat]
  by_cases hg : 1 < (N + nelms_per_block env.W - 1) / nelms_per_block env.W
  · rw [cellHistory_inclusive env _ vb _ _ hg c hc hp,
      aggregateOf_eq env hW4 N v ty hov vb hvb']
    have e2 : min (nelms_per_block env.W * vb) N = nelms_per_block env.W * vb := by omega
    by_cases h0 : vb = 0
    · subst h0
      rw [if_pos rfl]
      simp [prefixOf, sumTo]
    · rw [if_neg h0, exclusivePrefix_eq env k hk hW N v ty hov vb hvb' (by omega), e2]
      ring
  · have h0 : vb = 0 := by omega
    subst h0
    rw [cellHistory_single env _ _ _ hg] at hc
    cases hc

/-- Witness of C11: the second of the two blocks of a run with `n = 200` on a
device of warp width 4, and the state of its cell after its second write. -/
theorem inclusive_cell_value_witness :
    ((((smallEnv.cell0 1).set_status 'x').write 'a'
          (aggregateOf smallEnv 200 (fun _ => 1) ScanType.inclusive 1)).write 'p'
        ((((smallEnv.cell0 1).set_status 'x').write 'a'
            (aggregateOf smallEnv 200 (fun _ => 1) ScanType.inclusive 1)).get_aggregate
          + exclusivePrefixes smallEnv (nblocks smallEnv.W 200).toNat
              (aggregateOf smallEnv 200 (fun _ => 1) ScanType.inclusive) (1 + 1) 1)).read.value
      = prefixOf (fun _ => 1) (min (nelms_per_block smallEnv.W * (1 + 1)) (200 : Int).toNat) :=
  inclusive_cell_value smallEnv 2 200 (fun _ => 1) ScanType.inclusive 1 _ rfl (by decide)
    (by decide) (by decide) (by decide) (by decide)
    (by
      have hg : 1 < (nblocks smallEnv.W 200).toNat := by decide
      unfold cellHistory
      simp only [hg, if_true]
      simp)
    (by rw [read_write_p])

/-- C12: in every run with `gridDim > 1` the statuses that the cell of virtual
block `vb` takes, from `set_status('x')` on and through the writes of the kernel
in program order, are `'x', 'p'` for `vb = 0` and `'x', 'a', 'p'` for `vb > 0`;
and no two blocks claim the same virtual id, so no two blocks write one cell. -/
theorem status_transitions (env : Env) (gridDim vb : Nat) (agg ep : Int)
    (hg : 1 < gridDim) :
    ((env.cell0 vb).set_status 'x' :: cellHistory env gridDim vb agg ep).map
          (fun c => c.read.status)
        = (if vb = 0 then ['x', 'p'] else ['x', 'a', 'p'])
      ∧ ((claimIds gridDim gridDim 0).map Prod.fst).Nodup := by
  refine ⟨cellHistory_status env gridDim vb agg ep hg, ?_⟩
  rw [claimIds_fst]
  exact List.nodup_range gridDim

/-- Witness of C12: the cell of virtual block 2 in a grid of 3 blocks. -/
theorem status_transitions_witness :
    ((smallEnv.cell0 2).set_status 'x' :: cellHistory smallEnv 3 2 5 7).map
          (fun c => c.read.status)
        = (if 2 = 0 then ['x', 'p'] else ['x', 'a', 'p'])
      ∧ ((claimIds 3 3 0).map Prod.fst).Nodup :=
  status_transitions smallEnv 3 2 5 7 (by decide)

/-- C13: in both layouts of the status cell, for every value `v` and every
status `s` among `'a'` and `'p'`, `read()` after `write(s, v)` returns
`{s, v}`, and `read()` after `write('a', a)` followed by `write('p', p)`
returns `{'p', p}`. -/
theorem cell_round_trip (c : BlockStatus) (s : Char) (v a p : Int)
    (hs : s = 'a' ∨ s = 'p') :
    (c.write s v).read = ⟨s, v⟩ ∧ ((c.write 'a' a).write 'p' p).read = ⟨'p', p⟩ := by
  refine ⟨?_, read_write_p _ p⟩
  rcases hs with rfl | rfl
  · exact read_write_a c v
  · exact read_write_p c v

/-- Witness of C13: an unpacked cell, written with `('a', 11)`. -/
theorem cell_round_trip_witness :
    ((BlockStatus.unpacked 3 4 'x').write 'a' 11).read = ⟨'a', 11⟩
      ∧ (((BlockStatus.unpacked 3 4 'x').write 'a' 5).write 'p' 9).read = ⟨'p', 9⟩ :=
  cell_round_trip (BlockStatus.unpacked 3 4 'x') 'a' 11 5 9 (Or.inl rfl)

/-- C14: the result of `PrefixSum`, that is the calls of `fout` and `fin` and
the returned total, does not depend on the layout or on the initial content of
the status cells, so it is the same for packed cells `c1` and unpacked cells
`c2`; and after `set_status('x')` every `read()` that follows a write of the
kernel and every `get_aggregate()` return the same in any two cells. -/
theorem layout_equivalence (env : Env) (c1 c2 : Nat → BlockStatus) (n : Int)
    (fin : Int → Int) (ty : ScanType) (j : Nat) (a p : Int) :
    PrefixSum { env with cell0 := c1 } n fin ty = PrefixSum { env with cell0 := c2 } n fin ty
      ∧ (((c1 j).set_status 'x').write 'a' a).read = (((c2 j).set_status 'x').write 'a' a).read
      ∧ (((c1 j).set_status 'x').write 'a' a).get_aggregate
          = (((c2 j).set_status 'x').write 'a' a).get_aggregate
      ∧ ((((c1 j).set_status 'x').write 'a' a).write 'p' p).read
          = ((((c2 j).set_status 'x').write 'a' a).write 'p' p).read
      ∧ (((c1 j).set_status 'x').write 'p' p).read
          = (((c2 j).set_status 'x').write 'p' p).read := by
  refine ⟨?_, ?_, ?_, ?_, ?_⟩
  · rw [PrefixSum_cell0 env c1, PrefixSum_cell0 env c2]
  · rw [read_write_a, read_write_a]
  · rw [get_aggregate_write_a, get_aggregate_write_a]
  · rw [read_write_p, read_write_p]
  · rw [read_write_p, read_write_p]

/-- C15: with `B` blocks the allocation has `align(sizeof(BlockStatus) * B) +
align(4) + align(sizeof(T))` bytes, the status array starts at offset `0`, the
counter at `align(sizeof(BlockStatus) * B)` and the sink at
`align(sizeof(BlockStatus) * B) + align(4)`; and for every `align` with
`align(s) >= s` the `B` status cells end where or before the counter starts, the
4-byte counter ends where or before the sink starts, and the sink ends inside
the allocation. -/
theorem scratch_layout (align : Nat → Nat) (sizeofBlockStatusT sizeofT B : Nat)
    (h : ∀ s, s ≤ align s) :
    (scratchLayout align sizeofBlockStatusT sizeofT B).nbytes
        = align (sizeofBlockStatusT * B) + align 4 + align sizeofT
      ∧ (scratchLayout align sizeofBlockStatusT sizeofT B).block_status_p = 0
      ∧ (scratchLayout align sizeofBlockStatusT sizeofT B).virtual_block_id_p
          = align (sizeofBlockStatusT * B)
      ∧ (scratchLayout align sizeofBlockStatusT sizeofT B).totalsum_p
          = align (sizeofBlockStatusT * B) + align 4
      ∧ (scratchLayout align sizeofBlockStatusT sizeofT B).block_status_p
            + sizeofBlockStatusT * B
          ≤ (scratchLayout align sizeofBlockStatusT sizeofT B).virtual_block_id_p
      ∧ (scratchLayout align sizeofBlockStatusT sizeofT B).virtual_block_id_p + 4
          ≤ (scratchLayout align sizeofBlockStatusT sizeofT B).totalsum_p
      ∧ (scratchLayout align sizeofBlockStatusT sizeofT B).totalsum_p + sizeofT
          ≤ (scratchLayout align sizeofBlockStatusT sizeofT B).nbytes := by
  have h1 := h (sizeofBlockStatusT * B)
  have h2 := h 4
  have h3 := h sizeofT
  refine ⟨rfl, rfl, rfl, rfl, ?_, ?_, ?_⟩ <;> simp only [scratchLayout] <;> omega

/-- Witness of C15: three cells of 16 bytes, an 8-byte `T`, and the rounding up
to a multiple of 16. -/
theorem scratch_layout_witness :
    (scratchLayout (fun s => (s + 15) / 16 * 16) 16 8 3).nbytes
        = (16 * 3 + 15) / 16 * 16 + (4 + 15) / 16 * 16 + (8 + 15) / 16 * 16
      ∧ (scratchLayout (fun s => (s + 15) / 16 * 16) 16 8 3).block_status_p = 0
      ∧ (scratchLayout (fun s => (s + 15) / 16 * 16) 16 8 3).virtual_block_id_p
          = (16 * 3 + 15) / 16 * 16
      ∧ (scratchLayout (fun s => (s + 15) / 16 * 16) 16 8 3).totalsum_p
          = (16 * 3 + 15) / 16 * 16 + (4 + 15) / 16 * 16
      ∧ (scratchLayout (fun s => (s + 15) / 16 * 16) 16 8 3).block_status_p + 16 * 3
          ≤ (scratchLayout (fun s => (s + 15) / 16 * 16) 16 8 3).virtual_block_id_p
      ∧ (scratchLayout (fun s => (s + 15) / 16 * 16) 16 8 3).virtual_block_id_p + 4
          ≤ (scratchLayout (fun s => (s + 15) / 16 * 16) 16 8 3).totalsum_p
      ∧ (scratchLayout (fun s => (s + 15) / 16 * 16) 16 8 3).totalsum_p + 8
          ≤ (scratchLayout (fun s => (s + 15) / 16 * 16) 16 8 3).nbytes :=
  scratch_layout (fun s => (s + 15) / 16 * 16) 16 8 3
    (fun s => by show s ≤ (s + 15) / 16 * 16; omega)

/-- C16: on an unpacked cell that held `m0`, under every interleaving `sched` of
the two stores of `write(a_status, a_value)`, `a_status` being `'a'` or `'p'`,
with the loads of a concurrent `read()`, a `read()` that has returned returns
either what `read()` gives on `m0` or the pair `{a_status, a_value}`, and it
has returned once the reader has performed three steps. -/
theorem unpacked_read_consistent (m0 : Slots) (a_status : Char) (a_value : Int)
    (sched : List Bool) (hs : a_status = 'a' ∨ a_status = 'p') :
    (∀ r, ((Race.mk m0 (writeStores a_status a_value) ReadPc.load1).run sched).reader
          = ReadPc.ret r →
        r = (BlockStatus.unpacked m0.aggregate m0.inclusive m0.status).read
          ∨ r = ⟨a_status, a_value⟩)
      ∧ ∃ r, ((Race.mk m0 (writeStores a_status a_value) ReadPc.load1).run
          (sched ++ [false, false, false])).reader = ReadPc.ret r := by
  refine ⟨fun r hr => ?_, ?_⟩
  · exact raceInv_ret m0 a_status a_value _ r
      (raceInv_run m0 a_status a_value hs sched _ (raceInv_init m0 a_status a_value)) hr
  · rw [run_append]
    exact reader_returns _

/-- Witness of C16: a cell that holds the aggregate `5` with status `'a'`, the
write of `('p', 9)`, and the interleaving reader, writer, reader, writer,
reader. -/
theorem unpacked_read_consistent_witness :
    (∀ r, ((Race.mk ⟨5, 0, 'a'⟩ (writeStores 'p' 9) ReadPc.load1).run
            [false, true, false, true, false]).reader = ReadPc.ret r →
        r = (BlockStatus.unpacked 5 0 'a').read ∨ r = ⟨'p', 9⟩)
      ∧ ∃ r, ((Race.mk ⟨5, 0, 'a'⟩ (writeStores 'p' 9) ReadPc.load1).run
          ([false, true, false, true, false] ++ [false, false, false])).reader = ReadPc.ret r :=
  unpacked_read_consistent ⟨5, 0, 'a'⟩ 'p' 9 [false, true, false, true, false] (Or.inr rfl)

/-- C17, amended: for every warp width `W >= 1` and every lane values `x0`, the
loop of the code leaves `x0[0] + ... + x0[l]` on lane `l`; and for every `W`
that is a power of two the scan that uses the strides `1, 2, ..., W/2` only
gives the same on every lane. -/
theorem warp_scan_correct (W : Nat) (x0 : Nat → Int) (lane : Nat) (h : lane < W) :
    warpScan W x0 lane = sumTo x0 (lane + 1)
      ∧ ∀ k, W = 2 ^ k → specWarpScan W x0 lane = warpScan W x0 lane := by
  refine ⟨warpScan_spec W x0 lane h, ?_⟩
  intro k hk
  subst hk
  rw [specWarpScan_pow k x0 lane h, warpScan_spec (2 ^ k) x0 lane h]

/-- Witness of C17: lane 5 of a warp of width 8. -/
theorem warp_scan_correct_witness :
    warpScan 8 (fun l => (l : Int) + 1) 5 = sumTo (fun l => (l : Int) + 1) (5 + 1)
      ∧ ∀ k, 8 = 2 ^ k →
          specWarpScan 8 (fun l => (l : Int) + 1) 5 = warpScan 8 (fun l => (l : Int) + 1) 5 :=
  warp_scan_correct 8 (fun l => (l : Int) + 1) 5 (by decide)

/-- Counterexample to C17 as stated: for the warp width `W = 3` and the lane
values `[1,1,1]` the loop of the code leaves `3` on lane 2 and the scan with
the strides up to `W/2` leaves `2`. -/
theorem warp_scan_width_three :
    warpScan 3 (fun _ => 1) 2 = 3 ∧ specWarpScan 3 (fun _ => 1) 2 = 2 := by
  decide

/-- C18: for `nwarps <= W` and every `w < nwarps`, after the second barrier
`shared2[w]`, that is `shared[W + w]`, is `shared[0] + ... + shared[w]` in the
CUDA build, in the HIP build and in the SYCL build. -/
theorem warp_sums_scan (W nwarps : Nat) (shared : Nat → Int) (w : Nat)
    (hn : nwarps ≤ W) (hw : w < nwarps) :
    scanWarpSums W nwarps shared (W + w) = sumTo shared (w + 1)
      ∧ scanWarpSumsHIP W nwarps shared (W + w) = sumTo shared (w + 1)
      ∧ scanWarpSumsSYCL W nwarps shared (W + w) = sumTo shared (w + 1) :=
  scanWarpSums_variants W nwarps shared w hn hw

/-- Witness of C18: four warps of width 32 and eight sub-groups of width 16. -/
theorem warp_sums_scan_witness :
    (scanWarpSums 32 4 (fun a => (a : Int) + 1) (32 + 3)
          = sumTo (fun a => (a : Int) + 1) (3 + 1)
        ∧ scanWarpSumsHIP 32 4 (fun a => (a : Int) + 1) (32 + 3)
          = sumTo (fun a => (a : Int) + 1) (3 + 1)
        ∧ scanWarpSumsSYCL 32 4 (fun a => (a : Int) + 1) (32 + 3)
          = sumTo (fun a => (a : Int) + 1) (3 + 1))
      ∧ scanWarpSumsSYCL 16 8 (fun a => (a : Int) + 1) (16 + 7) = 36 :=
  ⟨warp_sums_scan 32 4 (fun a => (a : Int) + 1) 3 (by decide) (by decide), by decide⟩

/-- C19: in a run of `PrefixSum` on a device of warp width at least 4 with a
count `n` of type `int`, after the chunk loop of a launched virtual block `vb`
every thread `t` holds in `sum_prev_chunk` the sum of `v[i]` over
`ibegin <= i < iend`. -/
theorem block_aggregate (env : Env) (n : Int) (v : Int → Int) (ty : ScanType) (vb t : Nat)
    (hW : 4 ≤ env.W) (hn1 : -2147483648 ≤ n) (hn2 : n ≤ 2147483647)
    (hE : nelms_per_block env.W ≤ 2147483647) (hvb : vb < (nblocks env.W n).toNat) :
    (scanPhase env n v ty vb).sum_prev_chunk t
      = prefixOf v (iend env.W n vb).toNat - prefixOf v (ibegin env.W vb).toNat := by
  obtain ⟨N, rfl, hN, hov, hvb'⟩ := launched_block env.W n vb hn1 hn2 hE hvb
  have hE0 : 0 < nelms_per_block env.W := nelms_pos env.W (by omega)
  have hb := block_bounds hE0 hvb'
  rw [toNat_iend env.W N vb (by omega), toNat_ibegin env.W vb (by omega)]
  exact sum_prev_chunk_eq env hW N v ty hov vb hvb' t

/-- Witness of C19: the second and last block of a run with `n = 200` on a
device of warp width 4, whose range `[192, 200)` is shorter than one chunk. -/
theorem block_aggregate_witness :
    (1 < (nblocks smallEnv.W 200).toNat ∧ ibegin smallEnv.W 1 = 192
        ∧ iend smallEnv.W 200 1 = 200)
      ∧ (scanPhase smallEnv 200 (fun i => i) ScanType.exclusive 1).sum_prev_chunk 9
          = prefixOf (fun i => i) (iend smallEnv.W 200 1).toNat
            - prefixOf (fun i => i) (ibegin smallEnv.W 1).toNat :=
  ⟨by decide,
    block_aggregate smallEnv 200 (fun i => i) ScanType.exclusive 1 9 (by decide) (by decide)
      (by decide) (by decide) (by decide)⟩

/-- C20: for every `vb > 0` in a run with `gridDim > 1`, whatever the other
cells hold and whenever they are read, the window loop of warp 0 leaves through
`stop_lookback` after at least one and at most `ceil(vb / W)` iterations. -/
theorem lookback_cost (env : Env) (gridDim vb : Nat) (agg ep : Nat → Int)
    (hW : 0 < env.W) (hg : 1 < gridDim) (hvb : 0 < vb) :
    ∃ cnt, lookbackSteps env.W
          (fun j => waitResult ((env.cell0 j).set_status 'x')
            (cellHistory env gridDim j (agg j) (ep j)) (env.late vb j))
          vb ((vb : Int) - 1) 0 = (cnt, LoopExit.byStop)
      ∧ 1 ≤ cnt ∧ cnt ≤ (vb + env.W - 1) / env.W := by
  apply lookbackSteps_kernel env.W hW _ _ vb hvb
  rw [waitResult_zero env gridDim hg]

/-- Witness of C20: block 70 of a grid of 100 blocks on a device of warp width
32 needs at most 3 windows. -/
theorem lookback_cost_witness :
    ∃ cnt, lookbackSteps sampleEnv.W
          (fun j => waitResult ((sampleEnv.cell0 j).set_status 'x')
            (cellHistory sampleEnv 100 j ((fun _ => 1) j) ((fun i => (i : Int)) j))
            (sampleEnv.late 70 j))
          70 (((70 : Nat) : Int) - 1) 0 = (cnt, LoopExit.byStop)
      ∧ 1 ≤ cnt ∧ cnt ≤ (70 + sampleEnv.W - 1) / sampleEnv.W :=
  lookback_cost sampleEnv 100 70 (fun _ => 1) (fun i => (i : Int)) (by decide) (by decide)
    (by decide)

/-- C21: for every mask `status_bf` with bit 0 clear and `status_bf != 0`, and
every lane `l < W`, the serial `bit_mask <<= 1` walk leaves on lane `l` the
value `y` it read if `l <= k` and `0` if `l > k`, where `k` is the count of
trailing zeros of `status_bf`; it sets `stop_lookback` exactly when `k < W`,
so for every mask over the `W` lanes (`status_bf < 2^W`); and for
`status_bf == 0` every lane keeps its value and `stop_lookback` stays false. -/
theorem lowest_set_bit_masking (W status_bf lane : Nat) (y : Int)
    (h0 : status_bf.testBit 0 = false) (hne : status_bf ≠ 0) (hl : lane < W) :
    (maskWalk W status_bf lane y).1 = (if lane ≤ countTrailingZeros status_bf then y else 0)
      ∧ ((maskWalk W status_bf lane y).2 = true ↔ countTrailingZeros status_bf < W)
      ∧ (status_bf < 2 ^ W → (maskWalk W status_bf lane y).2 = true)
      ∧ maskWalk W 0 lane y = (y, false) := by
  rw [maskWalk_ctz W status_bf lane y h0 hne hl]
  refine ⟨rfl, by simp, fun hlt => ?_, by simp [maskWalk]⟩
  simpa using countTrailingZeros_lt W status_bf hne hlt

/-- Witness of C21: the mask `0b101000` on a warp of width 8, whose lowest set
bit is bit 3: lane 3 keeps the value `7` it read and lane 4 is set to `0`. -/
theorem lowest_set_bit_masking_witness :
    (countTrailingZeros 40 = 3 ∧ maskWalk 8 40 3 7 = (7, true) ∧ maskWalk 8 40 4 7 = (0, true))
      ∧ ((maskWalk 8 40 4 7).1 = (if 4 ≤ countTrailingZeros 40 then 7 else 0)
        ∧ ((maskWalk 8 40 4 7).2 = true ↔ countTrailingZeros 40 < 8)
        ∧ (40 < 2 ^ 8 → (maskWalk 8 40 4 7).2 = true)
        ∧ maskWalk 8 0 4 7 = (7, false)) :=
  ⟨by decide, lowest_set_bit_masking 8 40 4 7 (by decide) (by decide) (by decide)⟩

/-- C22: for every warp width `W = 2^k` and all lane values `x`, after the loop
`x += shuffle_down(x, i)` for `i = W/2, W/4, ..., 1` lane 0 holds
`x[0] + x[1] + ... + x[W-1]`. -/
theorem window_reduction (k : Nat) (x : Nat → Int) :
    reduceLoop (2 ^ k) (2 ^ k) (2 ^ k / 2) x 0 = sumTo x (2 ^ k) :=
  reduceLoop_spec (2 ^ k) k (2 ^ k) x (Nat.le_of_lt (Nat.lt_two_pow k)) (le_refl _)

/-- C23, amended to widths up to 32: for every sub-group width `W = 2^k` with
`k <= 5` and every vector `pred` of per-lane observations, after the
`shuffle_xor` butterfly every lane `lane < W` holds the mask that the native
ballot returns, in which bit `l` is set if and only if lane `l` observed
`INCLUSIVE`. -/
theorem ballot_emulation (pred : Nat → Bool) (k lane : Nat) (hk : k ≤ 5)
    (hl : lane < 2 ^ k) :
    ballotSYCL pred (2 ^ k) lane = ballot pred (2 ^ k)
      ∧ ∀ l, (ballotSYCL pred (2 ^ k) lane).testBit l = true ↔ (l < 2 ^ k ∧ pred l = true) := by
  have h := ballotSYCL_eq pred k hk lane hl
  refine ⟨h, fun l => ?_⟩
  rw [h]
  exact testBit_ballot pred (2 ^ k) l

/-- Witness of C23: the lanes `0, 3, 6, ...` of a sub-group of width 16
observed `INCLUSIVE`. -/
theorem ballot_emulation_witness :
    ballotSYCL (fun l => l % 3 == 0) (2 ^ 4) 5 = ballot (fun l => l % 3 == 0) (2 ^ 4)
      ∧ ∀ l, (ballotSYCL (fun l => l % 3 == 0) (2 ^ 4) 5).testBit l = true
          ↔ (l < 2 ^ 4 ∧ (fun l => l % 3 == 0) l = true) :=
  ballot_emulation (fun l => l % 3 == 0) 4 5 (by decide) (by decide)

/-- Counterexample to C23 as stated: on a sub-group of width 64 in which lane
40 alone observed `INCLUSIVE`, the native ballot returns the mask `2^40`, and
the 32-bit word that lane 0 (and lane 40 itself) holds after the butterfly
is `0`. -/
theorem ballot_emulation_width_64 :
    ballot (fun l => l == 40) 64 = 2 ^ 40
      ∧ ballotSYCL (fun l => l == 40) 64 0 = 0
      ∧ ballotSYCL (fun l => l == 40) 64 40 = 0 := by
  decide

/-- C24 at a failing input: for `n = 2147483646` on a device of warp width 32
the block count is negative, the grid is empty and no thread adds to the sink,
in either scan type; for comparison, with `n = 5` and `v = [1,2,3,4,5]` on a
device of warp width 4 the sink receives one addition (`15`) in an inclusive
scan and two (`v[4] = 5`, then `out[4] = 10`) in an exclusive scan. -/
theorem sink_untouched_at_overflow :
    nblocks sampleEnv.W 2147483646 < 0
      ∧ sinkLog sampleEnv 2147483646 (fun _ => 1) ScanType.inclusive = []
      ∧ sinkLog sampleEnv 2147483646 (fun _ => 1) ScanType.exclusive = []
      ∧ sinkLog smallEnv 5 (fun i => i + 1) ScanType.inclusive = [15]
      ∧ sinkLog smallEnv 5 (fun i => i + 1) ScanType.exclusive = [5, 10] := by
  decide

/-- C25: for every element type of size `s >= 1` and alignment `a = 2^k`
dividing `s`, the struct `STVA<T>` has the size `a + s`, and the test
`sizeof(STVA<T>) <= 8` that selects the packed layout holds if and only if
`1 + s <= 8`. -/
theorem layout_selection (s a k : Nat) (hs : 1 ≤ s) (ha : a = 2 ^ k) (hd : a ∣ s) :
    sizeofSTVA s a = a + s ∧ (packedSelected s a = true ↔ 1 + s ≤ 8) := by
  have hpos : 0 < a := by rw [ha]; exact Nat.two_pow_pos k
  have hsz := sizeofSTVA_eq s a hpos hd
  refine ⟨hsz, ?_⟩
  unfold packedSelected
  rw [hsz, decide_eq_true_iff]
  constructor
  · intro h; omega
  · intro h
    obtain ⟨q, hq⟩ := hd
    have hq1 : 1 ≤ q := by
      rcases Nat.eq_zero_or_pos q with h0 | h0
      · subst h0; omega
      · exact h0
    have hale : a ≤ s := by
      rw [hq]; exact Nat.le_mul_of_pos_right a hq1
    have hk : k ≤ 2 := by
      by_contra hc
      have : 2 ^ 3 ≤ 2 ^ k := Nat.pow_le_pow_right (by omega) (by omega)
      omega
    interval_cases k
    · simp at ha; omega
    · simp at ha; subst ha; omega
    · simp at ha; subst ha; omega

/-- Witness of C25: a 4-byte element of alignment 4 gives a struct of 8 bytes
and the packed layout. -/
theorem layout_selection_witness :
    sizeofSTVA 4 4 = 4 + 4 ∧ (packedSelected 4 4 = true ↔ 1 + 4 ≤ 8) :=
  layout_selection 4 4 2 (by decide) (by decide) (by decide)

/-- C26, amended: for `n = 1_000_003` the host launches 652 blocks when
`E = 1536` (warp width 32 with 4 warps per block, or sub-group width 16 with 8
on the SYCL path) and 326 blocks when `E = 3072` (warp width 64, or sub-group
width 32 on the SYCL path); and for no warp width up to 1024, on either path,
is the block count 257. -/
theorem block_count_million (W : Nat) (hW : W ≤ 1024) :
    nblocks W 1000003 ≠ 257 ∧ nblocks_sycl W 1000003 ≠ 257
      ∧ nblocks 32 1000003 = 652 ∧ nblocks 64 1000003 = 326
      ∧ nblocks_sycl 16 1000003 = 652 ∧ nblocks_sycl 32 1000003 = 326 := by
  refine ⟨?_, ?_, by decide, by decide, by decide, by decide⟩
  · rcases Nat.eq_zero_or_pos W with h0 | h0
    · subst h0; decide
    · have hE : nelms_per_block W = 48 * W := by
        unfold nelms_per_block nthreads nwarps_per_block nchunks; omega
      have h := nblocks_eq W 1000003 (by rw [hE]; omega) (by omega)
      simp only [Nat.cast_ofNat] at h
      rw [h]
      intro hc
      have hc' : (1000003 + nelms_per_block W - 1) / nelms_per_block W = 257 := by
        exact_mod_cast hc
      exact div_ne_of_bounds _ _ 257 (by rw [hE]; omega) (by rw [hE]; omega) hc'
  · rcases Nat.eq_zero_or_pos W with h0 | h0
    · subst h0; decide
    · have hE : nelms_per_block_sycl W = 96 * W := by
        unfold nelms_per_block_sycl nwarps_per_block_sycl; omega
      have h := block_count_eq (nelms_per_block_sycl W) 1000003 (by rw [hE]; omega) (by omega)
      simp only [Nat.cast_ofNat] at h
      unfold nblocks_sycl
      rw [h]
      intro hc
      have hc' : (1000003 + nelms_per_block_sycl W - 1) / nelms_per_block_sycl W = 257 := by
        exact_mod_cast hc
      exact div_ne_of_bounds _ _ 257 (by rw [hE]; omega) (by rw [hE]; omega) hc'

/-- Witness of C26: the warp width 32. -/
theorem block_count_million_witness :
    nblocks 32 1000003 ≠ 257 ∧ nblocks_sycl 32 1000003 ≠ 257
      ∧ nblocks 32 1000003 = 652 ∧ nblocks 64 1000003 = 326
      ∧ nblocks_sycl 16 1000003 = 652 ∧ nblocks_sycl 32 1000003 = 326 :=
  block_count_million 32 (by decide)

/-- Counterexample to C26 as stated: with the code's geometry the block count
for `n = 1_000_003` is 652 on a device of warp width 32 and 326 on one of warp
width 64, and 652 and 326 for the sub-group widths 16 and 32 of the SYCL path;
none of them is 257. -/
theorem block_count_not_257 :
    nblocks 32 1000003 = 652 ∧ nblocks 64 1000003 = 326
      ∧ nblocks_sycl 16 1000003 = 652 ∧ nblocks_sycl 32 1000003 = 326 := by
  decide

/-- C27 on the code: the host branch of `Gpu::exclusive_scan` writes
`out[i] = in[0] + ... + in[i-1]` for every `i < N`, and the iterator it returns
is ahead of `result` by `0` for `N = 0` and by `N + 1`, not `N`, for `N >= 1`,
where the device branch and the host branch of `inclusive_scan` return
`result + N`; for the input `[7]` it returns `result + 2`. -/
theorem exclusive_scan_host_end (input : List Int) :
    (exclusive_scan_host input).1 = (List.range input.length).map (fun i => (input.take i).sum)
      ∧ (exclusive_scan_host input).2 = (if input = [] then 0 else input.length + 1)
      ∧ scan_device_end input = input.length
      ∧ (inclusive_scan_host input).2 = input.length
      ∧ exclusive_scan_host [7] = ([0], 2)
      ∧ exclusive_scan_host [1, 2, 3] = ([0, 1, 3], 4) := by
  rw [exclusive_scan_host_spec]
  exact ⟨rfl, rfl, rfl, rfl, by decide, by decide⟩

/-- C28: in exact rational arithmetic, for every exponent `iexp < 512` the
binary-decomposition loop of `detail::atof` returns `d = 10^iexp` without
reading `powers` outside its 9 entries, and for every literal
`[sign] digits [. digits] [e [sign] digits]` whose exponent digits write a
number below 512 the result of `atof` is `sign * (integer part + fraction /
10^(number of fraction digits)) * 10^(signed exponent)`. -/
theorem atof_exact (l : Literal) (iexp : Nat) (hw : l.wellFormed)
    (hb : ∀ e, l.exponent = some e → digitsValue e.2 < 512) (hi : iexp < 512) :
    powLoop (nmaxOf (iexp : Int) + 1) 0 (iexp : Int) 1 = some ((10 : ℚ) ^ iexp)
      ∧ atof l.chars = some l.value :=
  ⟨pow_table iexp hi, atof_literal l hw hb⟩

/-- Witness of C28: the literal `3.14` parses to `314/100`, and the exponent
`511` to `10^511`. -/
theorem atof_exact_witness :
    powLoop (nmaxOf ((511 : Nat) : Int) + 1) 0 ((511 : Nat) : Int) 1 = some ((10 : ℚ) ^ 511)
      ∧ atof ['3', '.', '1', '4'] = some (314 / 100) := by
  have h := atof_exact ⟨none, [3], some [1, 4], none⟩ 511
    ⟨by decide, fun f hf => by cases hf; decide, fun e he => by cases he⟩
    (fun e he => by cases he) (by decide)
  have e : (Literal.mk none [3] (some [1, 4]) none).value = 314 / 100 := by
    simp only [Literal.value, fractionValue, exponentValue, digitsValue, List.foldl,
      List.length, if_neg (by decide : ¬ ((none : Option Bool) = some true))]
    norm_num
  rw [e] at h
  exact h

end Scan
end AMReX
